import Mathlib

/-!
# Attack tables and attack query (`src/attack.cpp`)

A shallow embedding of `attack_init`, `add_attack` and `is_attacked`.

* Machine integers are `Int`/`Nat`; a store into a `uint8_t` cell keeps the value
  modulo 256 (`toU8`), a store into an `int8_t` cell wraps into -128..127 (`toI8`).
* Every global array is a function on `Fin n`, `n` being its declared length.
  An access whose index is outside `0..n-1` is undefined behaviour in the source
  and yields `Fault.outOfBounds` here.
* The `while` loop of `is_attacked` runs on fuel; running out yields
  `Fault.outOfFuel`.
* The headers (`board.h`, `colour.h`, `piece.h`, `square.h`, `vector.h`,
  `attack.h`) are not part of the source tree; what `attack.cpp` uses from them
  is modelled in the first section: the 16 x 16 mailbox board with a1 = 0x44 and
  h8 = 0xBB, deltas biased by 119, one flag bit per piece class.
* The variables `to` and `from` of the source are `to_` and `from_` here.
* Each loop of `attack_init` is a definition of its own, named after what it fills and
  commented with its source lines; `attack_init` runs them in source order.
-/

namespace Attack

/-- The two ways a run of the model can fail to produce a value. -/
inductive Fault where
  | outOfBounds
  | outOfFuel
  deriving DecidableEq

/-! ## Declarations of the absent headers -/

/-- Modelled from the spec: `SquareNb` (absent header square.h), the number of cells
of the padded mailbox board, 16 files by 16 ranks. -/
abbrev SquareNb : Nat := 256

/-- Modelled from the spec: `SquareNone` (absent header square.h), the sentinel
"no square" that ends a piece list. -/
def SquareNone : Int := 0

/-- Modelled from the spec: `DeltaNb` (absent header vector.h), the number of biased
deltas, `2 * 119 + 1`. -/
abbrev DeltaNb : Nat := 239

/-- Modelled from the spec: `DeltaOffset` (absent header vector.h), the additive bias
that sends the most negative valid displacement, -119, to index 0. -/
def DeltaOffset : Int := 119

/-- Modelled from the spec: `DeltaNone` (absent header vector.h), the "no delta"
value. -/
def DeltaNone : Int := 0

/-- Modelled from the spec: `IncNb` (absent header vector.h), the number of biased
increments, `2 * 17 + 1`. -/
abbrev IncNb : Nat := 35

/-- Modelled from the spec: `IncOffset` (absent header vector.h), the bias of the
increment index space. -/
def IncOffset : Int := 17

/-- Modelled from the spec: `IncNone` (absent header vector.h), the "no direction"
value. -/
def IncNone : Int := 0

/-- Modelled from the spec: `PieceNb` (absent header piece.h), the number of piece
codes. -/
abbrev PieceNb : Nat := 256

/-- Modelled from the spec: `White` (absent header colour.h). -/
def White : Int := 0

/-- Modelled from the spec: `Black` (absent header colour.h). -/
def Black : Int := 1

/-- Modelled from the spec: `WhitePawnFlag` (absent header piece.h), one bit per
piece class. -/
def WhitePawnFlag : Nat := 4

/-- Modelled from the spec: `BlackPawnFlag` (absent header piece.h). -/
def BlackPawnFlag : Nat := 8

/-- Modelled from the spec: `KnightFlag` (absent header piece.h). -/
def KnightFlag : Nat := 16

/-- Modelled from the spec: `BishopFlag` (absent header piece.h). -/
def BishopFlag : Nat := 32

/-- Modelled from the spec: `RookFlag` (absent header piece.h). -/
def RookFlag : Nat := 64

/-- Modelled from the spec: `KingFlag` (absent header piece.h). -/
def KingFlag : Nat := 128

/-- Modelled from the spec: `Empty` (absent header board.h), the content of an
unoccupied square. -/
def Empty : Int := 0

/-- Modelled from the spec: `WP` (absent header piece.h), white pawn: pawn flag with
the white colour bit. -/
def WP : Int := 5

/-- Modelled from the spec: `WN` (absent header piece.h), white knight. -/
def WN : Int := 17

/-- Modelled from the spec: `WB` (absent header piece.h), white bishop. -/
def WB : Int := 33

/-- Modelled from the spec: `WR` (absent header piece.h), white rook. -/
def WR : Int := 65

/-- Modelled from the spec: `WQ` (absent header piece.h), white queen: the union of
the bishop and rook flags. -/
def WQ : Int := 97

/-- Modelled from the spec: `WK` (absent header piece.h), white king. -/
def WK : Int := 129

/-- Modelled from the spec: `BP` (absent header piece.h), black pawn. -/
def BP : Int := 10

/-- Modelled from the spec: `BN` (absent header piece.h), black knight. -/
def BN : Int := 18

/-- Modelled from the spec: `BB` (absent header piece.h), black bishop. -/
def BB : Int := 34

/-- Modelled from the spec: `BR` (absent header piece.h), black rook. -/
def BR : Int := 66

/-- Modelled from the spec: `BQ` (absent header piece.h), black queen. -/
def BQ : Int := 98

/-- Modelled from the spec: `BK` (absent header piece.h), black king. -/
def BK : Int := 130

/-- Modelled from the spec: `KnightInc` (absent header piece.h), the 8 knight leaps
followed by the "no increment" sentinel. -/
def KnightInc : List Int := [-33, -31, -18, -14, 14, 18, 31, 33, 0]

/-- Modelled from the spec: `BishopInc` (absent header piece.h), the 4 diagonal steps
followed by the sentinel. -/
def BishopInc : List Int := [-17, -15, 15, 17, 0]

/-- Modelled from the spec: `RookInc` (absent header piece.h), the 4 orthogonal steps
followed by the sentinel. -/
def RookInc : List Int := [-16, -1, 1, 16, 0]

/-- Modelled from the spec: `QueenInc` (absent header piece.h), the 8 queen steps
followed by the sentinel. -/
def QueenInc : List Int := [-17, -16, -15, -1, 1, 15, 16, 17, 0]

/-- Modelled from the spec: `KingInc` (absent header piece.h), the 8 king steps
followed by the sentinel. -/
def KingInc : List Int := [-17, -16, -15, -1, 1, 15, 16, 17, 0]

/-- Modelled from the spec: `SQUARE_IS_OK` (absent header square.h), the validity
predicate of real board squares: file and rank both in 4..11 of the 16 x 16
mailbox, that is `((sq - 0x44) & ~0x77) == 0`. -/
def SQUARE_IS_OK (sq : Int) : Bool :=
  decide (0 ≤ sq - 68 ∧ (sq - 68) % 16 ≤ 7 ∧ (sq - 68) / 16 ≤ 7)

/-- Modelled from the spec: `COLOUR_IS_OK` (absent header colour.h), the validity
predicate of colours, `(colour & ~1) == 0`. -/
def COLOUR_IS_OK (colour : Int) : Bool :=
  decide (colour = White ∨ colour = Black)

/-- Modelled from the spec: `PAWN_MOVE_INC` (absent header piece.h), the forward step
of a colour's pawns. Only evaluated on a valid colour. -/
def PAWN_MOVE_INC (colour : Int) : Int :=
  if colour = White then 16 else -16

/-- Modelled from the spec: `PAWN_MAKE` (absent header piece.h), the pawn of a
colour. Only evaluated on a valid colour. -/
def PAWN_MAKE (colour : Int) : Int :=
  if colour = White then WP else BP

/-- Modelled from the spec: `delta_is_ok` (absent file vector.cpp): the delta is a real
board displacement, not an artefact of row wrap-around of the padded layout. -/
def delta_is_ok (delta : Int) : Bool :=
  decide (-119 ≤ delta ∧ delta ≤ 119 ∧ delta % 16 ≠ 8)

/-- Modelled from the spec: `DISTANCE` (absent header vector.h), the Chebyshev
distance, the larger of the absolute file and rank differences of two squares. -/
def DISTANCE (a b : Int) : Int :=
  max (Int.natAbs (a % 16 - b % 16)) (Int.natAbs (a / 16 - b / 16))

/-! ## Machine arithmetic and arrays -/

/-- Value kept by a `uint8_t` cell when an `int` is stored into it. -/
def toU8 (x : Int) : Nat := (x % 256).toNat

/-- Value kept by an `int8_t` cell when an `int` is stored into it. -/
def toI8 (x : Int) : Int := (x + 128) % 256 - 128

/-- Read `a[i]` of an array of declared length `n`. -/
def rd {α : Type} {n : Nat} (a : Fin n → α) (i : Int) : Except Fault α :=
  if h : 0 ≤ i ∧ i < n then .ok (a ⟨i.toNat, by omega⟩) else .error .outOfBounds

/-- Pointwise replacement of one cell. -/
def upd {α : Type} {n : Nat} (a : Fin n → α) (i : Fin n) (v : α) : Fin n → α :=
  fun j => if j = i then v else a j

/-- Store `a[i] = v` into an array of declared length `n`. -/
def wr {α : Type} {n : Nat} (a : Fin n → α) (i : Int) (v : α) : Except Fault (Fin n → α) :=
  if h : 0 ≤ i ∧ i < n then .ok (upd a ⟨i.toNat, by omega⟩ v) else .error .outOfBounds

/-- Read entry `i` of a constant array given by its initialiser list. -/
def rdL (a : List Int) (i : Nat) : Except Fault Int :=
  match a[i]? with
  | some v => .ok v
  | none => .error .outOfBounds

/-- Outcome of one round of a loop whose body may `break`. -/
inductive Step (σ : Type) where
  | next (s : σ)
  | brk (s : σ)

/-- A `for` loop over the listed values whose body may `break`. -/
def forBreak {α σ : Type} (body : σ → α → Except Fault (Step σ)) : List α → σ → Except Fault σ
  | [], s => .ok s
  | x :: xs, s =>
    match body s x with
    | .ok (.next s') => forBreak body xs s'
    | .ok (.brk s') => .ok s'
    | .error e => .error e

/-! ## The tables (lines 12-26) -/

abbrev MAX_PIECES : Nat := 4
abbrev MAX_DELTAS : Nat := 256
abbrev MAX_ATTACKS_PER_DELTA : Nat := 2

/-- The geometry tables `DeltaIncLine`, `DeltaIncAll`, `DeltaMask`, `IncMask`
(all `uint8_t`). -/
structure GeoTables where
  DeltaIncLine : Fin DeltaNb → Nat
  DeltaIncAll : Fin DeltaNb → Nat
  DeltaMask : Fin DeltaNb → Nat
  IncMask : Fin IncNb → Nat

/-- The king-relative tables `PieceDeltaSize`, `PieceDeltaDelta` (both `int8_t`). -/
structure KingTables where
  PieceDeltaSize : Fin MAX_PIECES → Fin MAX_DELTAS → Int
  PieceDeltaDelta : Fin MAX_PIECES → Fin MAX_DELTAS → Fin MAX_ATTACKS_PER_DELTA → Int

/-- All global tables of `attack.cpp`. -/
structure Tables extends GeoTables, KingTables where
  PieceCode : Fin PieceNb → Int

/-- Read `a[i][j]`. -/
def rd2 {α : Type} {m n : Nat} (a : Fin m → Fin n → α) (i j : Int) : Except Fault α := do
  let row ← rd a i
  rd row j

/-- Store `a[i][j] = v`. -/
def wr2 {α : Type} {m n : Nat} (a : Fin m → Fin n → α) (i j : Int) (v : α) :
    Except Fault (Fin m → Fin n → α) := do
  let row ← rd a i
  let row' ← wr row j v
  wr a i row'

/-! ## `attack_init` (lines 32-189) -/

/-- Lines 34-38: the loop clearing `DeltaIncLine`, `DeltaIncAll` and `DeltaMask`. -/
def clearDelta (g : GeoTables) : Except Fault GeoTables :=
  (List.range DeltaNb).foldlM (fun g (delta : Nat) => do
    let a ← wr g.DeltaIncLine (delta : Int) (toU8 IncNone)
    let b ← wr g.DeltaIncAll (delta : Int) (toU8 IncNone)
    let c ← wr g.DeltaMask (delta : Int) 0
    pure { g with DeltaIncLine := a, DeltaIncAll := b, DeltaMask := c }) g

/-- Lines 40-42: the loop clearing `IncMask`. -/
def clearInc (g : GeoTables) : Except Fault GeoTables :=
  (List.range IncNb).foldlM (fun g (inc : Nat) => do
    let a ← wr g.IncMask (inc : Int) 0
    pure { g with IncMask := a }) g

/-- The statement `DeltaMask[i] |= flag` on a `uint8_t` cell. -/
def orMask (g : GeoTables) (i : Int) (flag : Nat) : Except Fault GeoTables := do
  let m ← rd g.DeltaMask i
  let a ← wr g.DeltaMask i ((m ||| flag) % 256)
  pure { g with DeltaMask := a }

/-- Lines 45-48: the four pawn capture deltas. -/
def initPawn (g : GeoTables) : Except Fault GeoTables := do
  let g ← orMask g (DeltaOffset - 17) BlackPawnFlag
  let g ← orMask g (DeltaOffset - 15) BlackPawnFlag
  let g ← orMask g (DeltaOffset + 15) WhitePawnFlag
  orMask g (DeltaOffset + 17) WhitePawnFlag

/-- Lines 51-57: the knight leaps. -/
def initKnight (g : GeoTables) : Except Fault GeoTables :=
  (List.range 8).foldlM (fun g (dir : Nat) => do
    let delta ← rdL KnightInc dir
    if delta_is_ok delta then
      let a ← wr g.DeltaIncAll (DeltaOffset + delta) (toU8 delta)
      orMask { g with DeltaIncAll := a } (DeltaOffset + delta) KnightFlag
    else pure g) g

/-- Lines 64-71 and 80-87: the distance loop of one sliding direction `inc`. -/
def initRay (inc : Int) (flag : Nat) (g : GeoTables) : Except Fault GeoTables :=
  (List.range' 1 7).foldlM (fun g (dist : Nat) => do
    let delta := inc * (dist : Int)
    if delta_is_ok delta then
      let a ← wr g.DeltaIncLine (DeltaOffset + delta) (toU8 inc)
      let b ← wr g.DeltaIncAll (DeltaOffset + delta) (toU8 inc)
      orMask { g with DeltaIncLine := a, DeltaIncAll := b } (DeltaOffset + delta) flag
    else pure g) g

/-- Lines 60-73 (with `BishopInc`, `BishopFlag`) and lines 76-89 (with `RookInc`,
`RookFlag`): the two loops differ in nothing else. -/
def initSlider (incs : List Int) (flag : Nat) (g : GeoTables) : Except Fault GeoTables :=
  (List.range 4).foldlM (fun g (dir : Nat) => do
    let inc ← rdL incs dir
    if inc ≠ IncNone then
      let m ← rd g.IncMask (IncOffset + inc)
      let a ← wr g.IncMask (IncOffset + inc) ((m ||| flag) % 256)
      initRay inc flag { g with IncMask := a }
    else pure g) g

/-- Lines 92-97: the king steps. -/
def initKing (g : GeoTables) : Except Fault GeoTables :=
  (List.range 8).foldlM (fun g (dir : Nat) => do
    let delta ← rdL KingInc dir
    if delta_is_ok delta then orMask g (DeltaOffset + delta) KingFlag
    else pure g) g

/-- Lines 44-97: the pawn, knight, bishop, rook and king entries. -/
def fillGeo (g : GeoTables) : Except Fault GeoTables := do
  let g ← initPawn g
  let g ← initKnight g
  let g ← initSlider BishopInc BishopFlag g
  let g ← initSlider RookInc RookFlag g
  initKing g

/-- Lines 34-97: everything `attack_init` does to the geometry tables. -/
def initGeo (g : GeoTables) : Except Fault GeoTables := do
  let g ← clearDelta g
  let g ← clearInc g
  fillGeo g

/-- Lines 104-111: the class codes of the knights, bishops, rooks and queens. -/
def codePieces (pc : Fin PieceNb → Int) : Except Fault (Fin PieceNb → Int) := do
  let pc ← wr pc WN (toI8 0)
  let pc ← wr pc WB (toI8 1)
  let pc ← wr pc WR (toI8 2)
  let pc ← wr pc WQ (toI8 3)
  let pc ← wr pc BN (toI8 0)
  let pc ← wr pc BB (toI8 1)
  let pc ← wr pc BR (toI8 2)
  wr pc BQ (toI8 3)

/-- Lines 100-111: `PieceCode` (`int8_t`). -/
def initPieceCode (pc : Fin PieceNb → Int) : Except Fault (Fin PieceNb → Int) := do
  let pc ← (List.range PieceNb).foldlM (fun pc (piece : Nat) => wr pc (piece : Int) (toI8 (-1))) pc
  codePieces pc

/-- Lines 114-121: the loops clearing `PieceDeltaSize` and `PieceDeltaDelta`. -/
def clearKing (k : KingTables) : Except Fault KingTables :=
  (List.range MAX_PIECES).foldlM (fun k (piece : Nat) =>
    (List.range MAX_DELTAS).foldlM (fun k (delta : Nat) => do
      let a ← wr2 k.PieceDeltaSize (piece : Int) (delta : Int) (toI8 0)
      (List.range MAX_ATTACKS_PER_DELTA).foldlM (fun k (i : Nat) => do
        let row ← rd2 k.PieceDeltaDelta (piece : Int) (delta : Int)
        let row' ← wr row (i : Int) (toI8 DeltaNone)
        let b ← wr2 k.PieceDeltaDelta (piece : Int) (delta : Int) row'
        pure { k with PieceDeltaDelta := b }) { k with PieceDeltaSize := a }) k) k

/-- Lines 202-205 of `add_attack`: is `target` among `slots[0..size-1]`? -/
def present (slots : Fin MAX_ATTACKS_PER_DELTA → Int) (target : Int) :
    List Nat → Except Fault Bool
  | [] => .ok false
  | i :: rest => do
    let v ← rd slots (i : Int)
    if v = target then pure true else present slots target rest

/-- Lines 191-210: `add_attack`. -/
def add_attack (k : KingTables) (piece king target : Int) : Except Fault KingTables :=
  if piece ≥ MAX_PIECES ∨ piece < 0 ∨ DeltaOffset + king ≥ MAX_DELTAS ∨
      DeltaOffset + target ≥ MAX_DELTAS then
    pure k
  else do
    let size ← rd2 k.PieceDeltaSize piece (DeltaOffset + king)
    if size ≥ MAX_ATTACKS_PER_DELTA then pure k
    else do
      let slots ← rd2 k.PieceDeltaDelta piece (DeltaOffset + king)
      let found ← present slots target (List.range size.toNat)
      if found then pure k
      else do
        let slots' ← wr slots size (toI8 target)
        let a ← wr2 k.PieceDeltaDelta piece (DeltaOffset + king) slots'
        let b ← wr2 k.PieceDeltaSize piece (DeltaOffset + king) (toI8 (size + 1))
        pure { k with PieceDeltaDelta := a, PieceDeltaSize := b }

/-- Lines 129-136: the knight loop for one pair of squares. -/
def populateKnight (king from_ : Int) (k : KingTables) : Except Fault KingTables :=
  forBreak (fun k (pos : Nat) => do
    let inc ← rdL KnightInc pos
    if inc = IncNone then pure (.brk k)
    else
      let to_ := from_ + inc
      if SQUARE_IS_OK to_ && decide (DISTANCE to_ king = 1) then do
        let k ← add_attack k 0 (king - from_) (to_ - from_)
        pure (.next k)
      else pure (.next k)) (List.range 8) k

/-- Lines 142-151, 158-167 and 174-183: the distance loop of one direction, left at
the first qualifying square. -/
def populateRay (piece inc king from_ : Int) (k : KingTables) : Except Fault KingTables :=
  forBreak (fun k (dist : Nat) =>
    let delta := inc * (dist : Int)
    if delta_is_ok delta then
      let to_ := from_ + delta
      if SQUARE_IS_OK to_ && decide (DISTANCE to_ king = 1) then do
        let k ← add_attack k piece (king - from_) (to_ - from_)
        pure (.brk k)
      else pure (.next k)
    else pure (.next k)) (List.range' 1 7) k

/-- Lines 139-152 (class 1, `BishopInc`, 4 directions), 155-168 (class 2, `RookInc`,
4 directions) and 171-184 (class 3, `QueenInc`, 8 directions). -/
def populateSlider (piece : Int) (incs : List Int) (dirs : Nat) (king from_ : Int)
    (k : KingTables) : Except Fault KingTables :=
  forBreak (fun k (pos : Nat) => do
    let inc ← rdL incs pos
    if inc = IncNone then pure (.brk k)
    else do
      let k ← populateRay piece inc king from_ k
      pure (.next k)) (List.range dirs) k

/-- Lines 127-185: the body of the two square loops, for one `king` and one `from`. -/
def populatePair (king from_ : Int) (k : KingTables) : Except Fault KingTables := do
  let k ← populateKnight king from_ k
  let k ← populateSlider 1 BishopInc 4 king from_ k
  let k ← populateSlider 2 RookInc 4 king from_ k
  populateSlider 3 QueenInc 8 king from_ k

/-- Lines 124-188: the loops over `king` and `from`. -/
def populate (k : KingTables) : Except Fault KingTables :=
  (List.range SquareNb).foldlM (fun k (king : Nat) =>
    if SQUARE_IS_OK (king : Int) then
      (List.range SquareNb).foldlM (fun k (from_ : Nat) =>
        if SQUARE_IS_OK (from_ : Int) then populatePair (king : Int) (from_ : Int) k
        else pure k) k
    else pure k) k

/-- Lines 113-188: everything `attack_init` does to the king-relative tables. -/
def initKingTables (k : KingTables) : Except Fault KingTables := do
  let k ← clearKing k
  populate k

/-- The function `attack_init`, run on the tables as it finds them. -/
def attack_init (t : Tables) : Except Fault Tables := do
  let g ← initGeo t.toGeoTables
  let pc ← initPieceCode t.PieceCode
  let k ← initKingTables t.toKingTables
  pure { toGeoTables := g, toKingTables := k, PieceCode := pc }

/-! ## `is_attacked` (lines 212-243) -/

/-- Modelled from the spec: `board_t` (absent header board.h), as far as `is_attacked`
reads it: the square array `square[SquareNb]` and, per colour, the array of piece
locations, given by its content up to the end of the array. -/
structure board_t where
  square : Fin SquareNb → Int
  piece : Int → List Int

/-- Lines 233-237: the ray walk. `true` stands for `return true`, `false` for leaving
the loop. -/
def walk (b : board_t) (to_ : Int) (inc : Int) : Nat → Int → Except Fault Bool
  | 0, _ => .error .outOfFuel
  | fuel + 1, sq =>
    if SQUARE_IS_OK sq then
      if sq = to_ then pure true
      else do
        let x ← rd b.square sq
        if x ≠ Empty then pure false
        else walk b to_ inc fuel (sq + inc)
    else pure false

/-- Modelled from the spec: `PSEUDO_ATTACK` (absent header attack.h): the flag of
the piece is set in the pseudo-attack mask. -/
def PSEUDO_ATTACK (piece : Int) (mask : Nat) : Bool :=
  decide (Int.land piece (mask : Int) ≠ 0)

/-- Lines 224-242: the scan of the piece list from the current position of `ptr`, and
the final `return false`. Reading past the end of the array is a fault. -/
def scan (t : Tables) (fuel : Nat) (b : board_t) (to_ : Int) : List Int → Except Fault Bool
  | [] => .error .outOfBounds
  | from_ :: rest =>
    if from_ = SquareNone then pure false
    else do
      let piece ← rd b.square from_
      let delta := to_ - from_
      let mask ← rd t.DeltaMask (DeltaOffset + delta)
      if PSEUDO_ATTACK piece mask then do
        let inc ← rd t.DeltaIncAll (DeltaOffset + delta)
        if (inc : Int) ≠ IncNone then do
          let hit ← walk b to_ (inc : Int) fuel (from_ + (inc : Int))
          if hit then pure true
          else scan t fuel b to_ rest
        else scan t fuel b to_ rest
      else scan t fuel b to_ rest

/-- The function `is_attacked`; an absent board is `none`. -/
def is_attacked (t : Tables) (fuel : Nat) (board : Option board_t) (to_ colour : Int) :
    Except Fault Bool :=
  match board with
  | none => pure false
  | some b =>
    if !SQUARE_IS_OK to_ || !COLOUR_IS_OK colour then pure false
    else do
      let inc := PAWN_MOVE_INC colour
      let pawn := PAWN_MAKE colour
      let p1 ← rd b.square (to_ - (inc - 1))
      if p1 = pawn then pure true
      else do
        let p2 ← rd b.square (to_ - (inc + 1))
        if p2 = pawn then pure true
        else scan t fuel b to_ (b.piece colour)

/-! ## The tables that `attack_init` leaves behind -/

deriving instance DecidableEq for Except

/-- Tables with every cell zero, a possible content before the first call. -/
def zeroTables : Tables where
  DeltaIncLine := fun _ => 0
  DeltaIncAll := fun _ => 0
  DeltaMask := fun _ => 0
  IncMask := fun _ => 0
  PieceDeltaSize := fun _ _ => 0
  PieceDeltaDelta := fun _ _ _ => 0
  PieceCode := fun _ => 0

/-- The geometry tables once lines 34-42 have run: every cell is zero. -/
def geoCleared : GeoTables where
  DeltaIncLine := fun _ => 0
  DeltaIncAll := fun _ => 0
  DeltaMask := fun _ => 0
  IncMask := fun _ => 0

/-- The value of a run, or `d` if the run faulted. -/
def getOk {α : Type} (d : α) : Except Fault α → α
  | .ok a => a
  | .error _ => d

/-- The geometry tables that `attack_init` leaves behind. -/
def geoInit : GeoTables := getOk geoCleared (fillGeo geoCleared)

/-- The king-relative tables once lines 114-121 have run. -/
def kingCleared : KingTables where
  PieceDeltaSize := fun _ _ => 0
  PieceDeltaDelta := fun _ _ _ => 0

/-- The king-relative tables that `attack_init` leaves behind. -/
def kingInit : KingTables := getOk kingCleared (populate kingCleared)

/-- `PieceCode` as `attack_init` leaves it behind. -/
def pieceCodeInit : Fin PieceNb → Int :=
  getOk (fun _ => 0) (codePieces (fun _ => toI8 (-1)))

/-- The tables that `attack_init` leaves behind (see `attack_init_eq`). -/
def initTables : Tables where
  toGeoTables := geoInit
  toKingTables := kingInit
  PieceCode := pieceCodeInit

/-! ## Predicates and states used by the theorems -/

/-- The keys before `(p, d)` in loop order hold size zero and zero slots. -/
def ClearedBefore (p d : Nat) (k : KingTables) : Prop :=
  ∀ (q : Fin MAX_PIECES) (e : Fin MAX_DELTAS), q.val < p ∨ (q.val = p ∧ e.val < d) →
    k.PieceDeltaSize q e = 0 ∧ ∀ i, k.PieceDeltaDelta q e i = 0

/-- The capacity bound and the absence of duplicates, for every key of the
king-relative table. -/
def KingInv (k : KingTables) : Prop :=
  ∀ (c : Fin MAX_PIECES) (d : Fin MAX_DELTAS),
    0 ≤ k.PieceDeltaSize c d ∧ k.PieceDeltaSize c d ≤ 2 ∧
    ∀ i j : Fin MAX_ATTACKS_PER_DELTA,
      (i.val : Int) < k.PieceDeltaSize c d → (j.val : Int) < k.PieceDeltaSize c d →
      i ≠ j → k.PieceDeltaDelta c d i ≠ k.PieceDeltaDelta c d j

/-- The state after a successful insertion at slot `sz` of key `(c, d)`. -/
def inserted (k : KingTables) (c : Fin MAX_PIECES) (d : Fin MAX_DELTAS)
    (sz : Fin MAX_ATTACKS_PER_DELTA) (target : Int) : KingTables where
  PieceDeltaSize := upd k.PieceDeltaSize c (upd (k.PieceDeltaSize c) d (toI8 ((sz.val : Int) + 1)))
  PieceDeltaDelta := upd k.PieceDeltaDelta c
    (upd (k.PieceDeltaDelta c) d (upd (k.PieceDeltaDelta c d) sz (toI8 target)))

/-- A state that satisfies the invariant: key `(0, DeltaOffset + 0)` holds the single
entry -126, every other key is empty. -/
def wrapState : KingTables where
  PieceDeltaSize := fun c d => if c.val = 0 ∧ d.val = 119 then 1 else 0
  PieceDeltaDelta := fun c d i => if c.val = 0 ∧ d.val = 119 ∧ i.val = 0 then -126 else 0

/-- The flags that the mask `m` of the displacement `(dx, dy)` is to hold: each flag
exactly on the displacements its piece can cover on an empty board, and no other bit. -/
def MaskSpec (m : Nat) (dx dy : Int) : Prop :=
  (m &&& KnightFlag ≠ 0 ↔
    (dx.natAbs = 1 ∧ dy.natAbs = 2) ∨ (dx.natAbs = 2 ∧ dy.natAbs = 1)) ∧
  (m &&& BishopFlag ≠ 0 ↔ dx.natAbs = dy.natAbs ∧ dx ≠ 0) ∧
  (m &&& RookFlag ≠ 0 ↔ (dx = 0 ∧ dy ≠ 0) ∨ (dx ≠ 0 ∧ dy = 0)) ∧
  (m &&& KingFlag ≠ 0 ↔ max dx.natAbs dy.natAbs = 1) ∧
  (m &&& WhitePawnFlag ≠ 0 ↔ dy = 1 ∧ dx.natAbs = 1) ∧
  (m &&& BlackPawnFlag ≠ 0 ↔ dy = -1 ∧ dx.natAbs = 1) ∧
  m &&& 3 = 0 ∧ m < 256 ∧
  (dx = 0 ∧ dy = 0 → m = 0)

instance (m : Nat) (dx dy : Int) : Decidable (MaskSpec m dx dy) := by
  unfold MaskSpec
  infer_instance

/-- File component `dx` of the displacement `delta = 16 * dy + dx`, `-7 <= dx <= 7`. -/
def deltaX (delta : Int) : Int := (delta + 7) % 16 - 7

/-- Rank component `dy` of the displacement `delta = 16 * dy + dx`, `-7 <= dx <= 7`. -/
def deltaY (delta : Int) : Int := (delta + 7) / 16

/-- The sliding pieces of a colour, each with its own directions (its direction array
without the sentinel). -/
def sliders (colour : Int) : List (Int × List Int) :=
  if colour = White then
    [(WB, BishopInc.dropLast), (WR, RookInc.dropLast), (WQ, QueenInc.dropLast)]
  else
    [(BB, BishopInc.dropLast), (BR, RookInc.dropLast), (BQ, QueenInc.dropLast)]

/-! ## Concrete boards -/

/-- Scenario A: a white rook on a1 (0x44) and nothing else. -/
def boardRookA1 : board_t where
  square := fun i => if i.val = 68 then WR else Empty
  piece := fun c => if c = White then [68, SquareNone] else [SquareNone]

/-- Scenario B: a white rook on a1 (0x44) and a white pawn on a4 (0x74). -/
def boardRookPawn : board_t where
  square := fun i => if i.val = 68 then WR else if i.val = 116 then WP else Empty
  piece := fun c => if c = White then [68, SquareNone] else [SquareNone]

/-- A white rook on a8 (0xB4) and nothing else. -/
def boardRookA8 : board_t where
  square := fun i => if i.val = 180 then WR else Empty
  piece := fun c => if c = White then [180, SquareNone] else [SquareNone]

/-- A black knight on g5 (0x8A) and nothing else. -/
def boardKnightG5 : board_t where
  square := fun i => if i.val = 138 then BN else Empty
  piece := fun c => if c = Black then [138, SquareNone] else [SquareNone]

/-- A white king on f2 (0x59) and nothing else. -/
def boardKingF2 : board_t where
  square := fun i => if i.val = 89 then WK else Empty
  piece := fun c => if c = White then [89, SquareNone] else [SquareNone]

/-- A white pawn on e4 (0x78) and nothing else; pawns are not in the piece list. -/
def boardPawnE4 : board_t where
  square := fun i => if i.val = 120 then WP else Empty
  piece := fun _ => [SquareNone]

/-! ## Definitions for the claims about `add_attack` and the population loops -/

/-- A state whose key `(0, DeltaOffset + 0)` holds the size -1, which the `int8_t` cell
admits; every other cell is zero. -/
def negativeSizeState : KingTables where
  PieceDeltaSize := fun c d => if c.val = 0 ∧ d.val = 119 then -1 else 0
  PieceDeltaDelta := fun _ _ _ => 0

/-- The delta lies on a straight line a sliding piece can travel: `k` steps, `k` in
1..7, of one of the 8 queen directions. -/
def IsLineDelta (delta : Int) : Prop :=
  ∃ d ∈ QueenInc.dropLast, ∃ k ∈ ([1, 2, 3, 4, 5, 6, 7] : List Int), delta = k * d

instance (delta : Int) : Decidable (IsLineDelta delta) := by
  unfold IsLineDelta
  infer_instance

/-- The test of lines 133, 146, 162 and 178: the destination is on the board and next
to the king. -/
def qualifies (king to_ : Int) : Bool :=
  SQUARE_IS_OK to_ && decide (DISTANCE to_ king = 1)

/-- A call `add_attack(piece, king, target)`, as the triple of its arguments. -/
abbrev Call : Type := Int × Int × Int

/-- Run one call on the tables. -/
def addCall (k : KingTables) (c : Call) : Except Fault KingTables :=
  add_attack k c.1 c.2.1 c.2.2

/-- The calls of the knight loop (lines 129-136) for one `king` and one `from`. -/
def knightCalls (king from_ : Int) : List Call :=
  (KnightInc.dropLast.filter (fun inc => qualifies king (from_ + inc))).map
    (fun inc => (0, king - from_, from_ + inc - from_))

/-- The first distance of a direction at which the destination qualifies, if any. -/
def firstDist (inc king from_ : Int) : Option Nat :=
  (List.range' 1 7).find? (fun dist =>
    delta_is_ok (inc * (dist : Int)) && qualifies king (from_ + inc * (dist : Int)))

/-- The call of the distance loop of one direction, if it makes one. -/
def rayCalls (piece inc king from_ : Int) : List Call :=
  match firstDist inc king from_ with
  | some dist => [(piece, king - from_, from_ + inc * (dist : Int) - from_)]
  | none => []

/-- The calls of a slider loop over the directions `dirs`. -/
def sliderCalls (piece : Int) (dirs : List Int) (king from_ : Int) : List Call :=
  dirs.flatMap (fun inc => rayCalls piece inc king from_)

/-- The calls of lines 127-185 for one `king` and one `from`, in the order made. -/
def pairCalls (king from_ : Int) : List Call :=
  knightCalls king from_ ++ sliderCalls 1 BishopInc.dropLast king from_ ++
    sliderCalls 2 RookInc.dropLast king from_ ++ sliderCalls 3 QueenInc.dropLast king from_

/-- What the call sites of lines 127-185 guarantee of a call made for `king` and `from`:
the key is `king - from`; the class is 0 and the target is a knight leap to a qualifying
square, or the class is 1, 2 or 3 and the target is `m` steps, `m` in 1..7, of a
direction of that class to a qualifying square, no nearer square of the direction
qualifying. -/
def CallOf (king from_ : Int) (c : Call) : Prop :=
  c.2.1 = king - from_ ∧
  ((c.1 = 0 ∧ c.2.2 ∈ KnightInc.dropLast ∧ qualifies king (from_ + c.2.2) = true) ∨
   (∃ dirs, (c.1, dirs) ∈
        [((1 : Int), BishopInc.dropLast), (2, RookInc.dropLast), (3, QueenInc.dropLast)] ∧
      ∃ d ∈ dirs, ∃ m : Nat, 1 ≤ m ∧ m ≤ 7 ∧ c.2.2 = d * (m : Int) ∧
        qualifies king (from_ + d * (m : Int)) = true ∧
        ∀ m' : Nat, 1 ≤ m' → m' < m → qualifies king (from_ + d * (m' : Int)) = false))

/-- Every entry below the size of its key was put there by a call the call sites allow
for some on-board `king` and `from`. -/
def Genuine (k : KingTables) : Prop :=
  ∀ (c : Fin MAX_PIECES) (d : Fin MAX_DELTAS) (i : Fin MAX_ATTACKS_PER_DELTA),
    (i.val : Int) < k.PieceDeltaSize c d →
    ∃ king from_ : Int, SQUARE_IS_OK king = true ∧ SQUARE_IS_OK from_ = true ∧
      (d.val : Int) = DeltaOffset + (king - from_) ∧
      CallOf king from_ ((c.val : Int), king - from_, k.PieceDeltaDelta c d i)

/-- The slots below the size of a key hold a target, the slots from the size on hold
`DeltaNone`. -/
def SlotDiscipline (k : KingTables) : Prop :=
  ∀ (c : Fin MAX_PIECES) (d : Fin MAX_DELTAS) (i : Fin MAX_ATTACKS_PER_DELTA),
    ((i.val : Int) < k.PieceDeltaSize c d → k.PieceDeltaDelta c d i ≠ DeltaNone) ∧
    (k.PieceDeltaSize c d ≤ (i.val : Int) → k.PieceDeltaDelta c d i = DeltaNone)

/-- The three properties of the king-relative tables that the population loops keep. -/
def TableInv (k : KingTables) : Prop := KingInv k ∧ Genuine k ∧ SlotDiscipline k

/-- The size of the key of class 3 (queen) and king-relative delta 2, index
`DeltaOffset + 2 = 121`. -/
def queenKeySize (k : KingTables) : Int :=
  k.PieceDeltaSize ⟨3, by decide⟩ ⟨121, by decide⟩

/-- The slots of the key of class 3 and king-relative delta 2. -/
def queenKeySlot (k : KingTables) (i : Fin MAX_ATTACKS_PER_DELTA) : Int :=
  k.PieceDeltaDelta ⟨3, by decide⟩ ⟨121, by decide⟩ i

/-- The state of the loops before the pair king = 0x46, from = 0x44: the key of class 3
and delta 2 is empty. -/
def KeyEmpty (k : KingTables) : Prop := TableInv k ∧ queenKeySize k = 0

/-- The state of the loops after the pair king = 0x46, from = 0x44: the key of class 3
and delta 2 holds the targets 1 and 17 and is full. -/
def KeyFull (k : KingTables) : Prop :=
  TableInv k ∧ queenKeySize k = 2 ∧ queenKeySlot k ⟨0, by decide⟩ = 1 ∧
    queenKeySlot k ⟨1, by decide⟩ = 17

/-! ## Array and loop lemmas -/

theorem rd_nat {α : Type} {n : Nat} (a : Fin n → α) (i : Nat) (h : i < n) :
    rd a (i : Int) = .ok (a ⟨i, h⟩) := by
  have h' : 0 ≤ (i : Int) ∧ (i : Int) < n := by omega
  simp [rd, h']

theorem wr_nat {α : Type} {n : Nat} (a : Fin n → α) (i : Nat) (h : i < n) (v : α) :
    wr a (i : Int) v = .ok (upd a ⟨i, h⟩ v) := by
  have h' : 0 ≤ (i : Int) ∧ (i : Int) < n := by omega
  simp [wr, h']

theorem rd_of_range {α : Type} {n : Nat} (a : Fin n → α) (i : Int) (h : 0 ≤ i ∧ i < n) :
    rd a i = .ok (a ⟨i.toNat, by omega⟩) := by
  simp [rd, h]

theorem wr_of_range {α : Type} {n : Nat} (a : Fin n → α) (i : Int) (h : 0 ≤ i ∧ i < n)
    (v : α) : wr a i v = .ok (upd a ⟨i.toNat, by omega⟩ v) := by
  simp [wr, h]

theorem upd_below {α : Type} {n : Nat} (a : Fin n → α) (m : Nat) (h : m < n) (v : α) :
    upd (fun j => if j.val < m then v else a j) ⟨m, h⟩ v
      = fun j => if j.val < m + 1 then v else a j := by
  funext j
  simp only [upd, Fin.ext_iff]
  by_cases h1 : j.val = m
  · simp [h1]
  · by_cases h2 : j.val < m
    · have : j.val < m + 1 := by omega
      simp [h1, h2, this]
    · have : ¬ j.val < m + 1 := by omega
      simp [h1, h2, this]

/-- A loop whose body keeps `P` and never faults keeps `P` and never faults. -/
theorem foldlM_keeps {α σ : Type} (P : σ → Prop) (body : σ → α → Except Fault σ)
    (xs : List α) (h : ∀ x ∈ xs, ∀ s, P s → ∃ s', body s x = .ok s' ∧ P s') :
    ∀ s, P s → ∃ s', xs.foldlM body s = .ok s' ∧ P s' := by
  induction xs with
  | nil => intro s hs; exact ⟨s, rfl, hs⟩
  | cons x xs ih =>
    intro s hs
    obtain ⟨s1, h1, hP1⟩ := h x (List.mem_cons_self _ _) s hs
    obtain ⟨s2, h2, hP2⟩ := ih (fun y hy => h y (List.mem_cons_of_mem _ hy)) s1 hP1
    refine ⟨s2, ?_, hP2⟩
    simp [List.foldlM_cons, h1, h2, bind, Except.bind]

/-- The same for a loop whose body may `break`. -/
theorem forBreak_keeps {α σ : Type} (P : σ → Prop) (body : σ → α → Except Fault (Step σ))
    (xs : List α)
    (h : ∀ x ∈ xs, ∀ s, P s →
      ∃ s', (body s x = .ok (.next s') ∨ body s x = .ok (.brk s')) ∧ P s') :
    ∀ s, P s → ∃ s', forBreak body xs s = .ok s' ∧ P s' := by
  induction xs with
  | nil => intro s hs; exact ⟨s, rfl, hs⟩
  | cons x xs ih =>
    intro s hs
    obtain ⟨s1, h1, hP1⟩ := h x (List.mem_cons_self _ _) s hs
    rcases h1 with h1 | h1
    · obtain ⟨s2, h2, hP2⟩ := ih (fun y hy => h y (List.mem_cons_of_mem _ hy)) s1 hP1
      exact ⟨s2, by simp [forBreak, h1, h2], hP2⟩
    · exact ⟨s1, by simp [forBreak, h1], hP1⟩

/-! ## The clearing loops -/

theorem clearDelta_range (g : GeoTables) (m : Nat) (hm : m ≤ DeltaNb) :
    (List.range m).foldlM (fun g (delta : Nat) => do
      let a ← wr g.DeltaIncLine (delta : Int) (toU8 IncNone)
      let b ← wr g.DeltaIncAll (delta : Int) (toU8 IncNone)
      let c ← wr g.DeltaMask (delta : Int) 0
      pure { g with DeltaIncLine := a, DeltaIncAll := b, DeltaMask := c }) g
    = (.ok { DeltaIncLine := fun j => if j.val < m then 0 else g.DeltaIncLine j,
             DeltaIncAll := fun j => if j.val < m then 0 else g.DeltaIncAll j,
             DeltaMask := fun j => if j.val < m then 0 else g.DeltaMask j,
             IncMask := g.IncMask } : Except Fault GeoTables) := by
  induction m with
  | zero => simp [pure, Except.pure]
  | succ m ih =>
    have hm' : m < DeltaNb := by omega
    have h0 : toU8 IncNone = 0 := by decide
    rw [List.range_succ, List.foldlM_append, ih (by omega)]
    simp only [List.foldlM_cons, List.foldlM_nil, wr_nat _ m hm', bind, Except.bind, pure,
      Except.pure, h0, upd_below]

theorem clearDelta_eq (g : GeoTables) :
    clearDelta g = .ok { DeltaIncLine := fun _ => 0, DeltaIncAll := fun _ => 0,
                         DeltaMask := fun _ => 0, IncMask := g.IncMask } := by
  unfold clearDelta
  rw [clearDelta_range g DeltaNb (le_refl _)]
  simp

theorem clearInc_range (g : GeoTables) (m : Nat) (hm : m ≤ IncNb) :
    (List.range m).foldlM (fun g (inc : Nat) => do
      let a ← wr g.IncMask (inc : Int) 0
      pure { g with IncMask := a }) g
    = (.ok { g with IncMask := fun j => if j.val < m then 0 else g.IncMask j } :
        Except Fault GeoTables) := by
  induction m with
  | zero => simp [pure, Except.pure]
  | succ m ih =>
    have hm' : m < IncNb := by omega
    rw [List.range_succ, List.foldlM_append, ih (by omega)]
    simp only [List.foldlM_cons, List.foldlM_nil, wr_nat _ m hm', bind, Except.bind, pure,
      Except.pure, upd_below]

theorem clearInc_eq (g : GeoTables) :
    clearInc g = .ok { g with IncMask := fun _ => 0 } := by
  unfold clearInc
  rw [clearInc_range g IncNb (le_refl _)]
  simp

set_option maxRecDepth 100000 in
theorem fillGeo_isOk : (fillGeo geoCleared).isOk = true := by decide

theorem ok_getOk {α : Type} (d : α) (r : Except Fault α) (h : r.isOk = true) :
    r = .ok (getOk d r) := by
  cases r with
  | ok a => rfl
  | error e => exact absurd h (by simp [Except.isOk, Except.toBool])

theorem fillGeo_eq : fillGeo geoCleared = .ok geoInit :=
  ok_getOk geoCleared (fillGeo geoCleared) fillGeo_isOk

theorem bind_ok {α β : Type} (a : α) (f : α → Except Fault β) :
    ((Except.ok a : Except Fault α) >>= f) = f a := rfl

theorem clearGeo_eq (g : GeoTables) : (clearDelta g >>= clearInc) = .ok geoCleared := by
  rw [clearDelta_eq, bind_ok, clearInc_eq]
  rfl

/-- Whatever the geometry tables held before, lines 34-97 leave `geoInit`. -/
theorem initGeo_eq (g : GeoTables) : initGeo g = .ok geoInit := by
  have h : initGeo g = ((clearDelta g >>= clearInc) >>= fillGeo) := by
    unfold initGeo
    rw [bind_assoc]
  rw [h, clearGeo_eq, bind_ok, fillGeo_eq]

/-- A counting loop whose body carries `P i` to `P (i + 1)` and never faults. -/
theorem range_foldlM_ind {σ : Type} (P : Nat → σ → Prop) (body : σ → Nat → Except Fault σ)
    (n : Nat) (h : ∀ i, i < n → ∀ s, P i s → ∃ s', body s i = .ok s' ∧ P (i + 1) s') :
    ∀ s, P 0 s → ∃ s', (List.range n).foldlM body s = .ok s' ∧ P n s' := by
  induction n with
  | zero => intro s hs; exact ⟨s, rfl, hs⟩
  | succ n ih =>
    intro s hs
    obtain ⟨s1, h1, hP1⟩ := ih (fun i hi => h i (by omega)) s hs
    obtain ⟨s2, h2, hP2⟩ := h n (by omega) s1 hP1
    refine ⟨s2, ?_, hP2⟩
    rw [List.range_succ, List.foldlM_append, h1, bind_ok]
    simp only [List.foldlM_cons, List.foldlM_nil, h2, bind_ok]
    rfl

theorem wr_loop {α : Type} {n : Nat} (v : α) (a : Fin n → α) (m : Nat) (hm : m ≤ n) :
    (List.range m).foldlM (fun a (i : Nat) => wr a (i : Int) v) a
      = .ok (fun j => if j.val < m then v else a j) := by
  induction m with
  | zero => simp [pure, Except.pure]
  | succ m ih =>
    have hm' : m < n := by omega
    rw [List.range_succ, List.foldlM_append, ih (by omega), bind_ok]
    simp only [List.foldlM_cons, List.foldlM_nil, wr_nat _ m hm', bind_ok, upd_below]
    rfl

theorem codePieces_isOk : (codePieces (fun _ => toI8 (-1))).isOk = true := by decide

/-- Whatever `PieceCode` held before, lines 100-111 leave `pieceCodeInit`. -/
theorem initPieceCode_eq (pc : Fin PieceNb → Int) : initPieceCode pc = .ok pieceCodeInit := by
  unfold initPieceCode
  rw [wr_loop (toI8 (-1)) pc PieceNb (le_refl _), bind_ok]
  have h : (fun j : Fin PieceNb => if j.val < PieceNb then toI8 (-1) else pc j)
      = fun _ => toI8 (-1) := by
    funext j
    simp [j.isLt]
  rw [h]
  exact ok_getOk _ _ codePieces_isOk

theorem upd_apply {α : Type} {n : Nat} (a : Fin n → α) (i j : Fin n) (v : α) :
    upd a i v j = if j = i then v else a j := rfl

/-- Lines 116-119 for one in-range `piece` and `delta`: the size and both slots of that
key become zero, every other cell is kept. -/
theorem clearCell (k : KingTables) (p d : Nat) (hp : p < MAX_PIECES) (hd : d < MAX_DELTAS) :
    (do
      let a ← wr2 k.PieceDeltaSize (p : Int) (d : Int) (toI8 0)
      (List.range MAX_ATTACKS_PER_DELTA).foldlM (fun k (i : Nat) => do
        let row ← rd2 k.PieceDeltaDelta (p : Int) (d : Int)
        let row' ← wr row (i : Int) (toI8 DeltaNone)
        let b ← wr2 k.PieceDeltaDelta (p : Int) (d : Int) row'
        pure { k with PieceDeltaDelta := b }) { k with PieceDeltaSize := a })
    = (.ok { PieceDeltaSize := upd k.PieceDeltaSize ⟨p, hp⟩ (upd (k.PieceDeltaSize ⟨p, hp⟩) ⟨d, hd⟩ 0),
             PieceDeltaDelta := upd k.PieceDeltaDelta ⟨p, hp⟩
               (upd (k.PieceDeltaDelta ⟨p, hp⟩) ⟨d, hd⟩ (fun _ => 0)) } :
        Except Fault KingTables) := by
  have h0 : toI8 0 = 0 := by decide
  have h1 : toI8 DeltaNone = 0 := by decide
  have hr : List.range MAX_ATTACKS_PER_DELTA = [0, 1] := by decide
  have c0 : ((0 : Nat) : Int) = 0 := rfl
  simp only [wr2, rd2, rd_nat _ p hp, rd_nat _ d hd, wr_nat _ p hp, wr_nat _ d hd, bind_ok, hr,
    List.foldlM_cons, List.foldlM_nil, h0, h1, pure, Except.pure,
    wr_nat _ 0 (by decide : 0 < MAX_ATTACKS_PER_DELTA),
    wr_nat _ 1 (by decide : 1 < MAX_ATTACKS_PER_DELTA)]
  congr 2
  funext q e i
  by_cases hq : q = ⟨p, hp⟩ <;> by_cases he : e = ⟨d, hd⟩ <;> simp [upd_apply, hq, he]
  intro h2 h3
  exfalso
  have hi : i.val < 2 := i.isLt
  have e1 : i.val ≠ 1 := fun h => h2 (Fin.ext h)
  have e0 : i.val ≠ 0 := fun h => h3 (Fin.ext h)
  omega

theorem clearKing_ok (k : KingTables) : ∃ k', clearKing k = .ok k' ∧ ClearedBefore MAX_PIECES 0 k' := by
  unfold clearKing
  refine range_foldlM_ind (fun p s => ClearedBefore p 0 s) _ MAX_PIECES ?_ k ?_
  · intro p hp s hs
    have hmid := range_foldlM_ind (fun d s => ClearedBefore p d s)
      (fun k (delta : Nat) => do
        let a ← wr2 k.PieceDeltaSize (p : Int) (delta : Int) (toI8 0)
        (List.range MAX_ATTACKS_PER_DELTA).foldlM (fun k (i : Nat) => do
          let row ← rd2 k.PieceDeltaDelta (p : Int) (delta : Int)
          let row' ← wr row (i : Int) (toI8 DeltaNone)
          let b ← wr2 k.PieceDeltaDelta (p : Int) (delta : Int) row'
          pure { k with PieceDeltaDelta := b }) { k with PieceDeltaSize := a })
      MAX_DELTAS ?_ s hs
    · obtain ⟨s', h1, h2⟩ := hmid
      refine ⟨s', h1, ?_⟩
      intro q e hq
      have he : e.val < 256 := e.isLt
      exact h2 q e (by omega)
    · intro d hd s hs
      refine ⟨_, clearCell s p d hp hd, ?_⟩
      intro q e hq
      by_cases h1 : q = ⟨p, hp⟩
      · by_cases h2 : e = ⟨d, hd⟩
        · subst h1; subst h2
          simp [upd_apply]
        · have h3 : e.val ≠ d := fun h => h2 (Fin.ext h)
          have := hs q e (by subst h1; simp at hq ⊢; omega)
          subst h1
          simpa [upd_apply, h2] using this
      · have h3 : q.val ≠ p := fun h => h1 (Fin.ext h)
        have := hs q e (by omega)
        simpa [upd_apply, h1] using this
  · intro q e hq
    omega

/-- Whatever the king-relative tables held before, lines 114-121 leave `kingCleared`. -/
theorem clearKing_eq (k : KingTables) : clearKing k = .ok kingCleared := by
  obtain ⟨k', h1, h2⟩ := clearKing_ok k
  have hq : ∀ q : Fin MAX_PIECES, q.val < MAX_PIECES := fun q => q.isLt
  have hk : k' = kingCleared := by
    obtain ⟨a, b⟩ := k'
    have ha : a = fun _ _ => 0 := by
      funext q e
      exact (h2 q e (Or.inl (hq q))).1
    have hb : b = fun _ _ _ => 0 := by
      funext q e i
      exact (h2 q e (Or.inl (hq q))).2 i
    rw [ha, hb, kingCleared]
  rw [h1, hk]

/-! ## `add_attack` -/

/-- What a call of `add_attack` does when the key index is not negative and the size
of the key is between 0 and 2: nothing, or an insertion at slot `size` of a target that
differs from the slots before it. -/
theorem add_attack_cases (k : KingTables) (piece king target : Int)
    (hk : 0 ≤ DeltaOffset + king)
    (hs : ∀ c d, 0 ≤ k.PieceDeltaSize c d ∧ k.PieceDeltaSize c d ≤ 2) :
    add_attack k piece king target = .ok k ∨
    ∃ (c : Fin MAX_PIECES) (d : Fin MAX_DELTAS) (sz : Fin MAX_ATTACKS_PER_DELTA),
      (c.val : Int) = piece ∧ (d.val : Int) = DeltaOffset + king ∧
      k.PieceDeltaSize c d = (sz.val : Int) ∧
      (∀ i : Fin MAX_ATTACKS_PER_DELTA, i.val < sz.val → k.PieceDeltaDelta c d i ≠ target) ∧
      add_attack k piece king target = .ok (inserted k c d sz target) := by
  unfold add_attack
  have e1 : ((MAX_PIECES : Nat) : Int) = 4 := rfl
  have e2 : ((MAX_DELTAS : Nat) : Int) = 256 := rfl
  have e3 : ((MAX_ATTACKS_PER_DELTA : Nat) : Int) = 2 := rfl
  split
  · exact Or.inl rfl
  · rename_i hg
    rw [e1, e2] at hg
    have hp : 0 ≤ piece ∧ piece < (MAX_PIECES : Nat) := by rw [e1]; omega
    have hd : 0 ≤ DeltaOffset + king ∧ DeltaOffset + king < (MAX_DELTAS : Nat) := by
      rw [e2]; omega
    simp only [rd2, wr2, rd_of_range _ piece hp, rd_of_range _ (DeltaOffset + king) hd, bind_ok,
      wr_of_range _ piece hp, wr_of_range _ (DeltaOffset + king) hd]
    generalize hc : (⟨piece.toNat, by omega⟩ : Fin MAX_PIECES) = c
    generalize hdd : (⟨(DeltaOffset + king).toNat, by omega⟩ : Fin MAX_DELTAS) = d
    have hcv : (c.val : Int) = piece := by rw [← hc]; simp; omega
    have hdv : (d.val : Int) = DeltaOffset + king := by rw [← hdd]; simp; omega
    obtain ⟨hs0, hs2⟩ := hs c d
    by_cases h2 : k.PieceDeltaSize c d ≥ (MAX_ATTACKS_PER_DELTA : Nat)
    · simp only [h2, if_true]
      exact Or.inl rfl
    · simp only [h2, if_false]
      rw [e3] at h2
      have hsz : k.PieceDeltaSize c d = 0 ∨ k.PieceDeltaSize c d = 1 := by omega
      rcases hsz with hsz | hsz
      · right
        refine ⟨c, d, ⟨0, by decide⟩, hcv, hdv, by simp [hsz], ?_, ?_⟩
        · intro i hi
          exact absurd hi (by simp)
        · have hw : (0 : Int) ≤ 0 ∧ (0 : Int) < (MAX_ATTACKS_PER_DELTA : Nat) := by
            rw [e3]; omega
          simp only [hsz, Int.toNat_zero, List.range_zero, present, bind_ok,
            wr_of_range _ 0 hw]
          rfl
      · have hr : (0 : Int) ≤ ((0 : Nat) : Int) ∧ ((0 : Nat) : Int) < (MAX_ATTACKS_PER_DELTA : Nat) := by
          rw [e3]; omega
        have hl : List.range (1 : Int).toNat = [0] := by decide
        simp only [hsz, hl, present, rd_nat _ 0 (by decide : 0 < MAX_ATTACKS_PER_DELTA), bind_ok]
        by_cases ht : k.PieceDeltaDelta c d ⟨0, by decide⟩ = target
        · left
          simp only [ht, if_true, pure, Except.pure, bind, Except.bind]
        · right
          refine ⟨c, d, ⟨1, by decide⟩, hcv, hdv, by simp [hsz], ?_, ?_⟩
          · intro i hi
            have : i = ⟨0, by decide⟩ := by
              apply Fin.ext
              simp at hi ⊢
              omega
            rw [this]
            exact ht
          · have hw : (0 : Int) ≤ 1 ∧ (1 : Int) < (MAX_ATTACKS_PER_DELTA : Nat) := by
              rw [e3]; omega
            simp only [ht, if_false, pure, Except.pure, bind, Except.bind, wr_of_range _ 1 hw]
            rfl

theorem toI8_id (x : Int) (h : -128 ≤ x ∧ x ≤ 127) : toI8 x = x := by
  unfold toI8
  omega

/-- An insertion of a target that fits the `int8_t` cell keeps the invariant. -/
theorem inserted_keeps (k : KingTables) (c : Fin MAX_PIECES) (d : Fin MAX_DELTAS)
    (sz : Fin MAX_ATTACKS_PER_DELTA) (target : Int) (hinv : KingInv k)
    (ht : -128 ≤ target ∧ target ≤ 127) (hsz : k.PieceDeltaSize c d = (sz.val : Int))
    (hnew : ∀ i : Fin MAX_ATTACKS_PER_DELTA, i.val < sz.val → k.PieceDeltaDelta c d i ≠ target) :
    KingInv (inserted k c d sz target) := by
  have hsz2 : sz.val < 2 := sz.isLt
  have e1 : toI8 ((sz.val : Int) + 1) = (sz.val : Int) + 1 := toI8_id _ (by omega)
  have e2 : toI8 target = target := toI8_id _ ht
  intro c' d'
  by_cases hkey : c' = c ∧ d' = d
  · obtain ⟨rfl, rfl⟩ := hkey
    have hS : (inserted k c' d' sz target).PieceDeltaSize c' d' = (sz.val : Int) + 1 := by
      simp [inserted, upd_apply, e1]
    have hD : ∀ i, (inserted k c' d' sz target).PieceDeltaDelta c' d' i
        = if i = sz then target else k.PieceDeltaDelta c' d' i := by
      intro i
      simp [inserted, upd_apply, e2]
    rw [hS]
    refine ⟨by omega, by omega, ?_⟩
    intro i j hi hj hij
    rw [hD i, hD j]
    have hi' : i.val ≤ sz.val := by omega
    have hj' : j.val ≤ sz.val := by omega
    by_cases h1 : i = sz
    · have h2 : j ≠ sz := fun h => hij (h1.trans h.symm)
      have h3 : j.val < sz.val := by
        have : j.val ≠ sz.val := fun h => h2 (Fin.ext h)
        omega
      rw [if_pos h1, if_neg h2]
      exact fun h => hnew j h3 h.symm
    · have h3 : i.val < sz.val := by
        have : i.val ≠ sz.val := fun h => h1 (Fin.ext h)
        omega
      rw [if_neg h1]
      by_cases h2 : j = sz
      · rw [if_pos h2]
        exact hnew i h3
      · have h4 : j.val < sz.val := by
          have : j.val ≠ sz.val := fun h => h2 (Fin.ext h)
          omega
        rw [if_neg h2]
        exact (hinv c' d').2.2 i j (by rw [hsz]; omega) (by rw [hsz]; omega) hij
  · have hS : (inserted k c d sz target).PieceDeltaSize c' d' = k.PieceDeltaSize c' d' := by
      simp only [inserted, upd_apply]
      by_cases h1 : c' = c
      · subst h1
        have h2 : d' ≠ d := fun h => hkey ⟨rfl, h⟩
        simp [upd_apply, h2]
      · simp [h1]
    have hD : ∀ i, (inserted k c d sz target).PieceDeltaDelta c' d' i
        = k.PieceDeltaDelta c' d' i := by
      intro i
      simp only [inserted, upd_apply]
      by_cases h1 : c' = c
      · subst h1
        have h2 : d' ≠ d := fun h => hkey ⟨rfl, h⟩
        simp [upd_apply, h2]
      · simp [h1]
    rw [hS]
    refine ⟨(hinv c' d').1, (hinv c' d').2.1, ?_⟩
    intro i j hi hj hij
    rw [hD i, hD j]
    exact (hinv c' d').2.2 i j hi hj hij

/-- A call of `add_attack` with a key index that is not negative and a target that fits
the `int8_t` cell returns and keeps the invariant. -/
theorem add_attack_keeps (k : KingTables) (piece king target : Int) (hinv : KingInv k)
    (hk : 0 ≤ DeltaOffset + king) (ht : -128 ≤ target ∧ target ≤ 127) :
    ∃ k', add_attack k piece king target = .ok k' ∧ KingInv k' := by
  rcases add_attack_cases k piece king target hk (fun c d => ⟨(hinv c d).1, (hinv c d).2.1⟩) with
    h | ⟨c, d, sz, _, _, hsz, hnew, h⟩
  · exact ⟨k, h, hinv⟩
  · exact ⟨_, h, inserted_keeps k c d sz target hinv ht hsz hnew⟩

theorem SQUARE_IS_OK_range (sq : Int) (h : SQUARE_IS_OK sq = true) : 68 ≤ sq ∧ sq ≤ 187 := by
  simp only [SQUARE_IS_OK, decide_eq_true_eq] at h
  omega

theorem delta_is_ok_range (delta : Int) (h : delta_is_ok delta = true) :
    -119 ≤ delta ∧ delta ≤ 119 := by
  simp only [delta_is_ok, decide_eq_true_eq] at h
  omega

theorem rdL_cases (a : List Int) (i : Nat) (h : i < a.length) :
    ∃ v, v ∈ a ∧ rdL a i = .ok v := by
  refine ⟨a[i], List.getElem_mem _, ?_⟩
  simp [rdL, List.getElem?_eq_getElem h]

/-! ## The population loops return and keep the invariant -/

theorem populateKnight_keeps (king from_ : Int) (hk : SQUARE_IS_OK king = true)
    (hf : SQUARE_IS_OK from_ = true) (k : KingTables) (hinv : KingInv k) :
    ∃ k', populateKnight king from_ k = .ok k' ∧ KingInv k' := by
  have hkr := SQUARE_IS_OK_range king hk
  have hfr := SQUARE_IS_OK_range from_ hf
  unfold populateKnight
  refine forBreak_keeps KingInv _ _ ?_ k hinv
  intro pos hpos s hs
  obtain ⟨inc, hmem, hrd⟩ := rdL_cases KnightInc pos (by
    have := List.mem_range.mp hpos
    simp [KnightInc]; omega)
  have hb : -33 ≤ inc ∧ inc ≤ 33 := by
    simp only [KnightInc, List.mem_cons, List.mem_singleton, List.not_mem_nil, or_false] at hmem
    omega
  simp only [hrd, bind_ok]
  by_cases h0 : inc = IncNone
  · exact ⟨s, Or.inr (by simp [h0, pure, Except.pure]), hs⟩
  · by_cases hq : (SQUARE_IS_OK (from_ + inc) && decide (DISTANCE (from_ + inc) king = 1)) = true
    · obtain ⟨s', h1, h2⟩ := add_attack_keeps s 0 (king - from_) (from_ + inc - from_) hs
        (by simp only [DeltaOffset]; omega) (by omega)
      rw [add_sub_cancel_left] at h1
      exact ⟨s', Or.inl (by simp [h0, hq, h1, pure, Except.pure, bind, Except.bind]), h2⟩
    · exact ⟨s, Or.inl (by simp [h0, hq, pure, Except.pure]), hs⟩

theorem populateRay_keeps (piece inc king from_ : Int) (hk : SQUARE_IS_OK king = true)
    (hf : SQUARE_IS_OK from_ = true) (k : KingTables) (hinv : KingInv k) :
    ∃ k', populateRay piece inc king from_ k = .ok k' ∧ KingInv k' := by
  have hkr := SQUARE_IS_OK_range king hk
  have hfr := SQUARE_IS_OK_range from_ hf
  unfold populateRay
  refine forBreak_keeps KingInv _ _ ?_ k hinv
  intro dist _ s hs
  by_cases hd : delta_is_ok (inc * (dist : Int)) = true
  · have hr := delta_is_ok_range _ hd
    by_cases hq : (SQUARE_IS_OK (from_ + inc * (dist : Int)) &&
        decide (DISTANCE (from_ + inc * (dist : Int)) king = 1)) = true
    · obtain ⟨s', h1, h2⟩ := add_attack_keeps s piece (king - from_)
        (from_ + inc * (dist : Int) - from_) hs (by simp only [DeltaOffset]; omega) (by omega)
      rw [add_sub_cancel_left] at h1
      exact ⟨s', Or.inr (by simp [hd, hq, h1, pure, Except.pure, bind, Except.bind]), h2⟩
    · exact ⟨s, Or.inl (by simp [hd, hq, pure, Except.pure]), hs⟩
  · exact ⟨s, Or.inl (by simp [hd, pure, Except.pure]), hs⟩

theorem populateSlider_keeps (piece : Int) (incs : List Int) (dirs : Nat)
    (hlen : dirs ≤ incs.length) (king from_ : Int) (hk : SQUARE_IS_OK king = true)
    (hf : SQUARE_IS_OK from_ = true) (k : KingTables) (hinv : KingInv k) :
    ∃ k', populateSlider piece incs dirs king from_ k = .ok k' ∧ KingInv k' := by
  unfold populateSlider
  refine forBreak_keeps KingInv _ _ ?_ k hinv
  intro pos hpos s hs
  obtain ⟨inc, _, hrd⟩ := rdL_cases incs pos (by
    have := List.mem_range.mp hpos
    omega)
  simp only [hrd, bind_ok]
  by_cases h0 : inc = IncNone
  · exact ⟨s, Or.inr (by simp [h0, pure, Except.pure]), hs⟩
  · obtain ⟨s', h1, h2⟩ := populateRay_keeps piece inc king from_ hk hf s hs
    exact ⟨s', Or.inl (by simp [h0, h1, pure, Except.pure, bind, Except.bind]), h2⟩

theorem populatePair_keeps (king from_ : Int) (hk : SQUARE_IS_OK king = true)
    (hf : SQUARE_IS_OK from_ = true) (k : KingTables) (hinv : KingInv k) :
    ∃ k', populatePair king from_ k = .ok k' ∧ KingInv k' := by
  obtain ⟨k1, e1, i1⟩ := populateKnight_keeps king from_ hk hf k hinv
  obtain ⟨k2, e2, i2⟩ := populateSlider_keeps 1 BishopInc 4 (by decide) king from_ hk hf k1 i1
  obtain ⟨k3, e3, i3⟩ := populateSlider_keeps 2 RookInc 4 (by decide) king from_ hk hf k2 i2
  obtain ⟨k4, e4, i4⟩ := populateSlider_keeps 3 QueenInc 8 (by decide) king from_ hk hf k3 i3
  refine ⟨k4, ?_, i4⟩
  unfold populatePair
  rw [e1, bind_ok, e2, bind_ok, e3, bind_ok, e4]

theorem populate_keeps (k : KingTables) (hinv : KingInv k) :
    ∃ k', populate k = .ok k' ∧ KingInv k' := by
  unfold populate
  refine foldlM_keeps KingInv _ _ ?_ k hinv
  intro king _ s hs
  by_cases hk : SQUARE_IS_OK (king : Int) = true
  · simp only [hk, if_true]
    refine foldlM_keeps KingInv _ _ ?_ s hs
    intro from_ _ s' hs'
    by_cases hf : SQUARE_IS_OK (from_ : Int) = true
    · simp only [hf, if_true]
      exact populatePair_keeps _ _ hk hf s' hs'
    · exact ⟨s', by simp [hf, pure, Except.pure], hs'⟩
  · exact ⟨s, by simp [hk, pure, Except.pure], hs⟩

theorem kingCleared_inv : KingInv kingCleared := by
  intro c d
  refine ⟨by simp [kingCleared], by simp [kingCleared], ?_⟩
  intro i j hi
  have h0 : kingCleared.PieceDeltaSize c d = 0 := rfl
  rw [h0] at hi
  omega

theorem populate_eq : populate kingCleared = .ok kingInit ∧ KingInv kingInit := by
  obtain ⟨k', h1, h2⟩ := populate_keeps kingCleared kingCleared_inv
  have h3 : kingInit = k' := by
    unfold kingInit
    rw [h1]
    rfl
  rw [h3]
  exact ⟨h1, h2⟩

/-- Whatever the king-relative tables held before, lines 113-188 leave `kingInit`. -/
theorem initKingTables_eq (k : KingTables) : initKingTables k = .ok kingInit := by
  unfold initKingTables
  rw [clearKing_eq, bind_ok]
  exact populate_eq.1

/-- Whatever the tables held before, `attack_init` returns and leaves `initTables`. -/
theorem attack_init_eq (t : Tables) : attack_init t = .ok initTables := by
  unfold attack_init
  rw [initGeo_eq, bind_ok, initPieceCode_eq, bind_ok, initKingTables_eq, bind_ok]
  rfl

/-- With a negative key index `add_attack` either leaves at the bound check or reads
outside `PieceDeltaSize`. -/
theorem add_attack_negative_key (k : KingTables) (piece king target : Int)
    (hk : DeltaOffset + king < 0) :
    add_attack k piece king target = .ok k ∨
      add_attack k piece king target = .error .outOfBounds := by
  unfold add_attack
  have e1 : ((MAX_PIECES : Nat) : Int) = 4 := rfl
  split
  · exact Or.inl rfl
  · rename_i hg
    rw [e1] at hg
    have hp : 0 ≤ piece ∧ piece < (MAX_PIECES : Nat) := by rw [e1]; omega
    have hd : ¬ (0 ≤ DeltaOffset + king ∧ DeltaOffset + king < (MAX_DELTAS : Nat)) := by omega
    right
    simp only [rd2, rd_of_range _ piece hp, bind_ok]
    simp only [rd, hd, dite_false]
    rfl

theorem wrapState_inv : KingInv wrapState := by
  intro c d
  by_cases h : c.val = 0 ∧ d.val = 119
  · have hs : wrapState.PieceDeltaSize c d = 1 := by simp [wrapState, h]
    rw [hs]
    refine ⟨by omega, by omega, ?_⟩
    intro i j hi hj hij
    exact absurd (Fin.ext (by omega : i.val = j.val)) hij
  · have hs : wrapState.PieceDeltaSize c d = 0 := by simp [wrapState, h]
    rw [hs]
    refine ⟨by omega, by omega, ?_⟩
    intro i j hi
    omega

theorem initTables_king : initTables.toKingTables = kingInit := by
  simp only [initTables]

theorem initTables_geo : initTables.toGeoTables = geoInit := by
  simp only [initTables]

/-! ## The claims about the query guard, the table invariant and determinism -/

/-- C6: `is_attacked` answers `false`, whatever the tables and the board hold and
with any fuel, when the board is absent, the square fails `SQUARE_IS_OK` or the colour
fails `COLOUR_IS_OK`; it never faults. -/
theorem C6_invalid_input_false (t : Tables) (fuel : Nat) (board : Option board_t)
    (to_ colour : Int)
    (h : board = none ∨ SQUARE_IS_OK to_ = false ∨ COLOUR_IS_OK colour = false) :
    is_attacked t fuel board to_ colour = .ok false := by
  unfold is_attacked
  cases board with
  | none => rfl
  | some b =>
    rcases h with h | h | h
    · exact absurd h (by simp)
    · simp [h, pure, Except.pure]
    · simp [h, pure, Except.pure]

/-- C6, at an instance: square 0 is off the board. -/
theorem C6_invalid_input_false_witness :
    SQUARE_IS_OK 0 = false ∧ is_attacked zeroTables 0 none 0 White = .ok false :=
  ⟨by decide, C6_invalid_input_false zeroTables 0 none 0 White (Or.inr (Or.inl (by decide)))⟩

/-- C9, as stated, fails: from a state that satisfies the invariant, the call
`add_attack(0, 0, 130)` passes the bound check (119 + 130 < 256), does not find 130 among
the entries, stores it as -126 in the `int8_t` slot and leaves the key with two equal
entries. -/
theorem C9_any_argument_counterexample :
    KingInv wrapState ∧
    ∃ k', add_attack wrapState 0 0 130 = .ok k' ∧ ¬ KingInv k' := by
  refine ⟨wrapState_inv, inserted wrapState 0 ⟨119, by decide⟩ ⟨1, by decide⟩ 130, rfl, ?_⟩
  intro hinv
  have h := (hinv 0 ⟨119, by decide⟩).2.2 ⟨0, by decide⟩ ⟨1, by decide⟩
  revert h
  simp [inserted, upd_apply, wrapState, toI8]

/-- C9, amended: the capacity bound and the absence of duplicates hold after the
clearing loops, are kept by every call of `add_attack` whose target fits the `int8_t`
cell (-128..127) whenever the call returns, which it does when the key index is not
negative, and hold when `attack_init` returns. -/
theorem C9_capacity_and_no_duplicates :
    (∀ k0 : KingTables, ∃ k, clearKing k0 = .ok k ∧ KingInv k) ∧
    (∀ (k : KingTables) (piece king target : Int), KingInv k → -128 ≤ target → target ≤ 127 →
      (∀ k', add_attack k piece king target = .ok k' → KingInv k') ∧
      (0 ≤ DeltaOffset + king → ∃ k', add_attack k piece king target = .ok k')) ∧
    (∀ t0 : Tables, ∃ t, attack_init t0 = .ok t ∧ KingInv t.toKingTables) := by
  refine ⟨fun k0 => ⟨kingCleared, clearKing_eq k0, kingCleared_inv⟩, ?_, ?_⟩
  · intro k piece king target hinv h1 h2
    constructor
    · intro k' hk'
      by_cases hk : 0 ≤ DeltaOffset + king
      · obtain ⟨k'', e, hi⟩ := add_attack_keeps k piece king target hinv hk ⟨h1, h2⟩
        rw [e] at hk'
        cases hk'
        exact hi
      · rcases add_attack_negative_key k piece king target (by omega) with e | e
        · rw [e] at hk'
          cases hk'
          exact hinv
        · rw [e] at hk'
          cases hk'
    · intro hk
      obtain ⟨k'', e, _⟩ := add_attack_keeps k piece king target hinv hk ⟨h1, h2⟩
      exact ⟨k'', e⟩
  · intro t0
    exact ⟨initTables, attack_init_eq t0, initTables_king ▸ populate_eq.2⟩

/-- C9, amended, at an instance: the first insertion into the cleared tables. -/
theorem C9_capacity_and_no_duplicates_witness :
    KingInv kingCleared ∧ ∃ k', add_attack kingCleared 0 0 33 = .ok k' ∧ KingInv k' := by
  have h := C9_capacity_and_no_duplicates.2.1 kingCleared 0 0 33 kingCleared_inv
    (by decide) (by decide)
  obtain ⟨k', e⟩ := h.2 (by decide)
  exact ⟨kingCleared_inv, k', e, h.1 k' e⟩

/-- C10: the tables after `attack_init` do not depend on what the tables held before,
and a second run leaves the tables of the first. -/
theorem C10_attack_init_deterministic (t1 t2 : Tables) :
    attack_init t1 = attack_init t2 ∧
    ∃ t, attack_init t1 = .ok t ∧ attack_init t = .ok t :=
  ⟨(attack_init_eq t1).trans (attack_init_eq t2).symm,
   initTables, attack_init_eq t1, attack_init_eq initTables⟩

set_option maxRecDepth 100000 in
theorem geoInit_mask_spec : ∀ i : Fin DeltaNb,
    if delta_is_ok ((i.val : Int) - DeltaOffset) then
      MaskSpec (geoInit.DeltaMask i) (deltaX ((i.val : Int) - DeltaOffset))
        (deltaY ((i.val : Int) - DeltaOffset))
    else geoInit.DeltaMask i = 0 := by
  decide

theorem delta_is_ok_iff (delta : Int) :
    delta_is_ok delta = true ↔
      ∃ dx dy : Int, -7 ≤ dx ∧ dx ≤ 7 ∧ -7 ≤ dy ∧ dy ≤ 7 ∧ delta = 16 * dy + dx := by
  simp only [delta_is_ok, decide_eq_true_eq]
  constructor
  · intro h
    exact ⟨(delta + 7) % 16 - 7, (delta + 7) / 16, by omega, by omega, by omega, by omega,
      by omega⟩
  · rintro ⟨dx, dy, h1, h2, h3, h4, rfl⟩
    omega

/-- C7: after `attack_init`, the mask of the displacement `(dx, dy)`, both between -7
and 7 (these are the deltas `delta_is_ok` accepts), holds `KnightFlag` iff
`{|dx|, |dy|} = {1, 2}`, `BishopFlag` iff `|dx| = |dy| != 0`, `RookFlag` iff exactly one
of `dx`, `dy` is 0, `KingFlag` iff `max(|dx|, |dy|) = 1`, `WhitePawnFlag` iff `dy = 1` and
`|dx| = 1`, `BlackPawnFlag` iff `dy = -1` and `|dx| = 1`, and no other bit; the mask of
delta 0 is 0, and so is the mask at every index that is not a valid delta. -/
theorem C7_pseudo_attack_masks (t0 : Tables) :
    ∃ t, attack_init t0 = .ok t ∧
    (∀ delta : Int, delta_is_ok delta = true ↔
      ∃ dx dy : Int, -7 ≤ dx ∧ dx ≤ 7 ∧ -7 ≤ dy ∧ dy ≤ 7 ∧ delta = 16 * dy + dx) ∧
    (∀ dx dy : Int, -7 ≤ dx → dx ≤ 7 → -7 ≤ dy → dy ≤ 7 →
      ∃ m : Nat, rd t.DeltaMask (DeltaOffset + (16 * dy + dx)) = .ok m ∧
        (m &&& KnightFlag ≠ 0 ↔
          (dx.natAbs = 1 ∧ dy.natAbs = 2) ∨ (dx.natAbs = 2 ∧ dy.natAbs = 1)) ∧
        (m &&& BishopFlag ≠ 0 ↔ dx.natAbs = dy.natAbs ∧ dx ≠ 0) ∧
        (m &&& RookFlag ≠ 0 ↔ (dx = 0 ∧ dy ≠ 0) ∨ (dx ≠ 0 ∧ dy = 0)) ∧
        (m &&& KingFlag ≠ 0 ↔ max dx.natAbs dy.natAbs = 1) ∧
        (m &&& WhitePawnFlag ≠ 0 ↔ dy = 1 ∧ dx.natAbs = 1) ∧
        (m &&& BlackPawnFlag ≠ 0 ↔ dy = -1 ∧ dx.natAbs = 1) ∧
        m &&& 3 = 0 ∧ m < 256 ∧
        (dx = 0 ∧ dy = 0 → m = 0)) ∧
    (∀ i : Fin DeltaNb, delta_is_ok ((i.val : Int) - DeltaOffset) = false →
      t.DeltaMask i = 0) := by
  refine ⟨initTables, attack_init_eq t0, delta_is_ok_iff, ?_, ?_⟩
  · intro dx dy h1 h2 h3 h4
    have hr : 0 ≤ DeltaOffset + (16 * dy + dx) ∧ DeltaOffset + (16 * dy + dx) < (DeltaNb : Nat) := by
      simp only [DeltaOffset, DeltaNb]
      omega
    refine ⟨_, rd_of_range _ _ hr, ?_⟩
    have h := geoInit_mask_spec ⟨(DeltaOffset + (16 * dy + dx)).toNat, by omega⟩
    have e : (((DeltaOffset + (16 * dy + dx)).toNat : Nat) : Int) - DeltaOffset = 16 * dy + dx := by
      simp only [DeltaOffset] at hr ⊢
      omega
    simp only [e] at h
    have hok : delta_is_ok (16 * dy + dx) = true :=
      (delta_is_ok_iff _).2 ⟨dx, dy, h1, h2, h3, h4, rfl⟩
    have ex : deltaX (16 * dy + dx) = dx := by unfold deltaX; omega
    have ey : deltaY (16 * dy + dx) = dy := by unfold deltaY; omega
    rw [if_pos hok, ex, ey] at h
    exact h
  · intro i hi
    have h := geoInit_mask_spec i
    rw [hi] at h
    exact h

/-- C7, at an instance: the mask of the knight leap `(1, 2)`. -/
theorem C7_pseudo_attack_masks_witness :
    ∃ t, attack_init zeroTables = .ok t ∧
      ∃ m : Nat, rd t.DeltaMask (DeltaOffset + (16 * 2 + 1)) = .ok m ∧ m &&& KnightFlag ≠ 0 := by
  obtain ⟨t, h, _, h2, _⟩ := C7_pseudo_attack_masks zeroTables
  obtain ⟨m, hm, hk, _⟩ := h2 1 2 (by decide) (by decide) (by decide) (by decide)
  exact ⟨t, h, m, hm, hk.2 (Or.inl ⟨by decide, by decide⟩)⟩

/-! ## The ray walk and the piece scan -/

theorem SQUARE_IS_OK_index (sq : Int) (h : SQUARE_IS_OK sq = true) :
    0 ≤ sq ∧ sq < (SquareNb : Nat) := by
  have := SQUARE_IS_OK_range sq h
  simp only [SquareNb]
  omega

/-- A walk that starts off the board leaves the loop at once. -/
theorem walk_off (b : board_t) (to_ inc : Int) (fuel : Nat) (sq : Int)
    (h : SQUARE_IS_OK sq = false) : walk b to_ inc (fuel + 1) sq = .ok false := by
  simp [walk, h, pure, Except.pure]

/-- A walk that meets an occupied square before it meets the target leaves the loop. -/
theorem walk_blocked (b : board_t) (to_ inc : Int) :
    ∀ (n fuel : Nat) (s : Int), n < fuel →
      (∀ i : Nat, 1 ≤ i → i ≤ n + 1 → s + (i : Int) * inc ≠ to_) →
      (∃ x, rd b.square (s + ((n : Int) + 1) * inc) = .ok x ∧ x ≠ Empty) →
      walk b to_ inc fuel (s + inc) = .ok false := by
  intro n
  induction n with
  | zero =>
    intro fuel s hf hne hx
    obtain ⟨f, rfl⟩ : ∃ f, fuel = f + 1 := ⟨fuel - 1, by omega⟩
    obtain ⟨x, hx1, hx2⟩ := hx
    have e : s + (((0 : Nat) : Int) + 1) * inc = s + inc := by simp
    rw [e] at hx1
    have h1 : s + inc ≠ to_ := by
      have := hne 1 (by omega) (by omega)
      simpa using this
    unfold walk
    by_cases hok : SQUARE_IS_OK (s + inc) = true
    · simp [hok, h1, hx1, hx2, pure, Except.pure, bind, Except.bind]
    · simp [hok, pure, Except.pure]
  | succ n ih =>
    intro fuel s hf hne hx
    obtain ⟨f, rfl⟩ : ∃ f, fuel = f + 1 := ⟨fuel - 1, by omega⟩
    have h1 : s + inc ≠ to_ := by
      have := hne 1 (by omega) (by omega)
      simpa using this
    have hrec : walk b to_ inc f (s + inc + inc) = .ok false := by
      apply ih f (s + inc) (by omega)
      · intro i hi1 hi2
        have := hne (i + 1) (by omega) (by omega)
        have e : s + ((i + 1 : Nat) : Int) * inc = s + inc + (i : Int) * inc := by
          push_cast; ring
        rwa [e] at this
      · obtain ⟨x, hx1, hx2⟩ := hx
        refine ⟨x, ?_, hx2⟩
        have e : s + inc + ((n : Int) + 1) * inc = s + (((n + 1 : Nat) : Int) + 1) * inc := by
          push_cast; ring
        rwa [e]
    unfold walk
    by_cases hok : SQUARE_IS_OK (s + inc) = true
    · obtain ⟨x, hx⟩ : ∃ x, rd b.square (s + inc) = .ok x :=
        ⟨_, rd_of_range _ _ (SQUARE_IS_OK_index _ hok)⟩
      by_cases hE : x = Empty
      · simp [hok, h1, hx, hE, hrec, pure, Except.pure, bind, Except.bind]
      · simp [hok, h1, hx, hE, pure, Except.pure, bind, Except.bind]
    · simp [hok, pure, Except.pure]

/-- A walk that answers `true` has reached the target over on-board empty squares. -/
theorem walk_true (b : board_t) (to_ inc : Int) :
    ∀ (fuel : Nat) (sq : Int), walk b to_ inc fuel sq = .ok true →
      ∃ n : Nat, to_ = sq + (n : Int) * inc ∧
        ∀ i : Nat, i < n → SQUARE_IS_OK (sq + (i : Int) * inc) = true ∧
          rd b.square (sq + (i : Int) * inc) = .ok Empty := by
  intro fuel
  induction fuel with
  | zero =>
    intro sq h
    simp [walk] at h
  | succ f ih =>
    intro sq h
    unfold walk at h
    by_cases hok : SQUARE_IS_OK sq = true
    · by_cases ht : sq = to_
      · exact ⟨0, by simp [ht], fun i hi => absurd hi (by omega)⟩
      · obtain ⟨x, hx⟩ : ∃ x, rd b.square sq = .ok x :=
          ⟨_, rd_of_range _ _ (SQUARE_IS_OK_index _ hok)⟩
        by_cases hE : x = Empty
        · simp only [hok, if_true, ht, if_false, hx, bind_ok] at h
          simp only [hE, ne_eq, not_true_eq_false, if_false] at h
          obtain ⟨n, hn1, hn2⟩ := ih (sq + inc) h
          refine ⟨n + 1, by rw [hn1]; push_cast; ring, ?_⟩
          intro i hi
          rcases Nat.eq_zero_or_pos i with rfl | hpos
          · simp only [Nat.cast_zero, zero_mul, add_zero]
            exact ⟨hok, hE ▸ hx⟩
          · obtain ⟨i', rfl⟩ : ∃ i', i = i' + 1 := ⟨i - 1, by omega⟩
            have := hn2 i' (by omega)
            have e : sq + ((i' + 1 : Nat) : Int) * inc = sq + inc + (i' : Int) * inc := by
              push_cast; ring
            rw [e]
            exact this
        · simp [hok, ht, hx, hE, pure, Except.pure, bind, Except.bind] at h
    · simp [hok, pure, Except.pure] at h

/-- The increment read back from a `uint8_t` table is never negative, so no walk reaches
a target below the square it starts from: the walk can only climb. -/
theorem walk_never_down (b : board_t) (to_ s : Int) (inc fuel : Nat) (h : to_ < s) :
    walk b to_ (inc : Int) fuel (s + (inc : Int)) ≠ .ok true := by
  intro hw
  obtain ⟨n, hn, _⟩ := walk_true b to_ (inc : Int) fuel _ hw
  have h1 : (0 : Int) ≤ (n : Int) * (inc : Int) := by positivity
  omega

theorem sliders_dir (colour A d : Int) (dirs : List Int) (h : (A, dirs) ∈ sliders colour)
    (hd : d ∈ dirs) : d ∈ QueenInc.dropLast := by
  unfold sliders at h
  have hB : ∀ x ∈ BishopInc.dropLast, x ∈ QueenInc.dropLast := by decide
  have hR : ∀ x ∈ RookInc.dropLast, x ∈ QueenInc.dropLast := by decide
  split at h <;>
    simp only [List.mem_cons, List.mem_singleton, Prod.mk.injEq, List.not_mem_nil, or_false] at h <;>
    rcases h with ⟨_, rfl⟩ | ⟨_, rfl⟩ | ⟨_, rfl⟩ <;>
    first | exact hB d hd | exact hR d hd | exact hd

set_option maxRecDepth 100000 in
theorem geoInit_incAll_line : ∀ d ∈ QueenInc.dropLast, ∀ k ∈ ([1, 2, 3, 4, 5, 6, 7] : List Int),
    rd geoInit.DeltaIncAll (DeltaOffset + k * d) = .ok (toU8 d) := by
  decide

/-- The scan of a list that holds one square and then the sentinel answers `false` when
the walk from that square, if there is one, does not reach the target. -/
theorem scan_single_false (t : Tables) (fuel : Nat) (b : board_t) (to_ s : Int)
    (rest : List Int) (hs : s ≠ SquareNone)
    (hA : ∃ A, rd b.square s = .ok A)
    (hm : ∃ m, rd t.DeltaMask (DeltaOffset + (to_ - s)) = .ok m)
    (hw : ∃ inc : Nat, rd t.DeltaIncAll (DeltaOffset + (to_ - s)) = .ok inc ∧
      ((inc : Int) ≠ IncNone → walk b to_ (inc : Int) fuel (s + (inc : Int)) = .ok false)) :
    scan t fuel b to_ (s :: SquareNone :: rest) = .ok false := by
  obtain ⟨A, hA⟩ := hA
  obtain ⟨m, hm⟩ := hm
  obtain ⟨inc, hi, hw⟩ := hw
  have hnext : scan t fuel b to_ (SquareNone :: rest) = .ok false := by
    simp [scan, pure, Except.pure]
  rw [scan]
  simp only [hs, if_false, hA, bind_ok, hm, hi]
  by_cases hp : PSEUDO_ATTACK A m = true
  · by_cases h0 : (inc : Int) = IncNone
    · simp [hp, h0, hnext]
    · simp [hp, h0, hw h0, hnext, bind, Except.bind]
  · simp [hp, hnext]

theorem tables_after_init (t0 t : Tables) (h : attack_init t0 = .ok t) : t = initTables := by
  rw [attack_init_eq] at h
  exact (Except.ok.inj h).symm

theorem toU8_neg (d : Int) (h1 : -256 ≤ d) (h2 : d < 0) : ((toU8 d : Nat) : Int) = 256 + d := by
  unfold toU8
  omega

theorem toU8_pos (d : Int) (h1 : 0 ≤ d) (h2 : d < 256) : ((toU8 d : Nat) : Int) = d := by
  unfold toU8
  omega

theorem pawn_inc_cases (colour : Int) : PAWN_MOVE_INC colour = 16 ∨ PAWN_MOVE_INC colour = -16 := by
  unfold PAWN_MOVE_INC
  split
  · exact Or.inl rfl
  · exact Or.inr rfl

/-- The two pawn reads of `is_attacked` are inside the board array. -/
theorem pawn_reads (b : board_t) (to_ colour : Int) (hT : SQUARE_IS_OK to_ = true) :
    (∃ x, rd b.square (to_ - (PAWN_MOVE_INC colour - 1)) = .ok x) ∧
    (∃ x, rd b.square (to_ - (PAWN_MOVE_INC colour + 1)) = .ok x) := by
  have hr := SQUARE_IS_OK_range to_ hT
  constructor <;>
  · refine ⟨_, rd_of_range _ _ ?_⟩
    simp only [SquareNb]
    rcases pawn_inc_cases colour with h | h <;> rw [h] <;> omega

/-- When the board is present, the square and the colour are valid and neither pawn
square holds the colour's pawn, the answer is that of the piece scan. -/
theorem is_attacked_eq_scan (t : Tables) (fuel : Nat) (b : board_t) (to_ colour : Int)
    (hc : COLOUR_IS_OK colour = true) (hT : SQUARE_IS_OK to_ = true)
    (hp1 : rd b.square (to_ - (PAWN_MOVE_INC colour - 1)) ≠ .ok (PAWN_MAKE colour))
    (hp2 : rd b.square (to_ - (PAWN_MOVE_INC colour + 1)) ≠ .ok (PAWN_MAKE colour)) :
    is_attacked t fuel (some b) to_ colour = scan t fuel b to_ (b.piece colour) := by
  obtain ⟨⟨x1, h1⟩, ⟨x2, h2⟩⟩ := pawn_reads b to_ colour hT
  have n1 : x1 ≠ PAWN_MAKE colour := fun h => hp1 (h ▸ h1)
  have n2 : x2 ≠ PAWN_MAKE colour := fun h => hp2 (h ▸ h2)
  unfold is_attacked
  simp [hc, hT, h1, h2, n1, n2, bind, Except.bind]

/-- C2: after `attack_init`, with enough fuel for the walk, when the colour's piece list
holds exactly one piece, a slider on `s` aligned with the on-board target `to_` along one
of its own directions, at least one square strictly between them is not empty, and
neither pawn-check square holds the colour's pawn, `is_attacked` returns `false`. -/
theorem C2_blocked_slider_not_attacking (t0 t : Tables) (hinit : attack_init t0 = .ok t)
    (fuel : Nat) (hfuel : 8 ≤ fuel) (b : board_t) (colour to_ s A d k j : Int)
    (dirs rest : List Int)
    (hc : COLOUR_IS_OK colour = true) (hT : SQUARE_IS_OK to_ = true)
    (hS : SQUARE_IS_OK s = true)
    (hlist : b.piece colour = s :: SquareNone :: rest)
    (hA : rd b.square s = .ok A) (hsl : (A, dirs) ∈ sliders colour) (hd : d ∈ dirs)
    (hk : 1 ≤ k ∧ k ≤ 7) (hto : to_ = s + k * d)
    (hj : 1 ≤ j ∧ j < k) (hblock : ∃ x, rd b.square (s + j * d) = .ok x ∧ x ≠ Empty)
    (hp1 : rd b.square (to_ - (PAWN_MOVE_INC colour - 1)) ≠ .ok (PAWN_MAKE colour))
    (hp2 : rd b.square (to_ - (PAWN_MOVE_INC colour + 1)) ≠ .ok (PAWN_MAKE colour)) :
    is_attacked t fuel (some b) to_ colour = .ok false := by
  have ht := tables_after_init t0 t hinit
  subst ht
  have hdq := sliders_dir colour A d dirs hsl hd
  have hkl : k ∈ ([1, 2, 3, 4, 5, 6, 7] : List Int) := by
    simp only [List.mem_cons, List.mem_singleton, List.not_mem_nil, or_false]
    omega
  have hinc := geoInit_incAll_line d hdq k hkl
  have hdb : -17 ≤ d ∧ d ≤ 17 ∧ d ≠ 0 := by
    simp only [QueenInc, List.dropLast, List.mem_cons, List.mem_singleton, List.not_mem_nil,
      or_false] at hdq
    omega
  have hsr := SQUARE_IS_OK_range s hS
  have htr := SQUARE_IS_OK_range to_ hT
  have hdelta : to_ - s = k * d := by rw [hto]; ring
  rw [is_attacked_eq_scan _ fuel b to_ colour hc hT hp1 hp2, hlist]
  apply scan_single_false
  · simp only [SquareNone]; omega
  · exact ⟨A, hA⟩
  · refine ⟨_, rd_of_range _ _ ?_⟩
    simp only [DeltaOffset, DeltaNb]
    omega
  · refine ⟨toU8 d, ?_, ?_⟩
    · rw [hdelta]
      exact hinc
    · intro _
      obtain ⟨f, rfl⟩ : ∃ f, fuel = f + 1 := ⟨fuel - 1, by omega⟩
      by_cases hneg : d < 0
      · rw [toU8_neg d (by omega) hneg]
        apply walk_off
        simp only [SQUARE_IS_OK, decide_eq_false_iff_not]
        omega
      · have hpos : 0 < d := by omega
        rw [toU8_pos d (by omega) (by omega)]
        obtain ⟨n, hn⟩ : ∃ n : Nat, j = (n : Int) + 1 := ⟨(j - 1).toNat, by omega⟩
        apply walk_blocked b to_ d n (f + 1) s (by omega)
        · intro i hi1 hi2 he
          rw [hto] at he
          have hlt : (i : Int) * d < k * d := mul_lt_mul_of_pos_right (by omega) hpos
          omega
        · rw [← hn]
          exact hblock

theorem rd_ok_inv {α : Type} {n : Nat} (a : Fin n → α) (i : Int) (v : α)
    (h : rd a i = .ok v) : ∃ hr : 0 ≤ i ∧ i < n, a ⟨i.toNat, by omega⟩ = v := by
  unfold rd at h
  split at h
  · rename_i hr
    exact ⟨hr, Except.ok.inj h⟩
  · cases h

/-- A scan that answers `true` has found, before the sentinel, a piece whose flag is in
the mask of its delta to the target and whose walk answered `true`. -/
theorem scan_true (t : Tables) (fuel : Nat) (b : board_t) (to_ : Int) :
    ∀ l : List Int, scan t fuel b to_ l = .ok true →
      ∃ s ∈ l.takeWhile (fun x => decide (x ≠ SquareNone)), ∃ (piece : Int) (mask inc : Nat),
        rd b.square s = .ok piece ∧
        rd t.DeltaMask (DeltaOffset + (to_ - s)) = .ok mask ∧
        PSEUDO_ATTACK piece mask = true ∧
        rd t.DeltaIncAll (DeltaOffset + (to_ - s)) = .ok inc ∧
        (inc : Int) ≠ IncNone ∧
        walk b to_ (inc : Int) fuel (s + (inc : Int)) = .ok true := by
  intro l
  induction l with
  | nil => intro h; simp [scan] at h
  | cons x rest ih =>
    intro h
    rw [scan] at h
    by_cases hx : x = SquareNone
    · simp [hx, pure, Except.pure] at h
    · simp only [hx, if_false] at h
      have lift : (∃ s ∈ rest.takeWhile (fun x => decide (x ≠ SquareNone)),
          ∃ (piece : Int) (mask inc : Nat),
          rd b.square s = .ok piece ∧
          rd t.DeltaMask (DeltaOffset + (to_ - s)) = .ok mask ∧
          PSEUDO_ATTACK piece mask = true ∧
          rd t.DeltaIncAll (DeltaOffset + (to_ - s)) = .ok inc ∧
          (inc : Int) ≠ IncNone ∧
          walk b to_ (inc : Int) fuel (s + (inc : Int)) = .ok true) →
          ∃ s ∈ (x :: rest).takeWhile (fun x => decide (x ≠ SquareNone)),
          ∃ (piece : Int) (mask inc : Nat),
          rd b.square s = .ok piece ∧
          rd t.DeltaMask (DeltaOffset + (to_ - s)) = .ok mask ∧
          PSEUDO_ATTACK piece mask = true ∧
          rd t.DeltaIncAll (DeltaOffset + (to_ - s)) = .ok inc ∧
          (inc : Int) ≠ IncNone ∧
          walk b to_ (inc : Int) fuel (s + (inc : Int)) = .ok true := by
        rintro ⟨s, hs, rest'⟩
        refine ⟨s, ?_, rest'⟩
        simp only [List.takeWhile, hx, ne_eq, not_false_eq_true, decide_True, List.mem_cons]
        exact Or.inr hs
      cases hA : rd b.square x with
      | error e => simp [hA, bind, Except.bind] at h
      | ok piece =>
        cases hm : rd t.DeltaMask (DeltaOffset + (to_ - x)) with
        | error e => simp [hA, hm, bind, Except.bind] at h
        | ok mask =>
          simp only [hA, hm, bind_ok] at h
          by_cases hp : PSEUDO_ATTACK piece mask = true
          · simp only [hp, if_true] at h
            cases hi : rd t.DeltaIncAll (DeltaOffset + (to_ - x)) with
            | error e => simp [hi, bind, Except.bind] at h
            | ok inc =>
              simp only [hi, bind_ok] at h
              by_cases h0 : (inc : Int) = IncNone
              · simp only [h0, ne_eq, not_true_eq_false, if_false] at h
                exact lift (ih h)
              · simp only [h0, ne_eq, not_false_eq_true, if_true] at h
                cases hw : walk b to_ (inc : Int) fuel (x + (inc : Int)) with
                | error e => simp [hw, bind, Except.bind] at h
                | ok r =>
                  cases r with
                  | true =>
                    refine ⟨x, ?_, piece, mask, inc, hA, hm, hp, hi, h0, hw⟩
                    simp [List.takeWhile, hx]
                  | false =>
                    simp only [hw, bind_ok] at h
                    exact lift (ih (by simpa using h))
          · simp only [hp, if_false] at h
            exact lift (ih (by simpa using h))

set_option maxRecDepth 100000 in
theorem geoInit_incAll_spec : ∀ i : Fin DeltaNb,
    geoInit.DeltaIncAll i = 0 ∨ 128 ≤ geoInit.DeltaIncAll i ∨
    ((geoInit.DeltaIncAll i : Int) ∈ KingInc.dropLast ∧
      1 ≤ ((i.val : Int) - DeltaOffset) / (geoInit.DeltaIncAll i : Int) ∧
      ((i.val : Int) - DeltaOffset) / (geoInit.DeltaIncAll i : Int) ≤ 7 ∧
      (i.val : Int) - DeltaOffset
        = ((i.val : Int) - DeltaOffset) / (geoInit.DeltaIncAll i : Int)
          * (geoInit.DeltaIncAll i : Int)) ∨
    ((i.val : Int) - DeltaOffset ∈ KnightInc.dropLast ∧
      (geoInit.DeltaIncAll i : Int) = (i.val : Int) - DeltaOffset) := by
  decide

/-- After `attack_init`, a walk along the stored increment that reaches the target went
along the straight line to it, or was a single knight leap. -/
theorem walk_true_line (b : board_t) (to_ s : Int) (inc : Nat) (fuel : Nat)
    (hi : rd initTables.DeltaIncAll (DeltaOffset + (to_ - s)) = .ok inc)
    (h0 : (inc : Int) ≠ IncNone)
    (hw : walk b to_ (inc : Int) fuel (s + (inc : Int)) = .ok true) :
    to_ - s ∈ KnightInc.dropLast ∨
    ∃ d ∈ KingInc.dropLast, ∃ k : Int, 1 ≤ k ∧ k ≤ 7 ∧ to_ - s = k * d ∧
      ∀ j : Int, 1 ≤ j → j < k →
        SQUARE_IS_OK (s + j * d) = true ∧ rd b.square (s + j * d) = .ok Empty := by
  obtain ⟨hr, hv⟩ := rd_ok_inv _ _ _ hi
  obtain ⟨n, hn1, hn2⟩ := walk_true b to_ (inc : Int) fuel _ hw
  have hdelta : to_ - s = ((n : Int) + 1) * (inc : Int) := by rw [hn1]; ring
  have hpos : 0 < (inc : Int) := by
    simp only [IncNone] at h0
    omega
  have hidx : (((DeltaOffset + (to_ - s)).toNat : Nat) : Int) - DeltaOffset = to_ - s := by
    simp only [DeltaOffset] at hr ⊢
    omega
  have hspec := geoInit_incAll_spec ⟨(DeltaOffset + (to_ - s)).toNat, by omega⟩
  have hv' : geoInit.DeltaIncAll ⟨(DeltaOffset + (to_ - s)).toNat, by omega⟩ = inc := hv
  simp only [hv', hidx] at hspec
  have hle : to_ - s ≤ 119 := by
    simp only [DeltaOffset, DeltaNb] at hr
    omega
  have hge : (inc : Int) ≤ ((n : Int) + 1) * (inc : Int) := by nlinarith
  rcases hspec with h | h | ⟨hq, h1, h7, he⟩ | ⟨hkn, he⟩
  · exact absurd (by exact_mod_cast h) (ne_of_gt hpos)
  · exfalso
    have : (128 : Int) ≤ (inc : Int) := by exact_mod_cast h
    omega
  · right
    have hk : (to_ - s) / (inc : Int) = (n : Int) + 1 := by
      rw [hdelta]
      exact Int.mul_ediv_cancel _ (ne_of_gt hpos)
    rw [hk] at h7
    refine ⟨(inc : Int), hq, (n : Int) + 1, by omega, h7, hdelta, ?_⟩
    intro j hj1 hj2
    obtain ⟨i, rfl⟩ : ∃ i : Nat, j = (i : Int) + 1 := ⟨(j - 1).toNat, by omega⟩
    have := hn2 i (by omega)
    have e : s + ((i : Int) + 1) * (inc : Int) = s + (inc : Int) + (i : Int) * (inc : Int) := by
      ring
    rw [e]
    exact this
  · exact Or.inl hkn

/-- The scan of a list that holds one square and then the sentinel answers `false` when
the flag of the piece on that square is not in the mask. -/
theorem scan_single_skip (t : Tables) (fuel : Nat) (b : board_t) (to_ s A : Int) (m : Nat)
    (rest : List Int) (hs : s ≠ SquareNone) (hA : rd b.square s = .ok A)
    (hm : rd t.DeltaMask (DeltaOffset + (to_ - s)) = .ok m)
    (hp : PSEUDO_ATTACK A m = false) :
    scan t fuel b to_ (s :: SquareNone :: rest) = .ok false := by
  have hnext : scan t fuel b to_ (SquareNone :: rest) = .ok false := by
    simp [scan, pure, Except.pure]
  rw [scan]
  simp [hs, hA, hm, hp, hnext, bind, Except.bind]

/-- On a board with a single occupant every read yields that occupant or `Empty`. -/
theorem lone_read (b : board_t) (s N : Int)
    (hb : ∀ i : Fin SquareNb, b.square i = if (i.val : Int) = s then N else Empty)
    (i x : Int) (h : rd b.square i = .ok x) : x = N ∨ x = Empty := by
  obtain ⟨hr, hv⟩ := rd_ok_inv _ _ _ h
  have h2 := hb ⟨i.toNat, by omega⟩
  rw [hv] at h2
  by_cases hc : ((i.toNat : Nat) : Int) = s
  · exact Or.inl (by rw [h2, if_pos hc])
  · exact Or.inr (by rw [h2, if_neg hc])

theorem lone_read_self (b : board_t) (s N : Int) (hS : SQUARE_IS_OK s = true)
    (hb : ∀ i : Fin SquareNb, b.square i = if (i.val : Int) = s then N else Empty) :
    rd b.square s = .ok N := by
  have hr := SQUARE_IS_OK_index s hS
  rw [rd_of_range _ _ hr, hb]
  have : (((s.toNat : Nat) : Int)) = s := by omega
  simp [this]

/-- On a board whose single occupant is not the colour's pawn, `is_attacked` on a valid
square and colour is the piece scan. -/
theorem lone_is_attacked_eq_scan (t : Tables) (fuel : Nat) (b : board_t)
    (to_ colour s N : Int) (hc : COLOUR_IS_OK colour = true) (hT : SQUARE_IS_OK to_ = true)
    (hb : ∀ i : Fin SquareNb, b.square i = if (i.val : Int) = s then N else Empty)
    (hN : N ≠ PAWN_MAKE colour) (hE : Empty ≠ PAWN_MAKE colour) :
    is_attacked t fuel (some b) to_ colour = scan t fuel b to_ (b.piece colour) := by
  apply is_attacked_eq_scan t fuel b to_ colour hc hT
  · intro h
    rcases lone_read b s N hb _ _ h with e | e
    · exact hN e.symm
    · exact hE e.symm
  · intro h
    rcases lone_read b s N hb _ _ h with e | e
    · exact hN e.symm
    · exact hE e.symm

set_option maxRecDepth 100000 in
theorem geoInit_mask_ahead :
    rd geoInit.DeltaMask (DeltaOffset + 16) = .ok 192 ∧
    rd geoInit.DeltaMask (DeltaOffset + (-16)) = .ok 192 := by
  decide

set_option maxRecDepth 100000 in
theorem geoInit_mask_distance2 : ∀ i : Fin DeltaNb,
    max (deltaX ((i.val : Int) - DeltaOffset)).natAbs
        (deltaY ((i.val : Int) - DeltaOffset)).natAbs = 2 →
      PSEUDO_ATTACK WK (geoInit.DeltaMask i) = false ∧
      PSEUDO_ATTACK BK (geoInit.DeltaMask i) = false := by
  decide

theorem distance_delta (a b : Int) (ha : SQUARE_IS_OK a = true) (hb : SQUARE_IS_OK b = true) :
    DISTANCE a b = ((max (deltaX (b - a)).natAbs (deltaY (b - a)).natAbs : Nat) : Int) := by
  simp only [SQUARE_IS_OK, decide_eq_true_eq] at ha hb
  have ex : deltaX (b - a) = b % 16 - a % 16 := by unfold deltaX; omega
  have ey : deltaY (b - a) = b / 16 - a / 16 := by unfold deltaY; omega
  rw [ex, ey]
  unfold DISTANCE
  omega

/-- C4: after `attack_init`, whenever `is_attacked` returns `true`, one of the two
pawn-check squares holds the colour's pawn, or some square `s` of the colour's piece
list (before the sentinel) holds a piece whose flag is in the mask of `to_ - s` and
`to_ - s` is a knight leap or `k` steps of a king direction with every square strictly
between on the board and empty. In particular a lone knight does not attack the square
straight ahead of it, and a lone king does not attack a square at distance 2. -/
theorem C4_no_false_positives (t0 t : Tables) (hinit : attack_init t0 = .ok t) :
    (∀ (fuel : Nat) (b : board_t) (to_ colour : Int),
      is_attacked t fuel (some b) to_ colour = .ok true →
      rd b.square (to_ - (PAWN_MOVE_INC colour - 1)) = .ok (PAWN_MAKE colour) ∨
      rd b.square (to_ - (PAWN_MOVE_INC colour + 1)) = .ok (PAWN_MAKE colour) ∨
      ∃ s ∈ (b.piece colour).takeWhile (fun x => decide (x ≠ SquareNone)),
        ∃ (piece : Int) (mask : Nat),
          rd b.square s = .ok piece ∧
          rd t.DeltaMask (DeltaOffset + (to_ - s)) = .ok mask ∧
          PSEUDO_ATTACK piece mask = true ∧
          (to_ - s ∈ KnightInc.dropLast ∨
            ∃ d ∈ KingInc.dropLast, ∃ k : Int, 1 ≤ k ∧ k ≤ 7 ∧ to_ - s = k * d ∧
              ∀ j : Int, 1 ≤ j → j < k →
                SQUARE_IS_OK (s + j * d) = true ∧ rd b.square (s + j * d) = .ok Empty)) ∧
    (∀ (fuel : Nat) (b : board_t) (colour s : Int) (rest : List Int),
      COLOUR_IS_OK colour = true → SQUARE_IS_OK s = true →
      SQUARE_IS_OK (s + PAWN_MOVE_INC colour) = true →
      (∀ i : Fin SquareNb, b.square i
        = if (i.val : Int) = s then (if colour = White then WN else BN) else Empty) →
      b.piece colour = s :: SquareNone :: rest →
      is_attacked t fuel (some b) (s + PAWN_MOVE_INC colour) colour = .ok false) ∧
    (∀ (fuel : Nat) (b : board_t) (colour s to_ : Int) (rest : List Int),
      COLOUR_IS_OK colour = true → SQUARE_IS_OK s = true → SQUARE_IS_OK to_ = true →
      DISTANCE s to_ = 2 →
      (∀ i : Fin SquareNb, b.square i
        = if (i.val : Int) = s then (if colour = White then WK else BK) else Empty) →
      b.piece colour = s :: SquareNone :: rest →
      is_attacked t fuel (some b) to_ colour = .ok false) := by
  have ht := tables_after_init t0 t hinit
  subst ht
  refine ⟨?_, ?_, ?_⟩
  · intro fuel b to_ colour h
    by_cases hg : (!SQUARE_IS_OK to_ || !COLOUR_IS_OK colour) = true
    · simp [is_attacked, hg, pure, Except.pure] at h
    · have hT : SQUARE_IS_OK to_ = true := by
        cases hh : SQUARE_IS_OK to_ <;> simp [hh] at hg ⊢
      have hc : COLOUR_IS_OK colour = true := by
        cases hh : COLOUR_IS_OK colour <;> simp [hh] at hg ⊢
      by_cases hp1 : rd b.square (to_ - (PAWN_MOVE_INC colour - 1)) = .ok (PAWN_MAKE colour)
      · exact Or.inl hp1
      · by_cases hp2 : rd b.square (to_ - (PAWN_MOVE_INC colour + 1)) = .ok (PAWN_MAKE colour)
        · exact Or.inr (Or.inl hp2)
        · right; right
          rw [is_attacked_eq_scan _ fuel b to_ colour hc hT hp1 hp2] at h
          obtain ⟨s, hs, piece, mask, inc, hA, hm, hp, hi, h0, hw⟩ := scan_true _ fuel b to_ _ h
          exact ⟨s, hs, piece, mask, hA, hm, hp, walk_true_line b to_ s inc fuel hi h0 hw⟩
  · intro fuel b colour s rest hc hS hT hb hlist
    have hcol : colour = White ∨ colour = Black := by
      simpa [COLOUR_IS_OK] using hc
    have hsr := SQUARE_IS_OK_range s hS
    rw [lone_is_attacked_eq_scan _ fuel b _ colour s _ hc hT hb
      (by rcases hcol with rfl | rfl <;> decide) (by rcases hcol with rfl | rfl <;> decide), hlist]
    have e : s + PAWN_MOVE_INC colour - s = PAWN_MOVE_INC colour := by ring
    rcases hcol with rfl | rfl
    · refine scan_single_skip _ fuel b _ s _ 192 rest (by simp only [SquareNone]; omega)
        (lone_read_self b s _ hS hb) ?_ (by decide)
      rw [e]
      exact geoInit_mask_ahead.1
    · refine scan_single_skip _ fuel b _ s _ 192 rest (by simp only [SquareNone]; omega)
        (lone_read_self b s _ hS hb) ?_ (by decide)
      rw [e]
      exact geoInit_mask_ahead.2
  · intro fuel b colour s to_ rest hc hS hT hdist hb hlist
    have hcol : colour = White ∨ colour = Black := by
      simpa [COLOUR_IS_OK] using hc
    have hsr := SQUARE_IS_OK_range s hS
    have htr := SQUARE_IS_OK_range to_ hT
    rw [lone_is_attacked_eq_scan _ fuel b _ colour s _ hc hT hb
      (by rcases hcol with rfl | rfl <;> decide) (by rcases hcol with rfl | rfl <;> decide), hlist]
    have hr : 0 ≤ DeltaOffset + (to_ - s) ∧ DeltaOffset + (to_ - s) < (DeltaNb : Nat) := by
      simp only [DeltaOffset, DeltaNb]
      omega
    have hidx : (((DeltaOffset + (to_ - s)).toNat : Nat) : Int) - DeltaOffset = to_ - s := by
      simp only [DeltaOffset] at hr ⊢
      omega
    have hspec := geoInit_mask_distance2 ⟨(DeltaOffset + (to_ - s)).toNat, by omega⟩
    simp only [hidx] at hspec
    have hd2 : max (deltaX (to_ - s)).natAbs (deltaY (to_ - s)).natAbs = 2 := by
      have := distance_delta s to_ hS hT
      rw [hdist] at this
      exact_mod_cast this.symm
    obtain ⟨hw, hbk⟩ := hspec hd2
    rcases hcol with rfl | rfl
    · exact scan_single_skip _ fuel b _ s _ _ rest (by simp only [SquareNone]; omega)
        (lone_read_self b s _ hS hb) (rd_of_range _ _ hr) hw
    · exact scan_single_skip _ fuel b _ s _ _ rest (by simp only [SquareNone]; omega)
        (lone_read_self b s _ hS hb) (rd_of_range _ _ hr) hbk

set_option maxRecDepth 100000 in
theorem geoInit_mask_pawn : ∀ i : Fin DeltaNb,
    (PSEUDO_ATTACK WP (geoInit.DeltaMask i) = true → i.val = 134 ∨ i.val = 136) ∧
    (PSEUDO_ATTACK BP (geoInit.DeltaMask i) = true → i.val = 102 ∨ i.val = 104) := by
  decide

/-- C5: after `attack_init`, on a board whose only pawn of colour `colour` stands on the
on-board square `s`, with a piece list of that colour that holds no other square,
`is_attacked` is `true` for exactly the on-board targets `s + inc - 1` and `s + inc + 1`,
`inc = PAWN_MOVE_INC(colour)`, and `false` for every other on-board target. -/
theorem C5_pawn_symmetry (t0 t : Tables) (hinit : attack_init t0 = .ok t) (fuel : Nat)
    (b : board_t) (colour s to_ : Int) (rest : List Int)
    (hc : COLOUR_IS_OK colour = true) (hS : SQUARE_IS_OK s = true)
    (hT : SQUARE_IS_OK to_ = true)
    (hs : rd b.square s = .ok (PAWN_MAKE colour))
    (hb : ∀ i : Fin SquareNb, (i.val : Int) ≠ s → b.square i ≠ PAWN_MAKE colour)
    (hlist : b.piece colour = SquareNone :: rest ∨ b.piece colour = s :: SquareNone :: rest) :
    is_attacked t fuel (some b) to_ colour
      = .ok (decide (to_ = s + PAWN_MOVE_INC colour - 1 ∨ to_ = s + PAWN_MOVE_INC colour + 1)) := by
  have ht := tables_after_init t0 t hinit
  subst ht
  have hsr := SQUARE_IS_OK_range s hS
  have htr := SQUARE_IS_OK_range to_ hT
  have hcol : colour = White ∨ colour = Black := by
    simpa [COLOUR_IS_OK] using hc
  -- a read yields the pawn exactly on `s`
  have hread : ∀ i : Int, i ≠ s → rd b.square i ≠ .ok (PAWN_MAKE colour) := by
    intro i hi h
    obtain ⟨hr, hv⟩ := rd_ok_inv _ _ _ h
    exact hb ⟨i.toNat, by omega⟩ (by simp only []; omega) hv
  by_cases h1 : to_ = s + PAWN_MOVE_INC colour - 1
  · have e : to_ - (PAWN_MOVE_INC colour - 1) = s := by rw [h1]; ring
    have hd : decide (to_ = s + PAWN_MOVE_INC colour - 1 ∨ to_ = s + PAWN_MOVE_INC colour + 1)
        = true := by simp [h1]
    rw [hd]
    unfold is_attacked
    simp [hc, hT, e, hs, bind, Except.bind, pure, Except.pure]
  · have hp1 : rd b.square (to_ - (PAWN_MOVE_INC colour - 1)) ≠ .ok (PAWN_MAKE colour) :=
      hread _ (by omega)
    by_cases h2 : to_ = s + PAWN_MOVE_INC colour + 1
    · have e : to_ - (PAWN_MOVE_INC colour + 1) = s := by rw [h2]; ring
      have hd : decide (to_ = s + PAWN_MOVE_INC colour - 1 ∨ to_ = s + PAWN_MOVE_INC colour + 1)
          = true := by simp [h2]
      rw [hd]
      obtain ⟨⟨x1, hx1⟩, _⟩ := pawn_reads b to_ colour hT
      have n1 : x1 ≠ PAWN_MAKE colour := fun h => hp1 (h ▸ hx1)
      unfold is_attacked
      simp [hc, hT, e, hs, hx1, n1, bind, Except.bind, pure, Except.pure]
    · have hp2 : rd b.square (to_ - (PAWN_MOVE_INC colour + 1)) ≠ .ok (PAWN_MAKE colour) :=
        hread _ (by omega)
      have hd : decide (to_ = s + PAWN_MOVE_INC colour - 1 ∨ to_ = s + PAWN_MOVE_INC colour + 1)
          = false := by simp [h1, h2]
      rw [hd, is_attacked_eq_scan _ fuel b to_ colour hc hT hp1 hp2]
      rcases hlist with hl | hl
      · rw [hl]
        simp [scan, pure, Except.pure]
      · rw [hl]
        have hr : 0 ≤ DeltaOffset + (to_ - s) ∧ DeltaOffset + (to_ - s) < (DeltaNb : Nat) := by
          simp only [DeltaOffset, DeltaNb]
          omega
        refine scan_single_skip _ fuel b to_ s _ _ rest (by simp only [SquareNone]; omega) hs
          (rd_of_range _ _ hr) ?_
        have hspec := geoInit_mask_pawn ⟨(DeltaOffset + (to_ - s)).toNat, by omega⟩
        cases hp : PSEUDO_ATTACK (PAWN_MAKE colour)
            (initTables.DeltaMask ⟨(DeltaOffset + (to_ - s)).toNat, by omega⟩) with
        | false => rfl
        | true =>
          exfalso
          simp only [DeltaOffset] at hr
          rcases hcol with rfl | rfl
          · have := hspec.1 hp
            simp only [DeltaOffset] at this
            simp only [PAWN_MOVE_INC, if_true] at h1 h2
            omega
          · have := hspec.2 hp
            simp only [DeltaOffset] at this
            have hB : PAWN_MOVE_INC Black = -16 := by decide
            rw [hB] at h1 h2
            omega

/-! ## The claims about the query -/

set_option maxRecDepth 100000 in
/-- C1 fails on the code: a white rook on a8 with file a empty below it is aligned with
a1 along its direction -16, seven steps away, and `is_attacked` returns `false`. The
increment -16 is kept as 240 in the `uint8_t` table, so the walk starts at 180 + 240,
off the board. -/
theorem C1_downward_ray_not_seen (t0 : Tables) (fuel : Nat) :
    ∃ t, attack_init t0 = .ok t ∧
      rd boardRookA8.square 180 = .ok WR ∧
      (WR, RookInc.dropLast) ∈ sliders White ∧ (-16 : Int) ∈ RookInc.dropLast ∧
      (68 : Int) = 180 + 7 * (-16) ∧
      (∀ j ∈ ([1, 2, 3, 4, 5, 6] : List Int),
        rd boardRookA8.square (180 + j * (-16)) = .ok Empty) ∧
      rd t.DeltaIncAll (DeltaOffset + (68 - 180)) = .ok 240 ∧
      is_attacked t (fuel + 1) (some boardRookA8) 68 White = .ok false := by
  refine ⟨initTables, attack_init_eq t0, by decide, by decide, by decide, by decide, by decide,
    by decide, ?_⟩
  rw [is_attacked_eq_scan _ _ boardRookA8 68 White (by decide) (by decide) (by decide)
    (by decide)]
  exact scan_single_false _ _ boardRookA8 68 180 [] (by decide) ⟨WR, by decide⟩
    ⟨_, rd_of_range _ _ (by decide)⟩
    ⟨240, by decide, fun _ => walk_off boardRookA8 68 _ fuel _ (by decide)⟩

set_option maxRecDepth 100000 in
/-- C2, at scenario B: white rook a1, white pawn a4, target a8. -/
theorem C2_blocked_slider_not_attacking_witness :
    is_attacked initTables 256 (some boardRookPawn) 180 White = .ok false :=
  C2_blocked_slider_not_attacking zeroTables initTables (attack_init_eq zeroTables) 256
    (by decide) boardRookPawn White 180 68 WR 16 7 3 RookInc.dropLast [] (by decide)
    (by decide) (by decide) (by decide) (by decide) (by decide) (by decide) (by decide)
    (by decide) (by decide) ⟨WP, by decide, by decide⟩ (by decide) (by decide)

set_option maxRecDepth 100000 in
/-- C3 fails on the code: a black knight on g5 has its flag in the mask of the leap -18
to e4, a white king on f2 has its flag in the mask of the step -17 to e1, and
`is_attacked` returns `false` for both. The increments are kept as 238 and 239 in the
`uint8_t` table, so the walk starts off the board. -/
theorem C3_downward_leap_not_seen (t0 : Tables) (fuel : Nat) :
    ∃ t, attack_init t0 = .ok t ∧
      (rd boardKnightG5.square 138 = .ok BN ∧
        rd t.DeltaMask (DeltaOffset + (120 - 138)) = .ok 16 ∧
        PSEUDO_ATTACK BN 16 = true ∧
        is_attacked t (fuel + 1) (some boardKnightG5) 120 Black = .ok false) ∧
      (rd boardKingF2.square 89 = .ok WK ∧
        rd t.DeltaMask (DeltaOffset + (72 - 89)) = .ok 168 ∧
        PSEUDO_ATTACK WK 168 = true ∧
        is_attacked t (fuel + 1) (some boardKingF2) 72 White = .ok false) := by
  refine ⟨initTables, attack_init_eq t0, ⟨by decide, by decide, by decide, ?_⟩,
    ⟨by decide, by decide, by decide, ?_⟩⟩
  · rw [is_attacked_eq_scan _ _ boardKnightG5 120 Black (by decide) (by decide) (by decide)
      (by decide)]
    exact scan_single_false _ _ boardKnightG5 120 138 [] (by decide) ⟨BN, by decide⟩
      ⟨_, rd_of_range _ _ (by decide)⟩
      ⟨238, by decide, fun _ => walk_off boardKnightG5 120 _ fuel _ (by decide)⟩
  · rw [is_attacked_eq_scan _ _ boardKingF2 72 White (by decide) (by decide) (by decide)
      (by decide)]
    exact scan_single_false _ _ boardKingF2 72 89 [] (by decide) ⟨WK, by decide⟩
      ⟨_, rd_of_range _ _ (by decide)⟩
      ⟨239, by decide, fun _ => walk_off boardKingF2 72 _ fuel _ (by decide)⟩

set_option maxRecDepth 100000 in
/-- C4, at scenario A: the rook on a1 attacks a8 along direction 16, seven steps. -/
theorem C4_no_false_positives_witness :
    is_attacked initTables 256 (some boardRookA1) 180 White = .ok true ∧
    (rd boardRookA1.square (180 - (PAWN_MOVE_INC White - 1)) = .ok (PAWN_MAKE White) ∨
      rd boardRookA1.square (180 - (PAWN_MOVE_INC White + 1)) = .ok (PAWN_MAKE White) ∨
      ∃ s ∈ (boardRookA1.piece White).takeWhile (fun x => decide (x ≠ SquareNone)),
        ∃ (piece : Int) (mask : Nat),
          rd boardRookA1.square s = .ok piece ∧
          rd initTables.DeltaMask (DeltaOffset + (180 - s)) = .ok mask ∧
          PSEUDO_ATTACK piece mask = true ∧
          (180 - s ∈ KnightInc.dropLast ∨
            ∃ d ∈ KingInc.dropLast, ∃ k : Int, 1 ≤ k ∧ k ≤ 7 ∧ 180 - s = k * d ∧
              ∀ j : Int, 1 ≤ j → j < k →
                SQUARE_IS_OK (s + j * d) = true ∧
                rd boardRookA1.square (s + j * d) = .ok Empty)) :=
  have h : is_attacked initTables 256 (some boardRookA1) 180 White = .ok true := by decide
  ⟨h, (C4_no_false_positives zeroTables initTables (attack_init_eq zeroTables)).1 256
    boardRookA1 180 White h⟩

set_option maxRecDepth 100000 in
/-- C5, at an instance: the white pawn on e4 attacks d5. -/
theorem C5_pawn_symmetry_witness :
    is_attacked initTables 0 (some boardPawnE4) 135 White = .ok true :=
  C5_pawn_symmetry zeroTables initTables (attack_init_eq zeroTables) 0 boardPawnE4 White 120
    135 [] (by decide) (by decide) (by decide) (by decide)
    (fun i hi => by
      have : i.val ≠ 120 := fun h => hi (by rw [h]; rfl)
      simp [boardPawnE4, this]
      decide)
    (Or.inl (by decide))

set_option maxRecDepth 100000 in
/-- C8 fails on the code: for delta -16 both ray tables give back 240, the increment -16
kept in a `uint8_t` cell, and no step count `k` in 1..7 satisfies `k * 240 = -16`. -/
theorem C8_negative_increment_wraps (t0 : Tables) :
    ∃ t, attack_init t0 = .ok t ∧
      rd t.DeltaIncAll (DeltaOffset + (-16)) = .ok 240 ∧
      rd t.DeltaIncLine (DeltaOffset + (-16)) = .ok 240 ∧
      (240 : Int) ≠ IncNone ∧
      ¬ ∃ k : Int, 1 ≤ k ∧ k ≤ 7 ∧ k * 240 = -16 := by
  refine ⟨initTables, attack_init_eq t0, by decide, by decide, by decide, ?_⟩
  rintro ⟨k, h1, h2, h3⟩
  omega

/-! ## The bound check and the insertion of `add_attack` -/

/-- What `add_attack` does on a key inside the table, case by case on the size of the
key: full, one entry, empty, negative. -/
theorem add_attack_at (k : KingTables) (piece king target : Int)
    (c : Fin MAX_PIECES) (d : Fin MAX_DELTAS)
    (hc : (c.val : Int) = piece) (hd : (d.val : Int) = DeltaOffset + king)
    (ht : DeltaOffset + target < 256) :
    add_attack k piece king target =
      if 2 ≤ k.PieceDeltaSize c d then .ok k
      else if k.PieceDeltaSize c d = 1 then
        (if k.PieceDeltaDelta c d ⟨0, by decide⟩ = target then .ok k
         else .ok (inserted k c d ⟨1, by decide⟩ target))
      else if k.PieceDeltaSize c d = 0 then .ok (inserted k c d ⟨0, by decide⟩ target)
      else .error .outOfBounds := by
  unfold add_attack
  have e1 : ((MAX_PIECES : Nat) : Int) = 4 := rfl
  have e2 : ((MAX_DELTAS : Nat) : Int) = 256 := rfl
  have e3 : ((MAX_ATTACKS_PER_DELTA : Nat) : Int) = 2 := rfl
  have hcl : c.val < 4 := c.isLt
  have hdl : d.val < 256 := d.isLt
  have hg : ¬ (piece ≥ (MAX_PIECES : Nat) ∨ piece < 0 ∨ DeltaOffset + king ≥ (MAX_DELTAS : Nat) ∨
      DeltaOffset + target ≥ (MAX_DELTAS : Nat)) := by
    rw [e1, e2]; omega
  rw [if_neg hg]
  have hp : 0 ≤ piece ∧ piece < (MAX_PIECES : Nat) := by rw [e1]; omega
  have hdr : 0 ≤ DeltaOffset + king ∧ DeltaOffset + king < (MAX_DELTAS : Nat) := by
    rw [e2]; omega
  have hc' : (⟨piece.toNat, by omega⟩ : Fin MAX_PIECES) = c := by
    apply Fin.ext; simp only []; omega
  have hd' : (⟨(DeltaOffset + king).toNat, by omega⟩ : Fin MAX_DELTAS) = d := by
    apply Fin.ext; simp only []; omega
  simp only [rd2, wr2, rd_of_range _ piece hp, rd_of_range _ (DeltaOffset + king) hdr, bind_ok,
    wr_of_range _ piece hp, wr_of_range _ (DeltaOffset + king) hdr, hc', hd', e3]
  by_cases h2 : 2 ≤ k.PieceDeltaSize c d
  · have h2' : k.PieceDeltaSize c d ≥ 2 := h2
    simp only [h2, h2', if_true]
    rfl
  · have h2' : ¬ k.PieceDeltaSize c d ≥ 2 := h2
    simp only [h2, h2', if_false]
    by_cases h1 : k.PieceDeltaSize c d = 1
    · have hl : List.range (1 : Int).toNat = [0] := by decide
      have hw : (0 : Int) ≤ 1 ∧ (1 : Int) < (MAX_ATTACKS_PER_DELTA : Nat) := by
        rw [e3]; omega
      simp only [h1, if_true, hl, present, rd_nat _ 0 (by decide : 0 < MAX_ATTACKS_PER_DELTA),
        bind_ok]
      by_cases ht0 : k.PieceDeltaDelta c d ⟨0, by decide⟩ = target
      · simp only [ht0, if_true, pure, Except.pure, bind, Except.bind]
      · simp only [ht0, if_false, pure, Except.pure, bind, Except.bind, wr_of_range _ 1 hw]
        rfl
    · simp only [h1, if_false]
      by_cases h0 : k.PieceDeltaSize c d = 0
      · have hw : (0 : Int) ≤ 0 ∧ (0 : Int) < (MAX_ATTACKS_PER_DELTA : Nat) := by
          rw [e3]; omega
        simp only [h0, if_true, Int.toNat_zero, List.range_zero, present, bind_ok,
          wr_of_range _ 0 hw]
        rfl
      · simp only [h0, if_false]
        have hneg : k.PieceDeltaSize c d < 0 := by omega
        have hz : (k.PieceDeltaSize c d).toNat = 0 := by omega
        have hw : ¬ (0 ≤ k.PieceDeltaSize c d ∧
            k.PieceDeltaSize c d < (MAX_ATTACKS_PER_DELTA : Nat)) := by omega
        simp only [hz, List.range_zero, present, bind_ok, wr, hw, dite_false]
        rfl

theorem inserted_size (k : KingTables) (c c' : Fin MAX_PIECES) (d d' : Fin MAX_DELTAS)
    (sz : Fin MAX_ATTACKS_PER_DELTA) (target : Int) :
    (inserted k c d sz target).PieceDeltaSize c' d'
      = if c' = c ∧ d' = d then toI8 ((sz.val : Int) + 1) else k.PieceDeltaSize c' d' := by
  simp only [inserted, upd_apply]
  by_cases h1 : c' = c
  · subst h1
    by_cases h2 : d' = d <;> simp [upd_apply, h2]
  · simp [h1]

theorem inserted_slot (k : KingTables) (c c' : Fin MAX_PIECES) (d d' : Fin MAX_DELTAS)
    (sz i : Fin MAX_ATTACKS_PER_DELTA) (target : Int) :
    (inserted k c d sz target).PieceDeltaDelta c' d' i
      = if c' = c ∧ d' = d ∧ i = sz then toI8 target else k.PieceDeltaDelta c' d' i := by
  simp only [inserted, upd_apply]
  by_cases h1 : c' = c
  · subst h1
    by_cases h2 : d' = d
    · subst h2
      by_cases h3 : i = sz <;> simp [upd_apply, h3]
    · simp [upd_apply, h2]
  · simp [h1]

/-- C17, as stated, fails: on the in-range key `(0, 0)` with target 130 (biased index
249) and size 0 the call stores -126, the value the `int8_t` slot keeps, not 130; and
with a size of -1, smaller than 2, the call writes outside the slots. -/
theorem C17_stored_value_counterexample :
    (DeltaOffset + 130 < 256 ∧ kingCleared.PieceDeltaSize 0 ⟨119, by decide⟩ = 0 ∧
      ∃ k', add_attack kingCleared 0 0 130 = .ok k' ∧
        k'.PieceDeltaDelta 0 ⟨119, by decide⟩ 0 = -126) ∧
    (negativeSizeState.PieceDeltaSize 0 ⟨119, by decide⟩ = -1 ∧
      add_attack negativeSizeState 0 0 5 = .error .outOfBounds) := by
  refine ⟨⟨by decide, rfl,
    inserted kingCleared 0 ⟨119, by decide⟩ ⟨0, by decide⟩ 130, rfl, ?_⟩, rfl, rfl⟩
  rw [inserted_slot]; decide

/-- C17, amended: on an in-range key whose size `s` is 0 or 1, a target of at most 127
that is not among the first `s` entries is stored in slot `s`, the size becomes `s + 1`,
and every other slot of the key and every other key is kept; if the size is 2 or the
target is among the first entries, nothing changes. -/
theorem C17_insertion_semantics (k : KingTables) (piece king target : Int)
    (c : Fin MAX_PIECES) (d : Fin MAX_DELTAS)
    (hc : (c.val : Int) = piece) (hd : (d.val : Int) = DeltaOffset + king)
    (ht : 0 ≤ DeltaOffset + target ∧ DeltaOffset + target < 256) (ht8 : target ≤ 127) :
    (∀ s : Fin MAX_ATTACKS_PER_DELTA, k.PieceDeltaSize c d = (s.val : Int) →
      (∀ i : Fin MAX_ATTACKS_PER_DELTA, i.val < s.val → k.PieceDeltaDelta c d i ≠ target) →
      ∃ k', add_attack k piece king target = .ok k' ∧
        k'.PieceDeltaDelta c d s = target ∧
        k'.PieceDeltaSize c d = (s.val : Int) + 1 ∧
        (∀ i, i ≠ s → k'.PieceDeltaDelta c d i = k.PieceDeltaDelta c d i) ∧
        (∀ c' d', ¬ (c' = c ∧ d' = d) →
          k'.PieceDeltaSize c' d' = k.PieceDeltaSize c' d' ∧
          ∀ i, k'.PieceDeltaDelta c' d' i = k.PieceDeltaDelta c' d' i)) ∧
    ((k.PieceDeltaSize c d = 2 ∨
        ∃ i : Fin MAX_ATTACKS_PER_DELTA, (i.val : Int) < k.PieceDeltaSize c d ∧
          k.PieceDeltaDelta c d i = target) →
      add_attack k piece king target = .ok k) := by
  have hat := add_attack_at k piece king target c d hc hd ht.2
  have e8 : toI8 target = target := toI8_id _ (by simp only [DeltaOffset] at ht; omega)
  constructor
  · intro s hs hnew
    have hs2 : s.val < 2 := s.isLt
    have es : toI8 ((s.val : Int) + 1) = (s.val : Int) + 1 := toI8_id _ (by omega)
    have hres : add_attack k piece king target = .ok (inserted k c d s target) := by
      rw [hat]
      by_cases h0 : s.val = 0
      · have : s = ⟨0, by decide⟩ := Fin.ext h0
        subst this
        have hz : k.PieceDeltaSize c d = 0 := by rw [hs]; rfl
        rw [if_neg (by omega), if_neg (by omega), if_pos hz]
      · have : s = ⟨1, by decide⟩ := Fin.ext (by show s.val = 1; omega)
        subst this
        have hz : k.PieceDeltaSize c d = 1 := by rw [hs]; rfl
        have h00 := hnew ⟨0, by decide⟩ (by decide)
        rw [if_neg (by omega), if_pos hz, if_neg h00]
    refine ⟨_, hres, ?_, ?_, ?_, ?_⟩
    · rw [inserted_slot]; simp [e8]
    · rw [inserted_size]; simp [es]
    · intro i hi
      rw [inserted_slot]; simp [hi]
    · intro c' d' hne
      constructor
      · rw [inserted_size, if_neg hne]
      · intro i
        rw [inserted_slot, if_neg (fun h => hne ⟨h.1, h.2.1⟩)]
  · intro h
    rw [hat]
    rcases h with h | ⟨i, hi1, hi2⟩
    · rw [if_pos (by omega)]
    · by_cases h2 : 2 ≤ k.PieceDeltaSize c d
      · rw [if_pos h2]
      · have hi : i.val < 2 := i.isLt
        have h1 : k.PieceDeltaSize c d = 1 := by omega
        have hi0 : i = ⟨0, by decide⟩ := Fin.ext (by show i.val = 0; omega)
        subst hi0
        rw [if_neg h2, if_pos h1, if_pos hi2]

/-- C17, amended, at an instance: the first insertion into the cleared tables. -/
theorem C17_insertion_semantics_witness :
    ∃ k', add_attack kingCleared 0 0 33 = .ok k' ∧
      k'.PieceDeltaDelta 0 ⟨119, by decide⟩ 0 = 33 ∧
      k'.PieceDeltaSize 0 ⟨119, by decide⟩ = 1 := by
  obtain ⟨k', h1, h2, h3, _⟩ :=
    (C17_insertion_semantics kingCleared 0 0 33 0 ⟨119, by decide⟩ (by decide) (by decide)
      (by decide) (by decide)).1 0 rfl (fun i hi => absurd hi (by simp))
  exact ⟨k', h1, h2, h3⟩

/-! ## The key sets of the ray tables and the range of the geometry tables -/

theorem isLineDelta_iff (delta : Int) :
    IsLineDelta delta ↔
      ∃ d ∈ QueenInc.dropLast, ∃ k : Int, 1 ≤ k ∧ k ≤ 7 ∧ delta = k * d := by
  unfold IsLineDelta
  constructor
  · rintro ⟨d, hd, k, hk, h⟩
    refine ⟨d, hd, k, ?_, ?_, h⟩ <;>
    · simp only [List.mem_cons, List.mem_singleton, List.not_mem_nil, or_false] at hk
      omega
  · rintro ⟨d, hd, k, h1, h7, h⟩
    refine ⟨d, hd, k, ?_, h⟩
    simp only [List.mem_cons, List.mem_singleton, List.not_mem_nil, or_false]
    omega

set_option maxRecDepth 100000 in
theorem geoInit_inc_spec : ∀ i : Fin DeltaNb,
    (geoInit.DeltaIncLine i ≠ 0 ↔ IsLineDelta ((i.val : Int) - DeltaOffset)) ∧
    (geoInit.DeltaIncAll i ≠ 0 ↔
      IsLineDelta ((i.val : Int) - DeltaOffset) ∨
        (i.val : Int) - DeltaOffset ∈ KnightInc.dropLast) ∧
    (IsLineDelta ((i.val : Int) - DeltaOffset) →
      geoInit.DeltaIncAll i = geoInit.DeltaIncLine i) ∧
    (delta_is_ok ((i.val : Int) - DeltaOffset) = false →
      geoInit.DeltaIncLine i = 0 ∧ geoInit.DeltaIncAll i = 0) := by
  decide

/-- A loop keeps `P` whenever it returns, if its body does. -/
theorem foldlM_inv {α σ : Type} (P : σ → Prop) (body : σ → α → Except Fault σ)
    (xs : List α) (h : ∀ x ∈ xs, ∀ s s', P s → body s x = .ok s' → P s') :
    ∀ s s', P s → xs.foldlM body s = .ok s' → P s' := by
  induction xs with
  | nil =>
    intro s s' hs he
    cases he
    exact hs
  | cons x xs ih =>
    intro s s' hs he
    rw [List.foldlM_cons] at he
    cases hb : body s x with
    | error e => rw [hb] at he; cases he
    | ok s1 =>
      rw [hb, bind_ok] at he
      exact ih (fun y hy => h y (List.mem_cons_of_mem _ hy)) s1 s'
        (h x (List.mem_cons_self _ _) s s1 hs hb) he

/-- The statement `DeltaMask[i] |= flag` writes no ray entry. -/
theorem orMask_frame (g g' : GeoTables) (i : Int) (flag : Nat) (h : orMask g i flag = .ok g') :
    g'.DeltaIncLine = g.DeltaIncLine ∧ g'.DeltaIncAll = g.DeltaIncAll := by
  unfold orMask at h
  cases h1 : rd g.DeltaMask i with
  | error e => rw [h1] at h; cases h
  | ok m =>
    rw [h1, bind_ok] at h
    cases h2 : wr g.DeltaMask i ((m ||| flag) % 256) with
    | error e => rw [h2] at h; cases h
    | ok a =>
      rw [h2, bind_ok] at h
      cases h
      exact ⟨rfl, rfl⟩

theorem initPawn_frame (g g' : GeoTables) (h : initPawn g = .ok g') :
    g'.DeltaIncLine = g.DeltaIncLine ∧ g'.DeltaIncAll = g.DeltaIncAll := by
  unfold initPawn at h
  cases h1 : orMask g (DeltaOffset - 17) BlackPawnFlag with
  | error e => rw [h1] at h; cases h
  | ok g1 =>
    rw [h1, bind_ok] at h
    cases h2 : orMask g1 (DeltaOffset - 15) BlackPawnFlag with
    | error e => rw [h2] at h; cases h
    | ok g2 =>
      rw [h2, bind_ok] at h
      cases h3 : orMask g2 (DeltaOffset + 15) WhitePawnFlag with
      | error e => rw [h3] at h; cases h
      | ok g3 =>
        rw [h3, bind_ok] at h
        have f1 := orMask_frame _ _ _ _ h1
        have f2 := orMask_frame _ _ _ _ h2
        have f3 := orMask_frame _ _ _ _ h3
        have f4 := orMask_frame _ _ _ _ h
        exact ⟨by rw [f4.1, f3.1, f2.1, f1.1], by rw [f4.2, f3.2, f2.2, f1.2]⟩

theorem initKing_frame (g g' : GeoTables) (h : initKing g = .ok g') :
    g'.DeltaIncLine = g.DeltaIncLine ∧ g'.DeltaIncAll = g.DeltaIncAll := by
  unfold initKing at h
  refine foldlM_inv
    (fun s => s.DeltaIncLine = g.DeltaIncLine ∧ s.DeltaIncAll = g.DeltaIncAll) _ _ ?_ g g'
    ⟨rfl, rfl⟩ h
  intro dir _ s s' hs hb
  cases h1 : rdL KingInc dir with
  | error e => simp only [h1] at hb; cases hb
  | ok delta =>
    simp only [h1, bind_ok] at hb
    by_cases hd : delta_is_ok delta = true
    · simp only [hd, if_true] at hb
      have f := orMask_frame _ _ _ _ hb
      exact ⟨f.1.trans hs.1, f.2.trans hs.2⟩
    · simp only [hd, if_false] at hb
      cases hb
      exact hs

/-- C14: after `attack_init`, at every index of the ray tables, `DeltaIncLine` differs
from `IncNone` iff the delta is `k` steps, `k` in 1..7, of one of the 8 queen directions;
`DeltaIncAll` differs from `IncNone` iff the delta is such a line delta or one of the 8
knight leaps; on every line delta the two tables agree; the pawn step and the king step
of the builder leave both ray tables as they find them. -/
theorem C14_ray_table_keys (t0 : Tables) :
    ∃ t, attack_init t0 = .ok t ∧
    (∀ i : Fin DeltaNb,
      ((t.DeltaIncLine i : Int) ≠ IncNone ↔
        ∃ d ∈ QueenInc.dropLast, ∃ k : Int, 1 ≤ k ∧ k ≤ 7 ∧
          (i.val : Int) - DeltaOffset = k * d) ∧
      ((t.DeltaIncAll i : Int) ≠ IncNone ↔
        (∃ d ∈ QueenInc.dropLast, ∃ k : Int, 1 ≤ k ∧ k ≤ 7 ∧
          (i.val : Int) - DeltaOffset = k * d) ∨
        (i.val : Int) - DeltaOffset ∈ KnightInc.dropLast) ∧
      ((∃ d ∈ QueenInc.dropLast, ∃ k : Int, 1 ≤ k ∧ k ≤ 7 ∧
          (i.val : Int) - DeltaOffset = k * d) →
        t.DeltaIncAll i = t.DeltaIncLine i)) ∧
    (∀ g g' : GeoTables, initPawn g = .ok g' →
      g'.DeltaIncLine = g.DeltaIncLine ∧ g'.DeltaIncAll = g.DeltaIncAll) ∧
    (∀ g g' : GeoTables, initKing g = .ok g' →
      g'.DeltaIncLine = g.DeltaIncLine ∧ g'.DeltaIncAll = g.DeltaIncAll) := by
  refine ⟨initTables, attack_init_eq t0, ?_, initPawn_frame, initKing_frame⟩
  intro i
  obtain ⟨h1, h2, h3, _⟩ := geoInit_inc_spec i
  have e1 : initTables.DeltaIncLine i = geoInit.DeltaIncLine i := by simp only [initTables]
  have e2 : initTables.DeltaIncAll i = geoInit.DeltaIncAll i := by simp only [initTables]
  rw [e1, e2, ← isLineDelta_iff]
  refine ⟨?_, ?_, h3⟩
  · rw [← h1]
    simp only [IncNone, ne_eq, Nat.cast_eq_zero]
  · rw [← h2]
    simp only [IncNone, ne_eq, Nat.cast_eq_zero]

/-- C14, at an instance: the entry of `DeltaIncLine` for the delta 2 * 17. -/
theorem C14_ray_table_keys_witness :
    ∃ t, attack_init zeroTables = .ok t ∧
      (t.DeltaIncLine ⟨153, by decide⟩ : Int) ≠ IncNone := by
  obtain ⟨t, h, hk, _⟩ := C14_ray_table_keys zeroTables
  exact ⟨t, h, (hk ⟨153, by decide⟩).1.2 ⟨17, by decide, 2, by decide, by decide, by decide⟩⟩

/-- C12, as stated, fails: 0 and 255 are indices of the padded board, and the biased
difference `DeltaOffset + (255 - 0) = 374` is outside the tables, as is
`DeltaOffset + (0 - 255) = -136`. -/
theorem C12_padded_pair_counterexample :
    ((0 : Int) < SquareNb ∧ (255 : Int) < SquareNb) ∧
    (DeltaOffset + (255 - 0) = 374 ∧ ¬ (DeltaOffset + (255 - 0) < (DeltaNb : Nat)) ∧
      rd initTables.DeltaMask (DeltaOffset + (255 - 0)) = .error .outOfBounds ∧
      rd initTables.DeltaIncLine (DeltaOffset + (255 - 0)) = .error .outOfBounds ∧
      rd initTables.DeltaIncAll (DeltaOffset + (255 - 0)) = .error .outOfBounds) ∧
    (DeltaOffset + (0 - 255) = -136 ∧
      rd initTables.DeltaMask (DeltaOffset + (0 - 255)) = .error .outOfBounds) := by
  refine ⟨⟨by decide, by decide⟩, ⟨by decide, by decide, rfl, rfl, rfl⟩, by decide, rfl⟩

/-- C12, amended: after `attack_init`, for every pair of squares `a`, `b` of the padded
index range whose difference lies in -119..119, as it does for every pair of on-board
squares, the biased index is inside the three tables, and when the difference is not a
real board displacement the lookups yield 0 and `IncNone`. -/
theorem C12_geometry_tables_total (t0 : Tables) :
    ∃ t, attack_init t0 = .ok t ∧
    (∀ a b : Int, SQUARE_IS_OK a = true → SQUARE_IS_OK b = true →
      -119 ≤ b - a ∧ b - a ≤ 119) ∧
    (∀ a b : Int, 0 ≤ a → a < SquareNb → 0 ≤ b → b < SquareNb →
      -119 ≤ b - a → b - a ≤ 119 →
      (0 ≤ DeltaOffset + (b - a) ∧ DeltaOffset + (b - a) < (DeltaNb : Nat)) ∧
      (∃ m l n : Nat, rd t.DeltaMask (DeltaOffset + (b - a)) = .ok m ∧
        rd t.DeltaIncLine (DeltaOffset + (b - a)) = .ok l ∧
        rd t.DeltaIncAll (DeltaOffset + (b - a)) = .ok n ∧
        (delta_is_ok (b - a) = false →
          m = 0 ∧ (l : Int) = IncNone ∧ (n : Int) = IncNone))) := by
  refine ⟨initTables, attack_init_eq t0, ?_, ?_⟩
  · intro a b ha hb
    have := SQUARE_IS_OK_range a ha
    have := SQUARE_IS_OK_range b hb
    omega
  · intro a b _ _ _ _ h1 h2
    have hr : 0 ≤ DeltaOffset + (b - a) ∧ DeltaOffset + (b - a) < (DeltaNb : Nat) := by
      simp only [DeltaOffset, DeltaNb]
      omega
    refine ⟨hr, _, _, _, rd_of_range _ _ hr, rd_of_range _ _ hr, rd_of_range _ _ hr, ?_⟩
    intro hbad
    have hidx : (((DeltaOffset + (b - a)).toNat : Nat) : Int) - DeltaOffset = b - a := by
      simp only [DeltaOffset] at hr ⊢
      omega
    have hm := geoInit_mask_spec ⟨(DeltaOffset + (b - a)).toNat, by omega⟩
    have hi := (geoInit_inc_spec ⟨(DeltaOffset + (b - a)).toNat, by omega⟩).2.2.2
    simp only [hidx] at hm hi
    rw [hbad] at hm
    obtain ⟨hl, hn⟩ := hi hbad
    refine ⟨hm, ?_, ?_⟩
    · simp only [IncNone, Nat.cast_eq_zero]
      exact hl
    · simp only [IncNone, Nat.cast_eq_zero]
      exact hn

/-- C12, amended, at an instance: a1 and h8. -/
theorem C12_geometry_tables_total_witness :
    ∃ t, attack_init zeroTables = .ok t ∧
      0 ≤ DeltaOffset + (187 - 68) ∧ DeltaOffset + (187 - 68) < (DeltaNb : Nat) := by
  obtain ⟨t, h, _, h2⟩ := C12_geometry_tables_total zeroTables
  exact ⟨t, h, (h2 68 187 (by decide) (by decide) (by decide) (by decide) (by decide)
    (by decide)).1⟩

/-! ## Termination and index safety of the query -/

/-- A walk by a positive increment leaves the board within `188 - sq` rounds: with that
much fuel and one more round for the final test it returns. -/
theorem walk_total (b : board_t) (to_ inc : Int) (hinc : 1 ≤ inc) :
    ∀ (n : Nat) (sq : Int), 187 < sq + (n : Int) → ∃ r, walk b to_ inc (n + 1) sq = .ok r := by
  intro n
  induction n with
  | zero =>
    intro sq h
    refine ⟨false, walk_off b to_ inc 0 sq ?_⟩
    simp only [SQUARE_IS_OK, decide_eq_false_iff_not]
    push_cast at h
    omega
  | succ n ih =>
    intro sq h
    unfold walk
    by_cases hok : SQUARE_IS_OK sq = true
    · by_cases ht : sq = to_
      · subst ht
        exact ⟨true, by simp [hok, pure, Except.pure]⟩
      · obtain ⟨x, hx⟩ : ∃ x, rd b.square sq = .ok x :=
          ⟨_, rd_of_range _ _ (SQUARE_IS_OK_index _ hok)⟩
        by_cases hE : x = Empty
        · obtain ⟨r, hr⟩ := ih (sq + inc) (by push_cast at h ⊢; omega)
          exact ⟨r, by simp [hok, ht, hx, hE, hr, bind, Except.bind]⟩
        · exact ⟨false, by simp [hok, ht, hx, hE, pure, Except.pure, bind, Except.bind]⟩
    · exact ⟨false, by simp [hok, pure, Except.pure]⟩

/-- More fuel does not change the answer of a walk that returned. -/
theorem walk_mono (b : board_t) (to_ inc : Int) (r : Bool) :
    ∀ (fuel : Nat) (sq : Int), walk b to_ inc fuel sq = .ok r →
      walk b to_ inc (fuel + 1) sq = .ok r := by
  intro fuel
  induction fuel with
  | zero => intro sq h; simp [walk] at h
  | succ f ih =>
    intro sq h
    rw [walk] at h ⊢
    by_cases hok : SQUARE_IS_OK sq = true
    · by_cases ht : sq = to_
      · simpa [hok, ht] using h
      · cases hx : rd b.square sq with
        | error e => simp [hok, ht, hx, bind, Except.bind] at h
        | ok x =>
          by_cases hE : x = Empty
          · simp only [hok, if_true, ht, if_false, hx, bind_ok, hE, ne_eq, not_true_eq_false]
              at h ⊢
            exact ih _ h
          · simpa [hok, ht, hx, hE, bind, Except.bind] using h
    · simpa [hok] using h

theorem walk_mono_le (b : board_t) (to_ inc : Int) (r : Bool) (fuel fuel' : Nat) (sq : Int)
    (hle : fuel ≤ fuel') (h : walk b to_ inc fuel sq = .ok r) :
    walk b to_ inc fuel' sq = .ok r := by
  induction fuel' with
  | zero =>
    have : fuel = 0 := by omega
    subst this
    exact h
  | succ f ih =>
    by_cases he : fuel = f + 1
    · subst he; exact h
    · exact walk_mono b to_ inc r f sq (ih (by omega))

/-- A walk reads the board only on on-board squares: it returns or runs out of fuel. -/
theorem walk_in_bounds (b : board_t) (to_ inc : Int) :
    ∀ (fuel : Nat) (sq : Int), (∃ r, walk b to_ inc fuel sq = .ok r) ∨
      walk b to_ inc fuel sq = .error .outOfFuel := by
  intro fuel
  induction fuel with
  | zero => intro sq; exact Or.inr rfl
  | succ f ih =>
    intro sq
    rw [walk]
    by_cases hok : SQUARE_IS_OK sq = true
    · by_cases ht : sq = to_
      · subst ht
        exact Or.inl ⟨true, by simp [hok, pure, Except.pure]⟩
      · obtain ⟨x, hx⟩ : ∃ x, rd b.square sq = .ok x :=
          ⟨_, rd_of_range _ _ (SQUARE_IS_OK_index _ hok)⟩
        by_cases hE : x = Empty
        · simp only [hok, if_true, ht, if_false, hx, bind_ok, hE, ne_eq, not_true_eq_false]
          exact ih _
        · exact Or.inl ⟨false, by simp [hok, ht, hx, hE, pure, Except.pure, bind, Except.bind]⟩
    · exact Or.inl ⟨false, by simp [hok, pure, Except.pure]⟩

/-- One round of the piece scan, in terms of the three reads and the walk. -/
theorem scan_cons_eq (t : Tables) (fuel : Nat) (b : board_t) (to_ s piece : Int)
    (mask inc : Nat) (rest : List Int) (hs0 : s ≠ SquareNone)
    (hA : rd b.square s = .ok piece)
    (hm : rd t.DeltaMask (DeltaOffset + (to_ - s)) = .ok mask)
    (hi : rd t.DeltaIncAll (DeltaOffset + (to_ - s)) = .ok inc) :
    scan t fuel b to_ (s :: rest) =
      if PSEUDO_ATTACK piece mask = true ∧ (inc : Int) ≠ IncNone then
        (walk b to_ (inc : Int) fuel (s + (inc : Int)) >>= fun hit =>
          if hit then .ok true else scan t fuel b to_ rest)
      else scan t fuel b to_ rest := by
  rw [scan]
  simp only [hs0, if_false, hA, bind_ok, hm, hi]
  split
  · rename_i hp
    split
    · rename_i h0
      rw [if_pos ⟨hp, h0⟩]
      rfl
    · rename_i h0
      rw [if_neg (fun h => h0 h.2)]
  · rename_i hp
    rw [if_neg (fun h => hp h.1)]

/-- The three reads of one round of the scan are in range when the piece square and the
target are on the board. -/
theorem scan_reads (t : Tables) (b : board_t) (to_ s : Int)
    (hT : SQUARE_IS_OK to_ = true) (hS : SQUARE_IS_OK s = true) :
    s ≠ SquareNone ∧ (∃ piece, rd b.square s = .ok piece) ∧
    (∃ mask, rd t.DeltaMask (DeltaOffset + (to_ - s)) = .ok mask) ∧
    (∃ inc, rd t.DeltaIncAll (DeltaOffset + (to_ - s)) = .ok inc) := by
  have hsr := SQUARE_IS_OK_range s hS
  have htr := SQUARE_IS_OK_range to_ hT
  have hr : 0 ≤ DeltaOffset + (to_ - s) ∧ DeltaOffset + (to_ - s) < (DeltaNb : Nat) := by
    simp only [DeltaOffset, DeltaNb]
    omega
  refine ⟨by simp only [SquareNone]; omega, ⟨_, rd_of_range _ _ (SQUARE_IS_OK_index _ hS)⟩,
    ⟨_, rd_of_range _ _ hr⟩, ⟨_, rd_of_range _ _ hr⟩⟩

/-- With fuel for 120 rounds the scan of on-board squares up to the sentinel returns. -/
theorem scan_total (t : Tables) (fuel : Nat) (hfuel : 120 ≤ fuel) (b : board_t) (to_ : Int)
    (hT : SQUARE_IS_OK to_ = true) (rest : List Int) :
    ∀ l : List Int, (∀ s ∈ l, SQUARE_IS_OK s = true) →
      ∃ r, scan t fuel b to_ (l ++ SquareNone :: rest) = .ok r := by
  intro l
  induction l with
  | nil => intro _; exact ⟨false, by simp [scan, pure, Except.pure]⟩
  | cons s l ih =>
    intro hl
    have hS := hl s (List.mem_cons_self _ _)
    obtain ⟨r, hr⟩ := ih (fun x hx => hl x (List.mem_cons_of_mem _ hx))
    obtain ⟨hs0, ⟨piece, hA⟩, ⟨mask, hm⟩, ⟨inc, hi⟩⟩ := scan_reads t b to_ s hT hS
    rw [List.cons_append, scan_cons_eq t fuel b to_ s piece mask inc _ hs0 hA hm hi]
    split
    · rename_i hp
      have hsr := SQUARE_IS_OK_range s hS
      have hpos : (1 : Int) ≤ (inc : Int) := by
        have := hp.2
        simp only [IncNone] at this
        omega
      obtain ⟨f, rfl⟩ : ∃ f, fuel = f + 1 := ⟨fuel - 1, by omega⟩
      obtain ⟨w, hw⟩ := walk_total b to_ (inc : Int) hpos f (s + (inc : Int)) (by omega)
      rw [hw, bind_ok]
      cases w with
      | true => exact ⟨true, rfl⟩
      | false => exact ⟨r, by simpa using hr⟩
    · exact ⟨r, hr⟩

/-- More fuel does not change the answer of a scan that returned. -/
theorem scan_mono (t : Tables) (fuel : Nat) (b : board_t) (to_ : Int) (r : Bool) :
    ∀ l : List Int, scan t fuel b to_ l = .ok r → scan t (fuel + 1) b to_ l = .ok r := by
  intro l
  induction l with
  | nil => intro h; simp [scan] at h
  | cons s l ih =>
    intro h
    by_cases hs0 : s = SquareNone
    · rw [scan] at h ⊢
      simpa [hs0] using h
    · cases hA : rd b.square s with
      | error e => rw [scan] at h; simp [hs0, hA, bind, Except.bind] at h
      | ok piece =>
        cases hm : rd t.DeltaMask (DeltaOffset + (to_ - s)) with
        | error e => rw [scan] at h; simp [hs0, hA, hm, bind, Except.bind] at h
        | ok mask =>
          by_cases hp : PSEUDO_ATTACK piece mask = true
          · cases hi : rd t.DeltaIncAll (DeltaOffset + (to_ - s)) with
            | error e => rw [scan] at h; simp [hs0, hA, hm, hp, hi, bind, Except.bind] at h
            | ok inc =>
              rw [scan_cons_eq t _ b to_ s piece mask inc _ hs0 hA hm hi] at h ⊢
              by_cases h0 : (inc : Int) ≠ IncNone
              · rw [if_pos ⟨hp, h0⟩] at h ⊢
                cases hw : walk b to_ (inc : Int) fuel (s + (inc : Int)) with
                | error e => rw [hw] at h; cases h
                | ok w =>
                  rw [hw, bind_ok] at h
                  rw [walk_mono b to_ (inc : Int) w fuel _ hw, bind_ok]
                  cases w with
                  | true => exact h
                  | false => exact ih (by simpa using h)
              · rw [if_neg (fun hh => h0 hh.2)] at h ⊢
                exact ih h
          · rw [scan] at h ⊢
            simp only [hs0, if_false, hA, bind_ok, hm, hp] at h ⊢
            exact ih (by simpa using h)

/-- The scan of on-board squares up to the sentinel stays inside every array: it returns
or runs out of fuel. -/
theorem scan_in_bounds (t : Tables) (fuel : Nat) (b : board_t) (to_ : Int)
    (hT : SQUARE_IS_OK to_ = true) (rest : List Int) :
    ∀ l : List Int, (∀ s ∈ l, SQUARE_IS_OK s = true) →
      (∃ r, scan t fuel b to_ (l ++ SquareNone :: rest) = .ok r) ∨
        scan t fuel b to_ (l ++ SquareNone :: rest) = .error .outOfFuel := by
  intro l
  induction l with
  | nil => intro _; exact Or.inl ⟨false, by simp [scan, pure, Except.pure]⟩
  | cons s l ih =>
    intro hl
    have hS := hl s (List.mem_cons_self _ _)
    have hrec := ih (fun x hx => hl x (List.mem_cons_of_mem _ hx))
    obtain ⟨hs0, ⟨piece, hA⟩, ⟨mask, hm⟩, ⟨inc, hi⟩⟩ := scan_reads t b to_ s hT hS
    rw [List.cons_append, scan_cons_eq t fuel b to_ s piece mask inc _ hs0 hA hm hi]
    split
    · rcases walk_in_bounds b to_ (inc : Int) fuel (s + (inc : Int)) with ⟨w, hw⟩ | hw
      · rw [hw, bind_ok]
        cases w with
        | true => exact Or.inl ⟨true, rfl⟩
        | false => simpa using hrec
      · rw [hw]
        exact Or.inr rfl
    · exact hrec

/-- On a present board, a valid square and a valid colour, `is_attacked` answers `true`
at one of the two pawn tests or is the piece scan. -/
theorem is_attacked_cases (t : Tables) (fuel : Nat) (b : board_t) (to_ colour : Int)
    (hc : COLOUR_IS_OK colour = true) (hT : SQUARE_IS_OK to_ = true) :
    (∀ fuel', is_attacked t fuel' (some b) to_ colour = .ok true) ∨
    is_attacked t fuel (some b) to_ colour = scan t fuel b to_ (b.piece colour) := by
  obtain ⟨⟨x1, h1⟩, ⟨x2, h2⟩⟩ := pawn_reads b to_ colour hT
  by_cases e1 : x1 = PAWN_MAKE colour
  · left
    intro fuel'
    unfold is_attacked
    simp [hc, hT, h1, e1, bind, Except.bind, pure, Except.pure]
  · by_cases e2 : x2 = PAWN_MAKE colour
    · left
      intro fuel'
      unfold is_attacked
      simp [hc, hT, h1, h2, e1, e2, bind, Except.bind, pure, Except.pure]
    · right
      apply is_attacked_eq_scan t fuel b to_ colour hc hT
      · rw [h1]; exact fun h => e1 (Except.ok.inj h)
      · rw [h2]; exact fun h => e2 (Except.ok.inj h)

theorem scan_mono_le (t : Tables) (b : board_t) (to_ : Int) (r : Bool) (l : List Int)
    (fuel fuel' : Nat) (hle : fuel ≤ fuel') (h : scan t fuel b to_ l = .ok r) :
    scan t fuel' b to_ l = .ok r := by
  induction fuel' with
  | zero =>
    have : fuel = 0 := by omega
    subst this
    exact h
  | succ f ih =>
    by_cases he : fuel = f + 1
    · subst he; exact h
    · exact scan_mono t f b to_ r l (ih (by omega))

/-- C13: whatever the tables hold, so in particular after `attack_init`, if the piece
list of the colour holds finitely many on-board squares and then the sentinel,
`is_attacked` returns, with the same answer for every fuel of at least 120 rounds: the
scan stops at the sentinel, whatever follows it, and every walk by a non-zero increment
from an on-board square returns. -/
theorem C13_query_terminates (t : Tables) (board : Option board_t) (to_ colour : Int)
    (l rest : List Int)
    (hlist : ∀ b, board = some b → b.piece colour = l ++ SquareNone :: rest)
    (hl : ∀ s ∈ l, SQUARE_IS_OK s = true) :
    (∃ r, ∀ fuel, 120 ≤ fuel → is_attacked t fuel board to_ colour = .ok r) ∧
    (∀ (b : board_t) (inc : Nat) (s : Int), (inc : Int) ≠ IncNone → SQUARE_IS_OK s = true →
      ∃ r, ∀ fuel, 120 ≤ fuel → walk b to_ (inc : Int) fuel (s + (inc : Int)) = .ok r) := by
  constructor
  · cases board with
    | none => exact ⟨false, fun _ _ => rfl⟩
    | some b =>
      by_cases hg : (!SQUARE_IS_OK to_ || !COLOUR_IS_OK colour) = true
      · exact ⟨false, fun fuel _ => by simp [is_attacked, hg, pure, Except.pure]⟩
      · have hT : SQUARE_IS_OK to_ = true := by
          cases hh : SQUARE_IS_OK to_ <;> simp [hh] at hg ⊢
        have hc : COLOUR_IS_OK colour = true := by
          cases hh : COLOUR_IS_OK colour <;> simp [hh] at hg ⊢
        obtain ⟨r, hr⟩ := scan_total t 120 (le_refl _) b to_ hT rest l hl
        rcases is_attacked_cases t 120 b to_ colour hc hT with h | hs
        · exact ⟨true, fun fuel _ => h fuel⟩
        · refine ⟨r, fun fuel hf => ?_⟩
          rcases is_attacked_cases t fuel b to_ colour hc hT with h | h
          · have h120 := h 120
            rw [hs, hlist b rfl, hr] at h120
            rw [h fuel, ← Except.ok.inj h120]
          · rw [h, hlist b rfl]
            exact scan_mono_le t b to_ r _ 120 fuel hf hr
  · intro b inc s h0 hS
    have hsr := SQUARE_IS_OK_range s hS
    have hpos : (1 : Int) ≤ (inc : Int) := by
      simp only [IncNone] at h0
      omega
    obtain ⟨r, hr⟩ := walk_total b to_ (inc : Int) hpos 119 (s + (inc : Int)) (by omega)
    exact ⟨r, fun fuel hf => walk_mono_le b to_ (inc : Int) r 120 fuel _ hf hr⟩

set_option maxRecDepth 100000 in
/-- C13, at scenario A: the query on the board with a rook on a1 returns. -/
theorem C13_query_terminates_witness :
    ∃ r, ∀ fuel, 120 ≤ fuel →
      is_attacked initTables fuel (some boardRookA1) 180 White = .ok r :=
  (C13_query_terminates initTables (some boardRookA1) 180 White [68] []
    (fun b hb => by cases hb; rfl) (fun s hs => by
      rw [List.mem_singleton] at hs
      subst hs
      decide)).1

/-- C18: whatever the tables hold, so in particular after `attack_init`, for a valid
colour, an on-board target and a piece list that holds on-board squares and then the
sentinel, every index `is_attacked` uses is in range: the two pawn-check squares are in
`0..SquareNb-1`, the piece squares are in `0..SquareNb-1`, the biased deltas are in
`0..DeltaNb-1`, and, the walk reading the board only under `SQUARE_IS_OK`, no run
accesses an array outside its bounds, whatever the fuel. -/
theorem C18_query_index_safety (t : Tables) (fuel : Nat) (b : board_t) (to_ colour : Int)
    (l rest : List Int)
    (hc : COLOUR_IS_OK colour = true) (hT : SQUARE_IS_OK to_ = true)
    (hlist : b.piece colour = l ++ SquareNone :: rest)
    (hl : ∀ s ∈ l, SQUARE_IS_OK s = true) :
    (0 ≤ to_ - (PAWN_MOVE_INC colour - 1) ∧ to_ - (PAWN_MOVE_INC colour - 1) < (SquareNb : Nat)) ∧
    (0 ≤ to_ - (PAWN_MOVE_INC colour + 1) ∧ to_ - (PAWN_MOVE_INC colour + 1) < (SquareNb : Nat)) ∧
    (∀ s ∈ l, (0 ≤ s ∧ s < (SquareNb : Nat)) ∧
      0 ≤ DeltaOffset + (to_ - s) ∧ DeltaOffset + (to_ - s) < (DeltaNb : Nat)) ∧
    (∀ (inc : Int) (fuel' : Nat) (sq : Int),
      walk b to_ inc fuel' sq ≠ .error .outOfBounds) ∧
    is_attacked t fuel (some b) to_ colour ≠ .error .outOfBounds := by
  have htr := SQUARE_IS_OK_range to_ hT
  refine ⟨?_, ?_, ?_, ?_, ?_⟩
  · simp only [SquareNb]
    rcases pawn_inc_cases colour with h | h <;> rw [h] <;> omega
  · simp only [SquareNb]
    rcases pawn_inc_cases colour with h | h <;> rw [h] <;> omega
  · intro s hs
    have hsr := SQUARE_IS_OK_range s (hl s hs)
    simp only [SquareNb, DeltaOffset, DeltaNb]
    omega
  · intro inc fuel' sq h
    rcases walk_in_bounds b to_ inc fuel' sq with ⟨r, hr⟩ | hr <;> rw [hr] at h <;> cases h
  · intro h
    rcases is_attacked_cases t fuel b to_ colour hc hT with h1 | h1
    · rw [h1 fuel] at h
      cases h
    · rw [h1, hlist] at h
      rcases scan_in_bounds t fuel b to_ hT rest l hl with ⟨r, hr⟩ | hr <;>
        rw [hr] at h <;> cases h

set_option maxRecDepth 100000 in
/-- C18, at scenario A: the query on the board with a rook on a1. -/
theorem C18_query_index_safety_witness :
    is_attacked initTables 256 (some boardRookA1) 180 White ≠ .error .outOfBounds :=
  (C18_query_index_safety initTables 256 boardRookA1 180 White [68] [] (by decide)
    (by decide) rfl (fun s hs => by
      rw [List.mem_singleton] at hs
      subst hs
      decide)).2.2.2.2

/-! ## The calls of the population loops -/

theorem forBreak_congr {α σ : Type} (f g : σ → α → Except Fault (Step σ)) (xs : List α)
    (h : ∀ x ∈ xs, ∀ s, f s x = g s x) : ∀ s, forBreak f xs s = forBreak g xs s := by
  induction xs with
  | nil => intro s; rfl
  | cons x xs ih =>
    intro s
    rw [forBreak, forBreak, h x (List.mem_cons_self _ _) s]
    cases g s x with
    | error e => rfl
    | ok st =>
      cases st with
      | next s' => exact ih (fun y hy => h y (List.mem_cons_of_mem _ hy)) s'
      | brk s' => rfl

/-- A loop whose body runs `act` on the values that pass `q` and never breaks. -/
theorem forBreak_filter {α σ : Type} (q : α → Bool) (act : σ → α → Except Fault σ)
    (xs : List α) : ∀ s,
    forBreak (fun s x => if q x = true then (act s x >>= fun s' => pure (.next s'))
      else pure (.next s)) xs s = (xs.filter q).foldlM act s := by
  induction xs with
  | nil => intro s; rfl
  | cons x xs ih =>
    intro s
    rw [forBreak]
    by_cases hq : q x = true
    · rw [if_pos hq, List.filter_cons_of_pos hq, List.foldlM_cons]
      cases act s x with
      | error e => rfl
      | ok s' => exact ih s'
    · rw [if_neg hq, List.filter_cons_of_neg hq]
      exact ih s

/-- A loop whose body runs `act` on the first value that passes `q` and breaks. -/
theorem forBreak_find {α σ : Type} (q : α → Bool) (act : σ → α → Except Fault σ)
    (xs : List α) (s : σ) :
    forBreak (fun s x => if q x = true then (act s x >>= fun s' => pure (.brk s'))
      else pure (.next s)) xs s =
      match xs.find? q with
      | some x => act s x
      | none => .ok s := by
  induction xs with
  | nil => rfl
  | cons x xs ih =>
    rw [forBreak]
    by_cases hq : q x = true
    · rw [if_pos hq, List.find?_cons_of_pos _ hq]
      dsimp only
      cases act s x with
      | error e => rfl
      | ok s' => rfl
    · rw [if_neg hq, List.find?_cons_of_neg _ hq]
      exact ih

/-- A loop whose body runs `act` on every value and never breaks. -/
theorem forBreak_all {α σ : Type} (act : σ → α → Except Fault σ) (xs : List α) : ∀ s,
    forBreak (fun s x => act s x >>= fun s' => pure (.next s')) xs s = xs.foldlM act s := by
  induction xs with
  | nil => intro s; rfl
  | cons x xs ih =>
    intro s
    rw [forBreak, List.foldlM_cons]
    cases act s x with
    | error e => rfl
    | ok s' => exact ih s'

/-- The knight loop, as a loop over the values of `KnightInc`. -/
theorem populateKnight_values (king from_ : Int) (k : KingTables) :
    populateKnight king from_ k =
      forBreak (fun k (inc : Int) =>
        if inc = IncNone then pure (.brk k)
        else if (SQUARE_IS_OK (from_ + inc) && decide (DISTANCE (from_ + inc) king = 1)) = true
          then (add_attack k 0 (king - from_) (from_ + inc - from_) >>= fun k => pure (.next k))
          else pure (.next k)) KnightInc.dropLast k := rfl

theorem populateKnight_calls (king from_ : Int) (k : KingTables) :
    populateKnight king from_ k = (knightCalls king from_).foldlM addCall k := by
  rw [populateKnight_values, knightCalls, List.foldlM_map,
    ← forBreak_filter (fun inc => qualifies king (from_ + inc))
      (fun k inc => addCall k (0, king - from_, from_ + inc - from_))]
  apply forBreak_congr
  intro inc hinc s
  have h0 : inc ≠ IncNone := by
    have hall : ∀ x ∈ KnightInc.dropLast, x ≠ IncNone := by decide
    exact hall inc hinc
  rw [if_neg h0]
  rfl

/-- The distance loop of one direction, with its two tests as one. -/
theorem populateRay_calls (piece inc king from_ : Int) (k : KingTables) :
    populateRay piece inc king from_ k = (rayCalls piece inc king from_).foldlM addCall k := by
  have h1 : populateRay piece inc king from_ k =
      forBreak (fun k (dist : Nat) =>
        if (delta_is_ok (inc * (dist : Int)) && qualifies king (from_ + inc * (dist : Int))) = true
        then (addCall k (piece, king - from_, from_ + inc * (dist : Int) - from_) >>=
          fun k => pure (.brk k))
        else pure (.next k)) (List.range' 1 7) k := by
    unfold populateRay
    apply forBreak_congr
    intro dist _ s
    by_cases hd : delta_is_ok (inc * (dist : Int)) = true
    · by_cases hq : qualifies king (from_ + inc * (dist : Int)) = true
      · have hq' := hq
        unfold qualifies at hq'
        simp only [hd, hq, hq', if_true, Bool.and_self]
        rfl
      · have hq' := hq
        unfold qualifies at hq'
        simp only [hd, hq, hq', if_true, if_false, Bool.true_and, Bool.false_eq_true]
    · simp only [hd, if_false, Bool.false_and, Bool.false_eq_true]
  rw [h1, forBreak_find, rayCalls, firstDist]
  generalize List.find? _ _ = o
  cases o with
  | none => rfl
  | some dist => simp only [List.foldlM_cons, List.foldlM_nil, bind_pure]

theorem foldlM_flatMap {α β σ : Type} (f : α → List β) (act : σ → β → Except Fault σ)
    (xs : List α) : ∀ s,
    (xs.flatMap f).foldlM act s = xs.foldlM (fun s x => (f x).foldlM act s) s := by
  induction xs with
  | nil => intro s; rfl
  | cons x xs ih =>
    intro s
    rw [List.flatMap_cons, List.foldlM_append, List.foldlM_cons]
    cases (f x).foldlM act s with
    | error e => rfl
    | ok s' => exact ih s'

/-- A slider loop over the values of its direction array. -/
theorem populateSlider_values (piece : Int) (dirs : List Int) (king from_ : Int)
    (k : KingTables) (hdirs : ∀ x ∈ dirs, x ≠ IncNone) :
    forBreak (fun k (inc : Int) =>
        if inc = IncNone then pure (.brk k)
        else (populateRay piece inc king from_ k >>= fun k => pure (.next k))) dirs k
      = (sliderCalls piece dirs king from_).foldlM addCall k := by
  rw [sliderCalls, foldlM_flatMap,
    ← forBreak_all (fun s inc => (rayCalls piece inc king from_).foldlM addCall s)]
  apply forBreak_congr
  intro inc hinc s
  rw [if_neg (hdirs inc hinc), populateRay_calls]

/-- Lines 127-185 for one `king` and one `from` are the calls of `pairCalls`, made in
order on the tables. -/
theorem populatePair_calls (king from_ : Int) (k : KingTables) :
    populatePair king from_ k = (pairCalls king from_).foldlM addCall k := by
  have hB0 : ∀ k, populateSlider 1 BishopInc 4 king from_ k =
      forBreak (fun k (inc : Int) =>
        if inc = IncNone then pure (.brk k)
        else (populateRay 1 inc king from_ k >>= fun k => pure (.next k)))
        BishopInc.dropLast k := fun _ => rfl
  have hR0 : ∀ k, populateSlider 2 RookInc 4 king from_ k =
      forBreak (fun k (inc : Int) =>
        if inc = IncNone then pure (.brk k)
        else (populateRay 2 inc king from_ k >>= fun k => pure (.next k)))
        RookInc.dropLast k := fun _ => rfl
  have hQ0 : ∀ k, populateSlider 3 QueenInc 8 king from_ k =
      forBreak (fun k (inc : Int) =>
        if inc = IncNone then pure (.brk k)
        else (populateRay 3 inc king from_ k >>= fun k => pure (.next k)))
        QueenInc.dropLast k := fun _ => rfl
  have hB : ∀ k, populateSlider 1 BishopInc 4 king from_ k
      = (sliderCalls 1 BishopInc.dropLast king from_).foldlM addCall k := fun k =>
    (hB0 k).trans (populateSlider_values 1 _ king from_ k (by decide))
  have hR : ∀ k, populateSlider 2 RookInc 4 king from_ k
      = (sliderCalls 2 RookInc.dropLast king from_).foldlM addCall k := fun k =>
    (hR0 k).trans (populateSlider_values 2 _ king from_ k (by decide))
  have hQ : ∀ k, populateSlider 3 QueenInc 8 king from_ k
      = (sliderCalls 3 QueenInc.dropLast king from_).foldlM addCall k := fun k =>
    (hQ0 k).trans (populateSlider_values 3 _ king from_ k (by decide))
  unfold populatePair pairCalls
  rw [List.foldlM_append, List.foldlM_append, List.foldlM_append, populateKnight_calls]
  simp only [hB, hR, hQ, bind_assoc]

theorem find_range' (p : Nat → Bool) : ∀ (n s d : Nat),
    (List.range' s n).find? p = some d →
      s ≤ d ∧ d < s + n ∧ p d = true ∧ ∀ m, s ≤ m → m < d → p m = false := by
  intro n
  induction n with
  | zero => intro s d h; simp at h
  | succ n ih =>
    intro s d h
    rw [List.range'_succ] at h
    by_cases hp : p s = true
    · rw [List.find?_cons_of_pos _ hp] at h
      cases h
      exact ⟨le_refl _, by omega, hp, fun m h1 h2 => absurd h2 (by omega)⟩
    · rw [List.find?_cons_of_neg _ hp] at h
      obtain ⟨h1, h2, h3, h4⟩ := ih (s + 1) d h
      refine ⟨by omega, by omega, h3, ?_⟩
      intro m hm1 hm2
      by_cases hms : m = s
      · subst hms
        simpa using hp
      · exact h4 m (by omega) hm2

theorem queen_deltas_ok : ∀ d ∈ QueenInc.dropLast, ∀ m ∈ List.range' 1 7,
    delta_is_ok (d * ((m : Nat) : Int)) = true := by
  decide

theorem rayCalls_spec (piece inc king from_ : Int) (hinc : inc ∈ QueenInc.dropLast)
    (c : Call) (hc : c ∈ rayCalls piece inc king from_) :
    c.1 = piece ∧ c.2.1 = king - from_ ∧
    ∃ m : Nat, 1 ≤ m ∧ m ≤ 7 ∧ c.2.2 = inc * (m : Int) ∧
      qualifies king (from_ + inc * (m : Int)) = true ∧
      ∀ m' : Nat, 1 ≤ m' → m' < m → qualifies king (from_ + inc * (m' : Int)) = false := by
  unfold rayCalls at hc
  cases hf : firstDist inc king from_ with
  | none => rw [hf] at hc; simp at hc
  | some dist =>
    rw [hf] at hc
    simp only [List.mem_singleton] at hc
    subst hc
    unfold firstDist at hf
    obtain ⟨h1, h2, h3, h4⟩ := find_range' _ 7 1 dist hf
    simp only [Bool.and_eq_true] at h3
    refine ⟨rfl, rfl, dist, h1, by omega, by simp, h3.2, ?_⟩
    intro m' hm1 hm2
    have := h4 m' hm1 hm2
    have hok := queen_deltas_ok inc hinc m' (by rw [List.mem_range']; exact ⟨m' - 1, by omega, by omega⟩)
    simpa [hok] using this

theorem sliderCalls_spec (piece : Int) (dirs : List Int) (king from_ : Int)
    (hdirs : ∀ x ∈ dirs, x ∈ QueenInc.dropLast) (c : Call)
    (hc : c ∈ sliderCalls piece dirs king from_) :
    c.1 = piece ∧ c.2.1 = king - from_ ∧
    ∃ d ∈ dirs, ∃ m : Nat, 1 ≤ m ∧ m ≤ 7 ∧ c.2.2 = d * (m : Int) ∧
      qualifies king (from_ + d * (m : Int)) = true ∧
      ∀ m' : Nat, 1 ≤ m' → m' < m → qualifies king (from_ + d * (m' : Int)) = false := by
  unfold sliderCalls at hc
  rw [List.mem_flatMap] at hc
  obtain ⟨inc, hinc, hc⟩ := hc
  obtain ⟨h1, h2, h3⟩ := rayCalls_spec piece inc king from_ (hdirs inc hinc) c hc
  exact ⟨h1, h2, inc, hinc, h3⟩

/-- Every call of `pairCalls` is one the call sites allow. -/
theorem pairCalls_spec (king from_ : Int) (c : Call) (hc : c ∈ pairCalls king from_) :
    CallOf king from_ c := by
  unfold pairCalls at hc
  simp only [List.mem_append] at hc
  rcases hc with ((hc | hc) | hc) | hc
  · unfold knightCalls at hc
    rw [List.mem_map] at hc
    obtain ⟨inc, hinc, rfl⟩ := hc
    rw [List.mem_filter] at hinc
    refine ⟨rfl, Or.inl ⟨rfl, ?_, ?_⟩⟩
    · simp only [add_sub_cancel_left]
      exact hinc.1
    · simp only [add_sub_cancel_left]
      exact hinc.2
  · obtain ⟨h1, h2, h3⟩ := sliderCalls_spec 1 _ king from_ (by decide) c hc
    exact ⟨h2, Or.inr ⟨BishopInc.dropLast, by rw [h1]; simp, h3⟩⟩
  · obtain ⟨h1, h2, h3⟩ := sliderCalls_spec 2 _ king from_ (by decide) c hc
    exact ⟨h2, Or.inr ⟨RookInc.dropLast, by rw [h1]; simp, h3⟩⟩
  · obtain ⟨h1, h2, h3⟩ := sliderCalls_spec 3 _ king from_ (by decide) c hc
    exact ⟨h2, Or.inr ⟨QueenInc.dropLast, by rw [h1]; simp, h3⟩⟩

/-- The arguments of a call made for on-board `king` and `from`: the class is in 0..3,
the target is not zero, and key and target are between -119 and 119. -/
theorem callOf_range (king from_ : Int) (hk : SQUARE_IS_OK king = true)
    (hf : SQUARE_IS_OK from_ = true) (c : Call) (h : CallOf king from_ c) :
    (0 ≤ c.1 ∧ c.1 ≤ 3) ∧ (-119 ≤ c.2.1 ∧ c.2.1 ≤ 119) ∧
    (-119 ≤ c.2.2 ∧ c.2.2 ≤ 119) ∧ c.2.2 ≠ 0 := by
  have hkr := SQUARE_IS_OK_range king hk
  have hfr := SQUARE_IS_OK_range from_ hf
  obtain ⟨hkey, h⟩ := h
  have hq : ∀ x : Int, qualifies king (from_ + x) = true → -119 ≤ x ∧ x ≤ 119 := by
    intro x hx
    unfold qualifies at hx
    simp only [Bool.and_eq_true] at hx
    have := SQUARE_IS_OK_range _ hx.1
    omega
  rcases h with ⟨h0, hmem, hqual⟩ | ⟨dirs, hcls, d, hd, m, hm1, hm7, ht, hqual, _⟩
  · refine ⟨by omega, by omega, hq _ hqual, ?_⟩
    have hall : ∀ x ∈ KnightInc.dropLast, x ≠ 0 := by decide
    exact hall _ hmem
  · have hc13 : 1 ≤ c.1 ∧ c.1 ≤ 3 ∧ d ∈ QueenInc.dropLast := by
      have hB : ∀ x ∈ BishopInc.dropLast, x ∈ QueenInc.dropLast := by decide
      have hR : ∀ x ∈ RookInc.dropLast, x ∈ QueenInc.dropLast := by decide
      simp only [List.mem_cons, List.mem_singleton, Prod.mk.injEq, List.not_mem_nil,
        or_false] at hcls
      rcases hcls with ⟨h1, rfl⟩ | ⟨h1, rfl⟩ | ⟨h1, rfl⟩
      · exact ⟨by omega, by omega, hB d hd⟩
      · exact ⟨by omega, by omega, hR d hd⟩
      · exact ⟨by omega, by omega, hd⟩
    refine ⟨by omega, by omega, by rw [ht]; exact hq _ hqual, ?_⟩
    rw [ht]
    have hd0 : d ≠ 0 := by
      have hall : ∀ x ∈ QueenInc.dropLast, x ≠ 0 := by decide
      exact hall d hc13.2.2
    have hm0 : (m : Int) ≠ 0 := by omega
    exact mul_ne_zero hd0 hm0

/-- The calls of a pair keep `P` and return, if each of them does. -/
theorem pair_keeps (king from_ : Int) (P : KingTables → Prop)
    (hP : ∀ c ∈ pairCalls king from_, ∀ k, P k → ∃ k', addCall k c = .ok k' ∧ P k') :
    ∀ k, P k → ∃ k', populatePair king from_ k = .ok k' ∧ P k' := by
  intro k hk
  rw [populatePair_calls]
  exact foldlM_keeps P addCall _ hP k hk

/-- The population loops keep `P` and return, if every call the call sites allow for
on-board `king` and `from` does. -/
theorem populate_calls_keep (P : KingTables → Prop)
    (hP : ∀ (king from_ : Int), SQUARE_IS_OK king = true → SQUARE_IS_OK from_ = true →
      ∀ c, CallOf king from_ c → ∀ k, P k → ∃ k', addCall k c = .ok k' ∧ P k') :
    ∀ k, P k → ∃ k', populate k = .ok k' ∧ P k' := by
  intro k hk
  unfold populate
  refine foldlM_keeps P _ _ ?_ k hk
  intro king _ s hs
  by_cases hking : SQUARE_IS_OK (king : Int) = true
  · simp only [hking, if_true]
    refine foldlM_keeps P _ _ ?_ s hs
    intro from_ _ s' hs'
    by_cases hf : SQUARE_IS_OK (from_ : Int) = true
    · simp only [hf, if_true]
      exact pair_keeps _ _ P
        (fun c hc => hP _ _ hking hf c (pairCalls_spec _ _ c hc)) s' hs'
    · exact ⟨s', by simp [hf, pure, Except.pure], hs'⟩
  · exact ⟨s, by simp [hking, pure, Except.pure], hs⟩

theorem kingCleared_tableInv : TableInv kingCleared := by
  refine ⟨kingCleared_inv, ?_, ?_⟩
  · intro c d i hi
    have h0 : kingCleared.PieceDeltaSize c d = 0 := rfl
    rw [h0] at hi
    omega
  · intro c d i
    have h0 : kingCleared.PieceDeltaSize c d = 0 := rfl
    have h1 : kingCleared.PieceDeltaDelta c d i = 0 := rfl
    rw [h0, h1]
    exact ⟨fun h => by omega, fun _ => rfl⟩

/-- A call the call sites allow keeps the three properties and returns. -/
theorem addCall_keeps (king from_ : Int) (hking : SQUARE_IS_OK king = true)
    (hf : SQUARE_IS_OK from_ = true) (c0 : Call) (hc0 : CallOf king from_ c0)
    (k : KingTables) (hk : TableInv k) : ∃ k', addCall k c0 = .ok k' ∧ TableInv k' := by
  obtain ⟨hinv, hgen, hslot⟩ := hk
  obtain ⟨_, hkr, htr, ht0⟩ := callOf_range king from_ hking hf c0 hc0
  unfold addCall
  rcases add_attack_cases k c0.1 c0.2.1 c0.2.2 (by simp only [DeltaOffset]; omega)
      (fun c d => ⟨(hinv c d).1, (hinv c d).2.1⟩) with
    h | ⟨c, d, sz, hcv, hdv, hsz, hnew, h⟩
  · exact ⟨k, h, hinv, hgen, hslot⟩
  · refine ⟨_, h, inserted_keeps k c d sz _ hinv ⟨by omega, by omega⟩ hsz hnew, ?_, ?_⟩
    · intro c' d' i hi
      rw [inserted_size] at hi
      rw [inserted_slot]
      have hsz2 : sz.val < 2 := sz.isLt
      have e1 : toI8 ((sz.val : Int) + 1) = (sz.val : Int) + 1 := toI8_id _ (by omega)
      have e2 : toI8 c0.2.2 = c0.2.2 := toI8_id _ (by omega)
      by_cases hkey : c' = c ∧ d' = d
      · obtain ⟨rfl, rfl⟩ := hkey
        simp only [true_and, and_self, if_true, e1] at hi ⊢
        by_cases his : i = sz
        · rw [if_pos his, e2]
          refine ⟨king, from_, hking, hf, by rw [hdv, hc0.1], ?_⟩
          have : ((c'.val : Int), king - from_, c0.2.2) = c0 := by
            rw [hcv, ← hc0.1]
          rw [this]
          exact hc0
        · rw [if_neg his]
          apply hgen
          rw [hsz]
          have : i.val ≠ sz.val := fun h => his (Fin.ext h)
          omega
      · rw [if_neg hkey] at hi
        rw [if_neg (fun h => hkey ⟨h.1, h.2.1⟩)]
        exact hgen c' d' i hi
    · intro c' d' i
      rw [inserted_size, inserted_slot]
      have hsz2 : sz.val < 2 := sz.isLt
      have e1 : toI8 ((sz.val : Int) + 1) = (sz.val : Int) + 1 := toI8_id _ (by omega)
      have e2 : toI8 c0.2.2 = c0.2.2 := toI8_id _ (by omega)
      by_cases hkey : c' = c ∧ d' = d
      · obtain ⟨rfl, rfl⟩ := hkey
        simp only [true_and, and_self, if_true, e1]
        by_cases his : i = sz
        · rw [if_pos his, e2]
          subst his
          exact ⟨fun _ => by simpa [DeltaNone] using ht0, fun h => by omega⟩
        · rw [if_neg his]
          have hne : i.val ≠ sz.val := fun h => his (Fin.ext h)
          constructor
          · intro h
            exact (hslot c' d' i).1 (by rw [hsz]; omega)
          · intro h
            exact (hslot c' d' i).2 (by rw [hsz]; omega)
      · rw [if_neg hkey, if_neg (fun h => hkey ⟨h.1, h.2.1⟩)]
        exact hslot c' d' i

/-- The king-relative tables that `attack_init` leaves behind have the three properties. -/
theorem kingInit_tableInv : TableInv kingInit := by
  obtain ⟨k', h1, h2⟩ := populate_calls_keep TableInv
    (fun king from_ hk hf c hc k hP => addCall_keeps king from_ hk hf c hc k hP)
    kingCleared kingCleared_tableInv
  rw [populate_eq.1] at h1
  have e : kingInit = k' := Except.ok.inj h1
  rw [e]
  exact h2

/-! ## The entries and the slots of the king-relative tables -/

theorem qualifies_iff (king to_ : Int) :
    qualifies king to_ = true ↔ SQUARE_IS_OK to_ = true ∧ DISTANCE to_ king = 1 := by
  unfold qualifies
  simp only [Bool.and_eq_true, decide_eq_true_eq]

theorem slot_init : SlotDiscipline initTables.toKingTables := by
  rw [initTables_king]
  exact kingInit_tableInv.2.2

theorem genuine_init : Genuine initTables.toKingTables := by
  rw [initTables_king]
  exact kingInit_tableInv.2.1

/-- What `Genuine` says of an entry, with the call condition spelt out. -/
theorem genuine_entry (k : KingTables) (hg : Genuine k)
    (c : Fin MAX_PIECES) (d : Fin MAX_DELTAS) (i : Fin MAX_ATTACKS_PER_DELTA)
    (hi : (i.val : Int) < k.PieceDeltaSize c d) :
    ∃ king from_ : Int, SQUARE_IS_OK king = true ∧ SQUARE_IS_OK from_ = true ∧
      (d.val : Int) = DeltaOffset + (king - from_) ∧
      SQUARE_IS_OK (from_ + k.PieceDeltaDelta c d i) = true ∧
      DISTANCE (from_ + k.PieceDeltaDelta c d i) king = 1 ∧
      ((c.val = 0 ∧ k.PieceDeltaDelta c d i ∈ KnightInc.dropLast) ∨
       (∃ dirs, ((c.val : Int), dirs) ∈
            [((1 : Int), BishopInc.dropLast), (2, RookInc.dropLast),
              (3, QueenInc.dropLast)] ∧
          ∃ dir ∈ dirs, ∃ m : Int, 1 ≤ m ∧ m ≤ 7 ∧ k.PieceDeltaDelta c d i = m * dir ∧
            ∀ m' : Int, 1 ≤ m' → m' < m →
              ¬ (SQUARE_IS_OK (from_ + m' * dir) = true ∧
                DISTANCE (from_ + m' * dir) king = 1))) := by
  obtain ⟨king, from_, hk, hf, hd, _, hcall⟩ := hg c d i hi
  refine ⟨king, from_, hk, hf, hd, ?_⟩
  rcases hcall with ⟨h0, hmem, hq⟩ | ⟨dirs, hcls, dir, hdir, m, hm1, hm7, ht, hq, hfirst⟩
  · have hq' := (qualifies_iff _ _).1 hq
    have h0' : (c.val : Int) = 0 := h0
    refine ⟨hq'.1, hq'.2, Or.inl ⟨by omega, hmem⟩⟩
  · simp only at ht
    have hq' := (qualifies_iff _ _).1 hq
    rw [← ht] at hq'
    refine ⟨hq'.1, hq'.2, Or.inr ⟨dirs, hcls, dir, hdir, (m : Int), by omega, by omega,
      by rw [ht]; ring, ?_⟩⟩
    intro m' h1 h2 hbad
    have hf' := hfirst m'.toNat (by omega) (by omega)
    have e : ((m'.toNat : Nat) : Int) = m' := by omega
    rw [e] at hf'
    have : qualifies king (from_ + dir * m') = true := by
      rw [qualifies_iff, mul_comm]
      exact hbad
    rw [hf'] at this
    cases this

/-- C15: after `attack_init`, every entry below the size of its key is a move of the
class of the key (a knight leap for class 0; `m` steps, `m` in 1..7, of a bishop, rook
or queen direction for classes 1, 2, 3), and there are on-board squares `king` and
`from` whose difference is the key such that `from` plus the entry is on the board and
at distance 1 from `king` and, for the sliding classes, no nearer square of the
direction is on the board and at distance 1 from `king`. -/
theorem C15_entries_genuine (t0 : Tables) :
    ∃ t, attack_init t0 = .ok t ∧
    ∀ (c : Fin MAX_PIECES) (d : Fin MAX_DELTAS) (i : Fin MAX_ATTACKS_PER_DELTA),
      (i.val : Int) < t.PieceDeltaSize c d →
      ∃ king from_ : Int, SQUARE_IS_OK king = true ∧ SQUARE_IS_OK from_ = true ∧
        (d.val : Int) = DeltaOffset + (king - from_) ∧
        SQUARE_IS_OK (from_ + t.PieceDeltaDelta c d i) = true ∧
        DISTANCE (from_ + t.PieceDeltaDelta c d i) king = 1 ∧
        ((c.val = 0 ∧ t.PieceDeltaDelta c d i ∈ KnightInc.dropLast) ∨
         (∃ dirs, ((c.val : Int), dirs) ∈
              [((1 : Int), BishopInc.dropLast), (2, RookInc.dropLast),
                (3, QueenInc.dropLast)] ∧
            ∃ dir ∈ dirs, ∃ m : Int, 1 ≤ m ∧ m ≤ 7 ∧ t.PieceDeltaDelta c d i = m * dir ∧
              ∀ m' : Int, 1 ≤ m' → m' < m →
                ¬ (SQUARE_IS_OK (from_ + m' * dir) = true ∧
                  DISTANCE (from_ + m' * dir) king = 1))) :=
  ⟨initTables, attack_init_eq t0, genuine_entry initTables.toKingTables genuine_init⟩

/-- C15, at an instance: the entries of the tables built from zeroed tables. -/
theorem C15_entries_genuine_witness :
    ∃ t, attack_init zeroTables = .ok t ∧
      ∀ (c : Fin MAX_PIECES) (d : Fin MAX_DELTAS) (i : Fin MAX_ATTACKS_PER_DELTA),
        (i.val : Int) < t.PieceDeltaSize c d →
        ∃ king from_ : Int, SQUARE_IS_OK king = true ∧ SQUARE_IS_OK from_ = true ∧
          (d.val : Int) = DeltaOffset + (king - from_) ∧
          DISTANCE (from_ + t.PieceDeltaDelta c d i) king = 1 := by
  obtain ⟨t, h, hg⟩ := C15_entries_genuine zeroTables
  refine ⟨t, h, fun c d i hi => ?_⟩
  obtain ⟨king, from_, h1, h2, h3, _, h5, _⟩ := hg c d i hi
  exact ⟨king, from_, h1, h2, h3, h5⟩

/-- C20: after `attack_init`, every slot below the size of its key holds a target
different from `DeltaNone`, and every slot from the size on still holds `DeltaNone`. -/
theorem C20_slot_discipline (t0 : Tables) :
    ∃ t, attack_init t0 = .ok t ∧
    ∀ (c : Fin MAX_PIECES) (d : Fin MAX_DELTAS) (i : Fin MAX_ATTACKS_PER_DELTA),
      ((i.val : Int) < t.PieceDeltaSize c d → t.PieceDeltaDelta c d i ≠ DeltaNone) ∧
      (t.PieceDeltaSize c d ≤ (i.val : Int) → t.PieceDeltaDelta c d i = DeltaNone) :=
  ⟨initTables, attack_init_eq t0, slot_init⟩

/-! ## The range check during construction -/

/-- C19: the population loops for one `king` and one `from` are the calls of `pairCalls`
run in order; for on-board `king` and `from` every one of them has its class in 0..3 and
both biased indices in 0..255, so that on tables that satisfy the capacity invariant the
call either inserts its target or finds the key full or the target present; and
`attack_init` as a whole returns without any access outside an array. -/
theorem C19_bound_check_never_fires :
    (∀ (king from_ : Int) (k : KingTables),
      populatePair king from_ k = (pairCalls king from_).foldlM addCall k) ∧
    (∀ (king from_ : Int), SQUARE_IS_OK king = true → SQUARE_IS_OK from_ = true →
      ∀ c ∈ pairCalls king from_,
        (0 ≤ c.1 ∧ c.1 ≤ 3) ∧ c.2.1 = king - from_ ∧
        (0 ≤ DeltaOffset + c.2.1 ∧ DeltaOffset + c.2.1 ≤ 255) ∧
        (0 ≤ DeltaOffset + c.2.2 ∧ DeltaOffset + c.2.2 ≤ 255) ∧
        ∀ k : KingTables, KingInv k →
          ∃ (ci : Fin MAX_PIECES) (di : Fin MAX_DELTAS),
            (ci.val : Int) = c.1 ∧ (di.val : Int) = DeltaOffset + c.2.1 ∧
            ((addCall k c = .ok k ∧
                (k.PieceDeltaSize ci di = 2 ∨
                  ∃ i : Fin MAX_ATTACKS_PER_DELTA, (i.val : Int) < k.PieceDeltaSize ci di ∧
                    k.PieceDeltaDelta ci di i = c.2.2)) ∨
              ∃ sz : Fin MAX_ATTACKS_PER_DELTA, k.PieceDeltaSize ci di = (sz.val : Int) ∧
                addCall k c = .ok (inserted k ci di sz c.2.2))) ∧
    (∀ t0 : Tables, ∃ t, attack_init t0 = .ok t) := by
  refine ⟨populatePair_calls, ?_, fun t0 => ⟨initTables, attack_init_eq t0⟩⟩
  intro king from_ hk hf c hc
  have hcall := pairCalls_spec king from_ c hc
  obtain ⟨hc13, hkr, htr, _⟩ := callOf_range king from_ hk hf c hcall
  refine ⟨hc13, hcall.1, by simp only [DeltaOffset]; omega, by simp only [DeltaOffset]; omega, ?_⟩
  intro k hinv
  have hci : c.1.toNat < MAX_PIECES := by simp only [MAX_PIECES]; omega
  have hdi : (DeltaOffset + c.2.1).toNat < MAX_DELTAS := by
    simp only [MAX_DELTAS, DeltaOffset]; omega
  have hcv : (((⟨c.1.toNat, hci⟩ : Fin MAX_PIECES).val : Nat) : Int) = c.1 := by
    simp only []; omega
  have hdv : (((⟨(DeltaOffset + c.2.1).toNat, hdi⟩ : Fin MAX_DELTAS).val : Nat) : Int)
      = DeltaOffset + c.2.1 := by
    simp only [DeltaOffset]; omega
  refine ⟨⟨c.1.toNat, hci⟩, ⟨(DeltaOffset + c.2.1).toNat, hdi⟩, hcv, hdv, ?_⟩
  have hat := add_attack_at k c.1 c.2.1 c.2.2 _ _ hcv hdv (by simp only [DeltaOffset]; omega)
  obtain ⟨hs0, hs2, _⟩ := hinv ⟨c.1.toNat, hci⟩ ⟨(DeltaOffset + c.2.1).toNat, hdi⟩
  unfold addCall
  rw [hat]
  by_cases h2 : 2 ≤ k.PieceDeltaSize ⟨c.1.toNat, hci⟩ ⟨(DeltaOffset + c.2.1).toNat, hdi⟩
  · rw [if_pos h2]
    exact Or.inl ⟨rfl, Or.inl (by omega)⟩
  · rw [if_neg h2]
    by_cases h1 : k.PieceDeltaSize ⟨c.1.toNat, hci⟩ ⟨(DeltaOffset + c.2.1).toNat, hdi⟩ = 1
    · rw [if_pos h1]
      by_cases hp : k.PieceDeltaDelta ⟨c.1.toNat, hci⟩ ⟨(DeltaOffset + c.2.1).toNat, hdi⟩
          ⟨0, by decide⟩ = c.2.2
      · rw [if_pos hp]
        exact Or.inl ⟨rfl, Or.inr ⟨⟨0, by decide⟩, by rw [h1]; decide, hp⟩⟩
      · rw [if_neg hp]
        exact Or.inr ⟨⟨1, by decide⟩, h1, rfl⟩
    · have h0 : k.PieceDeltaSize ⟨c.1.toNat, hci⟩ ⟨(DeltaOffset + c.2.1).toNat, hdi⟩ = 0 := by
        omega
      rw [if_neg h1, if_pos h0]
      exact Or.inr ⟨⟨0, by decide⟩, h0, rfl⟩

set_option maxRecDepth 100000 in
/-- C19, at an instance: the calls for the king on c1 (0x46) and the piece on a1 (0x44). -/
theorem C19_bound_check_never_fires_witness :
    ∀ c ∈ pairCalls 70 68, (0 ≤ c.1 ∧ c.1 ≤ 3) ∧ c.2.1 = 70 - 68 ∧
      (0 ≤ DeltaOffset + c.2.1 ∧ DeltaOffset + c.2.1 ≤ 255) ∧
      (0 ≤ DeltaOffset + c.2.2 ∧ DeltaOffset + c.2.2 ≤ 255) := fun c hc =>
  have h := C19_bound_check_never_fires.2.1 70 68 (by decide) (by decide) c hc
  ⟨h.1, h.2.1, h.2.2.1, h.2.2.2.1⟩

/-! ## A qualifying destination that the tables do not hold -/

/-- A call on another key, or on a full key, leaves the key of class 3 and delta 2 as
it is. -/
theorem addCall_frame (k : KingTables) (c0 : Call) (hk : 0 ≤ DeltaOffset + c0.2.1)
    (hs : ∀ c d, 0 ≤ k.PieceDeltaSize c d ∧ k.PieceDeltaSize c d ≤ 2)
    (hne : ¬ (c0.1 = 3 ∧ c0.2.1 = 2) ∨ queenKeySize k = 2)
    (k' : KingTables) (h : addCall k c0 = .ok k') :
    queenKeySize k' = queenKeySize k ∧ ∀ i, queenKeySlot k' i = queenKeySlot k i := by
  unfold addCall at h
  rcases add_attack_cases k c0.1 c0.2.1 c0.2.2 hk hs with
    h1 | ⟨c, d, sz, hcv, hdv, hsz, _, h1⟩
  · rw [h1] at h
    have e := Except.ok.inj h
    subst e
    exact ⟨rfl, fun _ => rfl⟩
  · rw [h1] at h
    have e := Except.ok.inj h
    subst e
    have hkey : ¬ ((⟨3, by decide⟩ : Fin MAX_PIECES) = c ∧
        (⟨121, by decide⟩ : Fin MAX_DELTAS) = d) := by
      rintro ⟨rfl, rfl⟩
      rcases hne with hne | hfull
      · apply hne
        constructor
        · rw [← hcv]; rfl
        · have h121 : ((121 : Nat) : Int) = DeltaOffset + c0.2.1 := hdv
          simp only [DeltaOffset] at h121
          omega
      · unfold queenKeySize at hfull
        rw [hfull] at hsz
        have hlt : sz.val < 2 := sz.isLt
        omega
    unfold queenKeySize queenKeySlot
    constructor
    · rw [inserted_size, if_neg hkey]
    · intro i
      rw [inserted_slot, if_neg (fun h => hkey ⟨h.1, h.2.1⟩)]

/-- Once the key is full, every call of an on-board pair keeps it as it is. -/
theorem keyFull_keeps (king from_ : Int) (hking : SQUARE_IS_OK king = true)
    (hf : SQUARE_IS_OK from_ = true) (c0 : Call) (hc0 : CallOf king from_ c0)
    (k : KingTables) (hk : KeyFull k) : ∃ k', addCall k c0 = .ok k' ∧ KeyFull k' := by
  obtain ⟨k', h, hinv⟩ := addCall_keeps king from_ hking hf c0 hc0 k hk.1
  obtain ⟨_, hkr, _, _⟩ := callOf_range king from_ hking hf c0 hc0
  have hfr := addCall_frame k c0 (by simp only [DeltaOffset]; omega)
    (fun c d => ⟨(hk.1.1 c d).1, (hk.1.1 c d).2.1⟩) (Or.inr hk.2.1) k' h
  refine ⟨k', h, hinv, ?_, ?_, ?_⟩
  · rw [hfr.1]; exact hk.2.1
  · rw [hfr.2]; exact hk.2.2.1
  · rw [hfr.2]; exact hk.2.2.2

/-- While the key is empty, a call of another class or for another delta keeps it
empty. -/
theorem keyEmpty_keeps (king from_ : Int) (hking : SQUARE_IS_OK king = true)
    (hf : SQUARE_IS_OK from_ = true) (c0 : Call) (hc0 : CallOf king from_ c0)
    (hne : c0.1 ≠ 3 ∨ king - from_ ≠ 2)
    (k : KingTables) (hk : KeyEmpty k) : ∃ k', addCall k c0 = .ok k' ∧ KeyEmpty k' := by
  obtain ⟨k', h, hinv⟩ := addCall_keeps king from_ hking hf c0 hc0 k hk.1
  obtain ⟨_, hkr, _, _⟩ := callOf_range king from_ hking hf c0 hc0
  have hkey : c0.2.1 = king - from_ := hc0.1
  have hfr := addCall_frame k c0 (by simp only [DeltaOffset]; omega)
    (fun c d => ⟨(hk.1.1 c d).1, (hk.1.1 c d).2.1⟩)
    (Or.inl (fun h3 => by rcases hne with h | h; exact h h3.1; exact h (hkey ▸ h3.2))) k' h
  refine ⟨k', h, hinv, ?_⟩
  rw [hfr.1]; exact hk.2

set_option maxRecDepth 100000 in
/-- The calls made for the king on c1 (0x46) and the piece on a1 (0x44). -/
theorem pairCalls_c1_a1 :
    pairCalls 70 68 = [(0, 2, 18), (1, 2, 17), (2, 2, 1), (3, 2, 1), (3, 2, 17)] := by
  decide

/-- The pair king = 0x46, from = 0x44 takes the key of class 3 and delta 2 from empty
to full: its calls for class 3 insert the targets 1 and 17. -/
theorem pair_fills (k : KingTables) (hk : KeyEmpty k) :
    ∃ k', populatePair 70 68 k = .ok k' ∧ KeyFull k' := by
  have hking : SQUARE_IS_OK 70 = true := by decide
  have hf : SQUARE_IS_OK 68 = true := by decide
  have hcall : ∀ c ∈ pairCalls 70 68, CallOf 70 68 c := pairCalls_spec 70 68
  rw [pairCalls_c1_a1] at hcall
  rw [populatePair_calls, pairCalls_c1_a1]
  simp only [List.foldlM_cons, List.foldlM_nil]
  obtain ⟨k1, h1, hk1⟩ := keyEmpty_keeps 70 68 hking hf (0, 2, 18)
    (hcall _ (by simp)) (Or.inl (by decide)) k hk
  rw [h1, bind_ok]
  obtain ⟨k2, h2, hk2⟩ := keyEmpty_keeps 70 68 hking hf (1, 2, 17)
    (hcall _ (by simp)) (Or.inl (by decide)) k1 hk1
  rw [h2, bind_ok]
  obtain ⟨k3, h3, hk3⟩ := keyEmpty_keeps 70 68 hking hf (2, 2, 1)
    (hcall _ (by simp)) (Or.inl (by decide)) k2 hk2
  rw [h3, bind_ok]
  obtain ⟨k4, h4, hk4⟩ := addCall_keeps 70 68 hking hf (3, 2, 1) (hcall _ (by simp)) k3 hk3.1
  rw [h4, bind_ok]
  obtain ⟨k5, h5, hk5⟩ := addCall_keeps 70 68 hking hf (3, 2, 17) (hcall _ (by simp)) k4 hk4
  rw [h5, bind_ok]
  have h4' : add_attack k3 3 2 1 = .ok k4 := h4
  have h5' : add_attack k4 3 2 17 = .ok k5 := h5
  have hz : k3.PieceDeltaSize ⟨3, by decide⟩ ⟨121, by decide⟩ = 0 := hk3.2
  rw [add_attack_at k3 3 2 1 ⟨3, by decide⟩ ⟨121, by decide⟩ rfl rfl (by decide),
    if_neg (by rw [hz]; decide), if_neg (by rw [hz]; decide), if_pos hz] at h4'
  have e4 := Except.ok.inj h4'
  have hs4 : k4.PieceDeltaSize ⟨3, by decide⟩ ⟨121, by decide⟩ = 1 := by
    rw [← e4, inserted_size, if_pos ⟨rfl, rfl⟩]
    decide
  have hv4 : k4.PieceDeltaDelta ⟨3, by decide⟩ ⟨121, by decide⟩ ⟨0, by decide⟩ = 1 := by
    rw [← e4, inserted_slot, if_pos ⟨rfl, rfl, rfl⟩]
    decide
  rw [add_attack_at k4 3 2 17 ⟨3, by decide⟩ ⟨121, by decide⟩ rfl rfl (by decide),
    if_neg (by rw [hs4]; decide), if_pos hs4, if_neg (by rw [hv4]; decide)] at h5'
  have e5 := Except.ok.inj h5'
  refine ⟨k5, rfl, hk5, ?_, ?_, ?_⟩
  · unfold queenKeySize
    rw [← e5, inserted_size, if_pos ⟨rfl, rfl⟩]
    decide
  · unfold queenKeySlot
    rw [← e5, inserted_slot, if_neg (by decide)]
    exact hv4
  · unfold queenKeySlot
    rw [← e5, inserted_slot, if_pos ⟨rfl, rfl, rfl⟩]
    decide

/-- The loop over `from` for one `king` keeps `P`, if the calls of every
on-board pair with this `king` do. -/
theorem fromLoop_keeps (king : Nat) (P : KingTables → Prop)
    (hP : ∀ from_ : Nat, SQUARE_IS_OK (from_ : Int) = true →
      ∀ c, CallOf (king : Int) (from_ : Int) c → ∀ k, P k → ∃ k', addCall k c = .ok k' ∧ P k') :
    ∀ k, P k → ∃ k', (List.range SquareNb).foldlM (fun k (from_ : Nat) =>
        if SQUARE_IS_OK (from_ : Int) then populatePair (king : Int) (from_ : Int) k
        else pure k) k = .ok k' ∧ P k' := by
  intro k hk
  refine foldlM_keeps P _ _ ?_ k hk
  intro from_ _ s' hs'
  by_cases hf : SQUARE_IS_OK (from_ : Int) = true
  · simp only [hf, if_true]
    exact pair_keeps _ _ P (fun c hc => hP from_ hf c (pairCalls_spec _ _ c hc)) s' hs'
  · exact ⟨s', by simp [hf, pure, Except.pure], hs'⟩

/-- The population loops take the key of class 3 and delta 2 from empty to full: the
first on-board pair with `king - from = 2` is king = 0x46, from = 0x44, and its two
targets use up the capacity of the key. -/
theorem populate_fills (k : KingTables) (hk : KeyEmpty k) :
    ∃ k', populate k = .ok k' ∧ KeyFull k' := by
  unfold populate
  obtain ⟨k', h, hP⟩ := range_foldlM_ind
    (fun n s => (n ≤ 70 → KeyEmpty s) ∧ (70 < n → KeyFull s))
    (fun k (king : Nat) =>
      if SQUARE_IS_OK (king : Int) then
        (List.range SquareNb).foldlM (fun k (from_ : Nat) =>
          if SQUARE_IS_OK (from_ : Int) then populatePair (king : Int) (from_ : Int) k
          else pure k) k
      else pure k) SquareNb (by
    intro i _ s hs
    by_cases hking : SQUARE_IS_OK (i : Int) = true
    · simp only [hking, if_true]
      have hir := SQUARE_IS_OK_range _ hking
      rcases Nat.lt_trichotomy i 70 with hlt | heq | hgt
      · obtain ⟨s', h', hs'⟩ := fromLoop_keeps i KeyEmpty (fun from_ hf c hc k hk =>
          keyEmpty_keeps _ _ hking hf c hc
            (Or.inr (by have := SQUARE_IS_OK_range _ hf; omega)) k hk) s (hs.1 (by omega))
        exact ⟨s', h', fun _ => hs', fun h => absurd h (by omega)⟩
      · subst heq
        obtain ⟨s', h', hs'⟩ := range_foldlM_ind
          (fun n s => (n ≤ 68 → KeyEmpty s) ∧ (68 < n → KeyFull s))
          (fun k (from_ : Nat) =>
            if SQUARE_IS_OK (from_ : Int) then populatePair ((70 : Nat) : Int) (from_ : Int) k
            else pure k) SquareNb (by
          intro j _ r hr
          by_cases hf : SQUARE_IS_OK (j : Int) = true
          · simp only [hf, if_true]
            have hjr := SQUARE_IS_OK_range _ hf
            rcases Nat.lt_trichotomy j 68 with hlt | heq | hgt
            · omega
            · subst heq
              obtain ⟨r', hr', hfull⟩ := pair_fills r (hr.1 (by omega))
              exact ⟨r', hr', fun h => absurd h (by omega), fun _ => hfull⟩
            · obtain ⟨r', hr', hfull⟩ := pair_keeps _ _ KeyFull (fun c hc k hk =>
                keyFull_keeps _ _ hking hf c (pairCalls_spec _ _ c hc) k hk) r (hr.2 hgt)
              exact ⟨r', hr', fun h => absurd h (by omega), fun _ => hfull⟩
          · refine ⟨r, by simp [hf, pure, Except.pure], fun h => hr.1 (by omega), fun h => ?_⟩
            apply hr.2
            rcases Nat.lt_or_ge 68 j with h1 | h1
            · exact h1
            · have : j = 68 := by omega
              subst this
              exact absurd (by decide) hf)
          s ⟨fun _ => hs.1 (by omega), fun h => absurd h (by decide)⟩
        exact ⟨s', h', fun h => absurd h (by omega), fun _ => hs'.2 (by decide)⟩
      · obtain ⟨s', h', hs'⟩ := fromLoop_keeps i KeyFull (fun from_ hf c hc k hk =>
          keyFull_keeps _ _ hking hf c hc k hk) s (hs.2 hgt)
        exact ⟨s', h', fun h => absurd h (by omega), fun _ => hs'⟩
    · refine ⟨s, by simp [hking, pure, Except.pure], fun h => hs.1 (by omega), fun h => ?_⟩
      apply hs.2
      rcases Nat.lt_or_ge 70 i with h1 | h1
      · exact h1
      · have : i = 70 := by omega
        subst this
        exact absurd (by decide) hking)
    k ⟨fun _ => hk, fun h => absurd h (by decide)⟩
  exact ⟨k', h, hP.2 (by decide)⟩

theorem kingCleared_keyEmpty : KeyEmpty kingCleared := ⟨kingCleared_tableInv, rfl⟩

/-- The key of class 3 and delta 2 in the tables that `attack_init` leaves behind. -/
theorem kingInit_keyFull : KeyFull kingInit := by
  obtain ⟨k', h1, h2⟩ := populate_fills kingCleared kingCleared_keyEmpty
  rw [populate_eq.1] at h1
  have e : kingInit = k' := Except.ok.inj h1
  rw [e]
  exact h2

theorem initTables_keyFull : KeyFull initTables.toKingTables := by
  rw [initTables_king]
  exact kingInit_keyFull

/-- A full key that holds 1 and 17 does not hold -15. -/
theorem keyFull_misses (k : KingTables) (h : KeyFull k) :
    ∃ d : Fin MAX_DELTAS, (d.val : Int) = DeltaOffset + (86 - 84) ∧
      k.PieceDeltaSize ⟨3, by decide⟩ d = 2 ∧
      k.PieceDeltaDelta ⟨3, by decide⟩ d ⟨0, by decide⟩ = 1 ∧
      k.PieceDeltaDelta ⟨3, by decide⟩ d ⟨1, by decide⟩ = 17 ∧
      ∀ i : Fin MAX_ATTACKS_PER_DELTA, k.PieceDeltaDelta ⟨3, by decide⟩ d i ≠ 69 - 84 := by
  obtain ⟨_, h2, h0, h1⟩ := h
  refine ⟨⟨121, by decide⟩, by decide, h2, h0, h1, ?_⟩
  intro i
  have hi : i = ⟨0, by decide⟩ ∨ i = ⟨1, by decide⟩ := by
    have hlt : i.val < 2 := i.isLt
    rcases Nat.lt_or_ge i.val 1 with h | h
    · exact Or.inl (Fin.ext (by show i.val = 0; omega))
    · exact Or.inr (Fin.ext (by show i.val = 1; omega))
  unfold queenKeySlot at h0 h1
  rcases hi with rfl | rfl
  · rw [h0]; decide
  · rw [h1]; decide

set_option maxRecDepth 100000 in
/-- C16: the king-relative tables are not a complete enumeration. With the king on c2
(0x56 = 86) and a queen on a2 (0x54 = 84), the square b1 (0x45 = 69) is on the board and
next to the king, and the builder makes the call `add_attack(3, 86 - 84, 69 - 84)` for
it; yet when `attack_init` returns the key of class 3 and delta `86 - 84` is full with
the two other targets 1 and 17, and no slot of it holds `69 - 84`. -/
theorem C16_table_not_complete (t0 : Tables) :
    SQUARE_IS_OK 86 = true ∧ SQUARE_IS_OK 84 = true ∧ SQUARE_IS_OK 69 = true ∧
    DISTANCE 69 86 = 1 ∧
    ((3 : Int), (86 : Int) - 84, (69 : Int) - 84) ∈ pairCalls 86 84 ∧
    (∀ k, populatePair 86 84 k = (pairCalls 86 84).foldlM addCall k) ∧
    ∃ t, attack_init t0 = .ok t ∧
      ∃ d : Fin MAX_DELTAS, (d.val : Int) = DeltaOffset + (86 - 84) ∧
        t.PieceDeltaSize ⟨3, by decide⟩ d = 2 ∧
        t.PieceDeltaDelta ⟨3, by decide⟩ d ⟨0, by decide⟩ = 1 ∧
        t.PieceDeltaDelta ⟨3, by decide⟩ d ⟨1, by decide⟩ = 17 ∧
        ∀ i : Fin MAX_ATTACKS_PER_DELTA, t.PieceDeltaDelta ⟨3, by decide⟩ d i ≠ 69 - 84 :=
  ⟨by decide, by decide, by decide, by decide, by decide, populatePair_calls 86 84,
    initTables, attack_init_eq t0, keyFull_misses initTables.toKingTables initTables_keyFull⟩

end Attack
